import Mathlib

/-!
Verification development for the rust-etree library (`src/etree.rs`): a flat,
pre-order array DOM for XML with string-encoded hierarchy ("routes"), a
mutation algebra, serialization and an XPath-subset query engine.

Rust strings are modelled as `List Char`; `usize` as `Nat` (with checked
subtraction made explicit where the source can underflow); panicking code
paths return `none`.  The node-record accessors (`etreenode.rs`) and the
event-stream XML tokenizer (`quick_xml`) are external collaborators of the
crate and are modelled at their interface as the spec describes them.
-/

abbrev Chars := List Char

/-- Rust `str::starts_with`. -/
def strStartsWith (l p : Chars) : Bool := List.isPrefixOf p l

theorem strStartsWith_iff (l p : Chars) : strStartsWith l p = true ↔ p <+: l := by
  simp [strStartsWith]

theorem strStartsWith_refl (l : Chars) : strStartsWith l l = true := by
  simp [strStartsWith_iff]

/-- Rust `str::ends_with`. -/
def strEndsWith (l s : Chars) : Bool := List.isSuffixOf s l

/-- The decimal digit character for a value below ten. -/
def digitChar : Nat → Char
  | 0 => '0' | 1 => '1' | 2 => '2' | 3 => '3' | 4 => '4'
  | 5 => '5' | 6 => '6' | 7 => '7' | 8 => '8' | _ => '9'

/-- Fuel-indexed digit rendering (structural, so concrete documents
evaluate). -/
def natCharsAux : Nat → Nat → Chars
  | 0, _ => []
  | fuel + 1, n =>
    if n < 10 then [digitChar n]
    else natCharsAux fuel (n / 10) ++ [digitChar (n % 10)]

/-- Decimal digits of a natural number, as Rust's `format!` renders a `usize`. -/
def natChars (n : Nat) : Chars := natCharsAux (n + 1) n

theorem natCharsAux_congr : ∀ (f1 : Nat) (n f2 : Nat), n < f1 → n < f2 →
    natCharsAux f1 n = natCharsAux f2 n := by
  intro f1
  induction f1 with
  | zero => intro n f2 h; omega
  | succ f1 ih =>
    intro n f2 h1 h2
    cases f2 with
    | zero => omega
    | succ f2 =>
      rw [natCharsAux, natCharsAux]
      by_cases h : n < 10
      · simp [h]
      · simp only [h, if_false]
        have hd : n / 10 < n := Nat.div_lt_self (by omega) (by omega)
        rw [ih (n / 10) f2 (by omega) (by omega)]

theorem natChars_unfold (n : Nat) :
    natChars n = if n < 10 then [digitChar n]
                 else natChars (n / 10) ++ [digitChar (n % 10)] := by
  rw [natChars, natCharsAux]
  by_cases h : n < 10
  · simp [h]
  · simp only [h, if_false]
    rw [natChars]
    have hd : n / 10 < n := Nat.div_lt_self (by omega) (by omega)
    rw [natCharsAux_congr n (n / 10) (n / 10 + 1) (by omega) (by omega)]

theorem natChars_ne_nil (n : Nat) : natChars n ≠ [] := by
  rw [natChars_unfold]
  split <;> simp

/-- Value of a decimal digit string (Rust `str::parse::<usize>` on the digits
captured by the route regex). -/
def digitsVal (l : Chars) : Nat :=
  l.foldl (fun acc c => acc * 10 + (c.toNat - '0'.toNat)) 0

/-- Modelled from the spec: the node record of `etreenode.rs` (not under
`src/`): tag name (local), namespace and abbreviation, ordered attribute
mapping, optional text, tail, stable id (`idx`), route string.  The passive
accessors are field reads/writes; `set_attr` keeps insertion order with
unique keys. -/
structure ETreeNode where
  name : Chars
  nsAbbrev : Chars
  ns : Option Chars
  attrs : List (Chars × Chars)
  text : Option Chars
  tail : Chars
  idx : Nat
  route : Chars
  deriving DecidableEq, Repr

/-- Modelled from the spec: `ETreeNode::new` builds a detached node with the
given tag and empty/default fields. -/
def ETreeNode.new (tag : Chars) : ETreeNode :=
  { name := tag, nsAbbrev := [], ns := none, attrs := [], text := none,
    tail := [], idx := 0, route := [] }

/-- Modelled from the spec: `get_localname` returns the stored local tag name. -/
def ETreeNode.localname (n : ETreeNode) : Chars := n.name

/-- Modelled from the spec: `get_name` returns the prefixed tag name
(`abbrev:local` when an abbreviation is present). -/
def ETreeNode.fullName (n : ETreeNode) : Chars :=
  if n.nsAbbrev = [] then n.name else n.nsAbbrev ++ ':' :: n.name

/-- Modelled from the spec: `set_attr` — ordered mapping, keys unique,
insertion order preserved (replace in place or append). -/
def ETreeNode.setAttr (n : ETreeNode) (k v : Chars) : ETreeNode :=
  { n with attrs := setAttrList n.attrs k v }
where
  setAttrList : List (Chars × Chars) → Chars → Chars → List (Chars × Chars)
    | [], k, v => [(k, v)]
    | (k', v') :: rest, k, v =>
      if k' = k then (k, v) :: rest else (k', v') :: setAttrList rest k v

/-- Is the node a synthetic marker (comment/CDATA/PI/doctype): localname
starts with `<` and ends with `>` (`etree.rs` uses this test throughout). -/
def ETreeNode.isMeta (n : ETreeNode) : Bool :=
  strStartsWith n.localname ['<'] && strEndsWith n.localname ['>']

/-- The document store of `etree.rs` (`struct ETree`). The `HashMap` id index
is modelled as an association list with insert-overwrite semantics. -/
structure ETree where
  indent : Chars
  count : Nat
  version : Chars
  encoding : Option Chars
  standalone : Option Chars
  data : List ETreeNode
  crlf : Chars
  enableIndex : Bool
  index : List (Nat × Nat)
  deriving DecidableEq, Repr

/-- `HashMap::insert` on the association-list model (overwrite or append). -/
def assocInsert : List (Nat × Nat) → Nat → Nat → List (Nat × Nat)
  | [], k, v => [(k, v)]
  | (k', v') :: rest, k, v =>
    if k' = k then (k, v) :: rest else (k', v') :: assocInsert rest k v

/-- `HashMap::remove` on the association-list model. -/
def assocRemove : List (Nat × Nat) → Nat → List (Nat × Nat)
  | [], _ => []
  | (k', v') :: rest, k =>
    if k' = k then rest else (k', v') :: assocRemove rest k

/-- `HashMap::get` on the association-list model. -/
def assocGet : List (Nat × Nat) → Nat → Option Nat
  | [], _ => none
  | (k', v') :: rest, k => if k' = k then some v' else assocGet rest k

/-- The node at a position (Rust's `data[i]`; out of range reads give the
default node, which the reachable code never does). -/
def nodeAt (data : List ETreeNode) (i : Nat) : ETreeNode :=
  data.getD i (ETreeNode.new [])

/-- Replace the node at a position (Rust's in-place mutation of `data[i]`). -/
def ETree.modifyNode (d : ETree) (i : Nat) (f : ETreeNode → ETreeNode) : ETree :=
  { d with data := d.data.modify f i }

/-- `ETree::root`: skip leading synthetic meta nodes, return the first
non-meta position (`etree.rs` lines 104-114). -/
def ETree.root (d : ETree) : Nat :=
  go d.data 0
where
  go : List ETreeNode → Nat → Nat
    | [], i => i
    | n :: rest, i => if n.isMeta then go rest (i + 1) else i

/-- The route regex `^(?P<parent>#.*?)(?P<current>\d+)#$` of `etree.rs`: with
the lazy parent group, a match strips the final `#`, then the maximal
non-empty trailing digit run, and the remaining prefix (which must be
non-empty and start with `#`) is the parent; the digit run is `current`. -/
def routeParentId (r : Chars) : Option (Chars × Chars) :=
  match r.reverse with
  | '#' :: rest =>
    let ds := rest.takeWhile Char.isDigit
    let par := (rest.drop ds.length).reverse
    if ds = [] then none
    else match par with
      | '#' :: _ => some (par, ds.reverse)
      | _ => none
  | _ => none

/-- `ETree::parent` (`etree.rs` lines 117-134): parse the route as
`parent ++ digits ++ "#"` and scan backward for the first position whose
route equals the parent prefix. -/
def ETree.parent (d : ETree) (pos : Nat) : Option Nat :=
  if pos ≤ 0 ∨ pos ≥ d.data.length then none
  else
    match routeParentId ((nodeAt d.data pos).route) with
    | none => none
    | some (par, _) => scanBack d.data par pos
where
  scanBack (data : List ETreeNode) (par : Chars) : Nat → Option Nat
    | 0 => none
    | pos2 + 1 =>
      if (nodeAt data pos2).route = par then some pos2
      else scanBack data par pos2

/-- `ETree::children` (`etree.rs` lines 137-151): scan forward from `pos+1`
collecting positions whose route equals `route(pos) ++ idx(pos) ++ "#"`,
stopping at the first position whose route does not start with it. -/
def ETree.children (d : ETree) (pos : Nat) : List Nat :=
  if pos < d.data.length then
    let n := nodeAt d.data pos
    let target := n.route ++ natChars n.idx ++ ['#']
    childScan target (d.data.drop (pos + 1)) (pos + 1)
  else []
where
  childScan (target : Chars) : List ETreeNode → Nat → List Nat
    | [], _ => []
    | n :: rest, i =>
      if n.route = target then i :: childScan target rest (i + 1)
      else if ¬ strStartsWith n.route target then []
      else childScan target rest (i + 1)

/-- `ETree::descendant` (`etree.rs` lines 165-178): scan forward collecting
positions while the route starts with `route(pos) ++ idx(pos) ++ "#"`. -/
def ETree.descendant (d : ETree) (pos : Nat) : List Nat :=
  if pos < d.data.length then
    let n := nodeAt d.data pos
    let target := n.route ++ natChars n.idx ++ ['#']
    descScan target (d.data.drop (pos + 1)) (pos + 1)
  else []
where
  descScan (target : Chars) : List ETreeNode → Nat → List Nat
    | [], _ => []
    | n :: rest, i =>
      if strStartsWith n.route target then i :: descScan target rest (i + 1)
      else []

/-- `ETree::previous` (`etree.rs` lines 181-199): scan backward for the
nearest position with the same route, stopping once a route no longer starts
with `route(pos)`. -/
def ETree.previous (d : ETree) (pos : Nat) : Option Nat :=
  if pos ≤ 0 ∨ pos ≥ d.data.length then none
  else prevScan d.data ((nodeAt d.data pos).route) pos
where
  prevScan (data : List ETreeNode) (route : Chars) : Nat → Option Nat
    | 0 => none
    | pos2 + 1 =>
      let cur := (nodeAt data pos2).route
      if cur = route then some pos2
      else if ¬ strStartsWith cur route then none
      else prevScan data route pos2

/-- `ETree::next` (`etree.rs` lines 202-220).  The guard evaluates
`data.len() - 1`, which underflows `usize` when the document is empty, so
the outer `Option` is `none` exactly on the empty document (the checked
subtraction has no value there); otherwise the inner value is the scan
forward for the nearest position with the same route, stopping once a route
no longer starts with `route(pos)`. -/
def ETree.next (d : ETree) (pos : Nat) : Option (Option Nat) :=
  match d.data.length with
  | 0 => none
  | n + 1 =>
    some (if pos ≥ n then none
          else nextScan d.data ((nodeAt d.data pos).route)
                 (d.data.length - (pos + 1)) (pos + 1))
where
  nextScan (data : List ETreeNode) (route : Chars) : Nat → Nat → Option Nat
    | 0, _ => none
    | fuel + 1, pos2 =>
      if pos2 < data.length then
        let cur := (nodeAt data pos2).route
        if cur = route then some pos2
        else if ¬ strStartsWith cur route then none
        else nextScan data route fuel (pos2 + 1)
      else none

/-- `ETree::node` (`etree.rs` lines 237-239). -/
def ETree.node (d : ETree) (pos : Nat) : Option ETreeNode :=
  d.data.get? pos

/-- Rust `str::trim` (leading whitespace), modelled over ASCII whitespace. -/
def strTrimFront (l : Chars) : Chars := l.dropWhile Char.isWhitespace

/-- Rust `str::trim` (trailing whitespace). -/
def strTrimBack (l : Chars) : Chars := (l.reverse.dropWhile Char.isWhitespace).reverse

/-- Rust `str::trim`. -/
def strTrim (l : Chars) : Chars := strTrimBack (strTrimFront l)

/-- Rust `str::lines` splitting on newline: every part, the trailing one kept
separate (`splitNl "" = [[]]`). -/
def splitNl : Chars → List Chars
  | [] => [[]]
  | c :: l =>
    if c = '\n' then [] :: splitNl l
    else
      match splitNl l with
      | [] => [[c]]
      | h :: t => (c :: h) :: t

/-- Rust `str::lines` strips one trailing carriage return from each line. -/
def stripCr (l : Chars) : Chars :=
  if strEndsWith l ['\r'] then l.take (l.length - 1) else l

/-- Rust `str::lines`: split on `\n`, drop the final empty segment produced by
a trailing newline, strip a trailing `\r` from each line. -/
def linesOf (l : Chars) : List Chars :=
  let ps := splitNl l
  let ps := match ps.getLast? with
    | some [] => ps.dropLast
    | _ => ps
  ps.map stripCr

/-- Rust `str::contains("\r\n")`. -/
def containsCrlf : Chars → Bool
  | '\r' :: '\n' :: _ => true
  | _ :: rest => containsCrlf rest
  | [] => false

/-- Rust `str::replace`, fuel-indexed (structural): replace every
non-overlapping occurrence of `pat` left to right. -/
def strReplaceAllAux (pat rep : Chars) : Nat → Chars → Chars
  | 0, l => l
  | fuel + 1, l =>
    if pat = [] then l
    else if strStartsWith l pat = true then
      rep ++ strReplaceAllAux pat rep fuel (l.drop pat.length)
    else
      match l with
      | [] => []
      | c :: r => c :: strReplaceAllAux pat rep fuel r

/-- Rust `str::replace`: replace every non-overlapping occurrence of `pat`
left to right. -/
def strReplaceAll (l pat rep : Chars) : Chars :=
  strReplaceAllAux pat rep (l.length + 1) l

/-- `ETree::subtree` (`etree.rs` lines 248-274): deep-copy `pos` and its
descendants into a fresh ownerless document, re-basing every route by
dropping `route(pos).len() - 1` characters.  Outer `none` models the panic
when that subtraction underflows or a descendant's route is shorter than the
base (`get(..)` + `unwrap`); `some none` is the source's `None` for an
out-of-range position. -/
def ETree.subtree (d : ETree) (pos : Nat) : Option (Option ETree) :=
  if pos ≥ d.data.length then some none
  else
    let n0 := nodeAt d.data pos
    if n0.route = [] then none
    else
      let base := n0.route.length - 1
      let offspring := d.descendant pos
      match restNodes d base offspring with
      | none => none
      | some ns =>
        some (some
          { indent := d.indent, count := 0, version := d.version,
            encoding := d.encoding, standalone := d.standalone,
            data := { n0 with route := n0.route.drop base } :: ns,
            crlf := d.crlf, enableIndex := false, index := [] })
where
  restNodes (d : ETree) (base : Nat) : List Nat → Option (List ETreeNode)
    | [] => some []
    | i :: rest =>
      let n := nodeAt d.data i
      if n.route.length < base then none
      else (restNodes d base rest).map ({ n with route := n.route.drop base } :: ·)

/-- Association-list model of the id index update `update_index` performs on
existing keys only (`HashMap::get_mut`). -/
def assocSetIf : List (Nat × Nat) → Nat → Nat → List (Nat × Nat)
  | [], _, _ => []
  | (k', v') :: rest, k, v =>
    if k' = k then (k, v) :: rest else (k', v') :: assocSetIf rest k v

/-- `ETree::update_index` (`etree.rs` lines 973-981): when indexing is
enabled, point every already-indexed id at or after `pos` to its current
position. -/
def ETree.updateIndex (d : ETree) (pos : Nat) : ETree :=
  if d.enableIndex then
    { d with index := go d.index (d.data.drop pos) pos }
  else d
where
  go : List (Nat × Nat) → List ETreeNode → Nat → List (Nat × Nat)
    | m, [], _ => m
    | m, n :: rest, i => go (assocSetIf m n.idx i) rest (i + 1)

/-- `ETree::prepare_append_next` (`etree.rs` lines 818-841): capture the
anchor (route and tail of `pos`), hand `pos`'s tail back to what preceded it
(previous sibling's tail, or the parent's text — `none` models the `unwrap`
when that text is absent), and aim at the slot after `pos`'s last
descendant. -/
def ETree.prepareAppendNext (d : ETree) (pos : Nat) : Option (ETree × ETreeNode) :=
  if pos ≥ d.data.length then none
  else
    let cur := nodeAt d.data pos
    let node := { ETreeNode.new [] with tail := cur.tail, route := cur.route }
    let d1? : Option ETree :=
      match d.previous pos with
      | some prev =>
        some (d.modifyNode pos
          (fun n => { n with tail := (nodeAt d.data prev).tail }))
      | none =>
        match d.parent pos with
        | some par =>
          match (nodeAt d.data par).text with
          | none => none
          | some t => some (d.modifyNode pos (fun n => { n with tail := t }))
        | none => some d
    match d1? with
    | none => none
    | some d1 =>
      let offspring := d1.descendant pos
      let newpos := match offspring.getLast? with
        | none => pos + 1
        | some l => l + 1
      some (d1, { node with idx := newpos })

/-- `ETree::prepare_append_previous` (`etree.rs` lines 796-817): delegate to
`prepare_append_next` on the previous sibling, or anchor just after the
parent (taking over the parent's text as tail — `none` models the `unwrap`
when it is absent). -/
def ETree.prepareAppendPrevious (d : ETree) (pos : Nat) : Option (ETree × ETreeNode) :=
  if pos ≥ d.data.length then none
  else
    match d.previous pos with
    | some prev => d.prepareAppendNext prev
    | none =>
      match d.parent pos with
      | some par =>
        let parn := nodeAt d.data par
        match parn.text with
        | none => none
        | some t =>
          some (d, { ETreeNode.new [] with
                     tail := t,
                     route := parn.route ++ natChars parn.idx ++ ['#'],
                     idx := par + 1 })
      | none => none

/-- `ETree::prepare_append_child` (`etree.rs` lines 842-888): if `pos` has no
children, compute the tail from the previous sibling / parent text / line
terminator and, when `pos`'s text is absent or empty, set it to
`tail ++ indent`; otherwise hand the last child's tail to the new node and
backfill it from its previous sibling or the parent's text. -/
def ETree.prepareAppendChild (d : ETree) (pos : Nat) : Option (ETree × ETreeNode) :=
  if pos ≥ d.data.length then none
  else
    let n0 := nodeAt d.data pos
    let node := { ETreeNode.new [] with route := n0.route ++ natChars n0.idx ++ ['#'] }
    match d.children pos with
    | [] =>
      let tail := match d.previous pos with
        | some prev => (nodeAt d.data prev).tail
        | none =>
          match d.parent pos with
          | some par => ((nodeAt d.data par).text).getD []
          | none => d.crlf
      let txt := tail ++ d.indent
      let d1 :=
        if n0.text = none then d.modifyNode pos (fun n => { n with text := some txt })
        else if n0.text = some [] then d.modifyNode pos (fun n => { n with text := some txt })
        else d
      some (d1, { node with tail := tail, idx := pos + 1 })
    | c :: cs =>
      let prev := (c :: cs).getLast (by simp)
      let node := { node with tail := (nodeAt d.data prev).tail }
      let d1? : Option ETree :=
        match d.previous prev with
        | some p2 =>
          some (d.modifyNode prev
            (fun n => { n with tail := (nodeAt d.data p2).tail }))
        | none =>
          match d.parent prev with
          | some par =>
            some (d.modifyNode prev
              (fun n => { n with tail := ((nodeAt d.data par).text).getD [] }))
          | none => none
      match d1? with
      | none => none
      | some d1 =>
        let offspring := d1.descendant pos
        match offspring.getLast? with
        | none => none
        | some l => some (d1, { node with idx := l + 1 })

/-- The shared splice step of `append_previous_node`/`append_next_node`/
`append_child_node` (`etree.rs` lines 279-328): stamp id, tail and route on
the incoming node, insert it at the anchor index (`none` models `Vec::insert`
out of bounds), record it in the id index, shift the index, and bump the
counter. -/
def ETree.spliceNode (d : ETree) (cell node : ETreeNode) : Option (ETree × Nat) :=
  if cell.idx > d.data.length then none
  else
    let n' := { node with idx := d.count, tail := cell.tail, route := cell.route }
    let d2 := { d with data := d.data.insertIdx cell.idx n',
                       index := assocInsert d.index d.count cell.idx }
    let d3 := d2.updateIndex (cell.idx + 1)
    some ({ d3 with count := d3.count + 1 }, cell.idx)

/-- `ETree::append_previous_node` (`etree.rs` lines 279-292). -/
def ETree.appendPreviousNode (d : ETree) (pos : Nat) (node : ETreeNode) :
    Option (ETree × Nat) :=
  match d.prepareAppendPrevious pos with
  | none => none
  | some (d1, cell) => d1.spliceNode cell node

/-- `ETree::append_next_node` (`etree.rs` lines 297-310). -/
def ETree.appendNextNode (d : ETree) (pos : Nat) (node : ETreeNode) :
    Option (ETree × Nat) :=
  match d.prepareAppendNext pos with
  | none => none
  | some (d1, cell) => d1.spliceNode cell node

/-- `ETree::append_child_node` (`etree.rs` lines 315-328). -/
def ETree.appendChildNode (d : ETree) (pos : Nat) (node : ETreeNode) :
    Option (ETree × Nat) :=
  match d.prepareAppendChild pos with
  | none => none
  | some (d1, cell) => d1.spliceNode cell node

/-- `ETree::remove` (`etree.rs` lines 444-467): heal whitespace (previous
sibling inherits the tail; an only child trims one indent unit from the
parent's text — `none` models the `unwrap` on an absent parent text and the
`usize` underflow inside `next` on an empty document).  This is the first
half of `ETree::remove`. -/
def ETree.removeHeal (d : ETree) (pos : Nat) : Option ETree :=
  match d.previous pos with
  | some prev =>
    some (d.modifyNode prev
      (fun n => { n with tail := (nodeAt d.data pos).tail }))
  | none =>
    match d.next pos with
    | none => none
    | some (some _) => some d
    | some none =>
      match d.parent pos with
      | none => some d
      | some par =>
        match (nodeAt d.data par).text with
        | none => none
        | some t =>
          if strEndsWith t d.indent then
            some (d.modifyNode par
              (fun n => { n with text := some (t.take (t.length - d.indent.length)) }))
          else some d

/-- `ETree::remove`, continued: delete `pos` and its descendants from the
sequence and the id index (`none` when `pos` is out of range, where the
source indexes out of bounds). -/
def ETree.remove (d : ETree) (pos : Nat) : Option ETree :=
  match d.removeHeal pos with
  | none => none
  | some d1 =>
    let offspring := d1.descendant pos
    let d2 := removeDesc d1 offspring.reverse
    if pos < d2.data.length then
      let idxv := (nodeAt d2.data pos).idx
      some (ETree.updateIndex
        { d2 with data := d2.data.eraseIdx pos, index := assocRemove d2.index idxv } pos)
    else none
where
  removeDesc : ETree → List Nat → ETree
    | d, [] => d
    | d, i :: rest =>
      removeDesc
        { d with index := assocRemove d.index ((nodeAt d.data i).idx),
                 data := d.data.eraseIdx i } rest

/-- `ETree::noindent` (`etree.rs` lines 470-481): clear indent and line
terminator, trim every tail and every present text, and return the old
terminator-plus-indent. -/
def ETree.noindent (d : ETree) : ETree × Chars :=
  let old := d.crlf ++ d.indent
  ({ d with indent := [], crlf := [],
            data := d.data.map
              (fun n => { n with tail := strTrim n.tail, text := n.text.map strTrim }) },
   old)

/-- `ETree::set_indent` (`etree.rs` lines 925-939): derive the line
terminator and indent unit from the argument's lines; `none` models the
`lines[lines.len() - 1]` underflow when the argument has no lines. -/
def ETree.setIndent (d : ETree) (ind : Chars) : Option ETree :=
  let lines := linesOf ind
  match lines.getLast? with
  | none => none
  | some lastLine =>
    let crlf :=
      if lines.length ≥ 2 ∧ lastLine.length > 0 then
        (if containsCrlf ind then ['\r', '\n']
         else if ind.contains '\n' then ['\n']
         else ['\r'])
      else ['\n']
    some { d with crlf := crlf, indent := lastLine }

/-- `ETree::pretty_tree` (`etree.rs` lines 940-964), fuel-indexed: stamp the
tail `crlf ++ indent × level`; with children, rewrite the text to
`trim(text) ++ crlf ++ indent × (level+1)` (`none` models the `unwrap` on an
absent text), recurse over the children (the fold is the child loop of the
source, surfaced as `ETree.prettyKids` below), and restamp the last child's
tail; on a non-meta leaf trim the text.  `none` also covers an out-of-range
position (the source indexes out of bounds there) and fuel exhaustion, which
the call sites' fuel `data.len() + 1` makes unreachable. -/
def ETree.prettyTree : Nat → ETree → Nat → Nat → Option ETree
  | 0, _, _, _ => none
  | fuel + 1, d, pos, level =>
    if pos < d.data.length then
      let tail := d.crlf ++ (List.replicate level d.indent).join
      let d1 := d.modifyNode pos (fun n => { n with tail := tail })
      match d1.children pos with
      | [] =>
        if (nodeAt d1.data pos).isMeta then some d1
        else
          match (nodeAt d1.data pos).text with
          | none => some d1
          | some t => some (d1.modifyNode pos (fun n => { n with text := some (strTrim t) }))
      | c :: cs =>
        match (nodeAt d1.data pos).text with
        | none => none
        | some t =>
          let txt := strTrim t ++ d1.crlf ++ (List.replicate (level + 1) d1.indent).join
          let d2 := d1.modifyNode pos (fun n => { n with text := some txt })
          match (c :: cs).foldl
              (fun acc k => acc.bind (fun dd => ETree.prettyTree fuel dd k (level + 1)))
              (some d2) with
          | none => none
          | some d3 =>
            some (d3.modifyNode ((c :: cs).getLast (by simp))
              (fun n => { n with tail := tail }))
    else none

/-- The child loop of `pretty_tree` (the fold inside `prettyTree`, named). -/
def ETree.prettyKids (fuel : Nat) (d : ETree) (cs : List Nat) (level : Nat) :
    Option ETree :=
  cs.foldl (fun acc k => acc.bind (fun dd => ETree.prettyTree fuel dd k level)) (some d)

theorem prettyKids_foldl_none (fuel level : Nat) :
    ∀ cs : List Nat,
      List.foldl (fun acc k => acc.bind (fun dd => ETree.prettyTree fuel dd k level))
        none cs = none := by
  intro cs
  induction cs with
  | nil => rfl
  | cons c cs ih => exact ih

theorem prettyKids_nil (fuel : Nat) (d : ETree) (level : Nat) :
    ETree.prettyKids fuel d [] level = some d := rfl

theorem prettyKids_cons (fuel : Nat) (d : ETree) (c : Nat) (cs : List Nat) (level : Nat) :
    ETree.prettyKids fuel d (c :: cs) level =
      match ETree.prettyTree fuel d c level with
      | none => none
      | some d2 => ETree.prettyKids fuel d2 cs level := by
  rw [ETree.prettyKids, List.foldl_cons]
  cases hpt : ETree.prettyTree fuel d c level with
  | none =>
    have hbind : (some d).bind (fun dd => ETree.prettyTree fuel dd c level) = none := by
      rw [Option.bind, hpt]
    rw [hbind]
    exact prettyKids_foldl_none fuel level cs
  | some d2 =>
    have hbind : (some d).bind (fun dd => ETree.prettyTree fuel dd c level) = some d2 := by
      rw [Option.bind, hpt]
    rw [hbind]
    rfl

/-- The one-step unfolding of `prettyTree` at positive fuel, phrased through
`prettyKids`. -/
theorem prettyTree_unfold (fuel : Nat) (d : ETree) (pos level : Nat) :
    ETree.prettyTree (fuel + 1) d pos level =
      (if pos < d.data.length then
        let tail := d.crlf ++ (List.replicate level d.indent).join
        let d1 := d.modifyNode pos (fun n => { n with tail := tail })
        match d1.children pos with
        | [] =>
          if (nodeAt d1.data pos).isMeta then some d1
          else
            match (nodeAt d1.data pos).text with
            | none => some d1
            | some t => some (d1.modifyNode pos (fun n => { n with text := some (strTrim t) }))
        | c :: cs =>
          match (nodeAt d1.data pos).text with
          | none => none
          | some t =>
            let txt := strTrim t ++ d1.crlf ++ (List.replicate (level + 1) d1.indent).join
            let d2 := d1.modifyNode pos (fun n => { n with text := some txt })
            match ETree.prettyKids fuel d2 (c :: cs) (level + 1) with
            | none => none
            | some d3 =>
              some (d3.modifyNode ((c :: cs).getLast (by simp))
                (fun n => { n with tail := tail }))
      else none) := rfl

/-- `ETree::pretty` (`etree.rs` lines 484-497): set the indent, stamp the
line terminator as tail on every leading meta node, then pretty-print the
tree rooted at the first non-meta position. -/
def ETree.pretty (d : ETree) (ind : Chars) : Option ETree :=
  match d.setIndent ind with
  | none => none
  | some d0 =>
    let (d1, idx) := skipMeta d0 (d0.data.length) 0
    ETree.prettyTree (d1.data.length + 1) d1 idx 0
where
  skipMeta : ETree → Nat → Nat → ETree × Nat
    | d, 0, idx => (d, idx)
    | d, fuel + 1, idx =>
      if idx < d.data.length ∧ (nodeAt d.data idx).isMeta then
        skipMeta (d.modifyNode idx (fun n => { n with tail := d.crlf })) fuel (idx + 1)
      else (d, idx)

/-- One iteration of the reindex loop of `subtree_reindex` (`etree.rs` lines
906-916): record the old id at `i`, assign the new one, and substitute
`#old#` → `#new#` in every route. -/
def reindexStep (l : List ETreeNode) (i cur : Nat) : List ETreeNode :=
  let idxOld := (nodeAt l i).idx
  let l1 := l.modify (fun nd => { nd with idx := cur }) i
  l1.map (fun nd =>
    let r := strReplaceAll nd.route
        ('#' :: (natChars idxOld ++ ['#'])) ('#' :: (natChars cur ++ ['#']))
    { nd with route := r })

/-- The full reindex loop, positions `i`, `i+1`, … for `k` steps. -/
def reindexGo : List ETreeNode → Nat → Nat → Nat → List ETreeNode
  | l, _, _, 0 => l
  | l, i, cur, k + 1 => reindexGo (reindexStep l i cur) (i + 1) (cur + 1) k

/-- `ETree::subtree_reindex` (`etree.rs` lines 889-924): when the block
`[start, start+n)` is disjoint from the live id range, renumber ids
contiguously from `start` (rewriting routes); otherwise leave the tree alone
and report a scratch block strictly above the current maximum. -/
def ETree.subtreeReindex (t : ETree) (startIdx : Nat) : ETree × Nat × Nat :=
  let n := t.data.length
  match t.data with
  | [] => (t, 0, 0)
  | n0 :: rest =>
    let idxMin := rest.foldl (fun a nd => if nd.idx < a then nd.idx else a) n0.idx
    let idxMax := rest.foldl (fun a nd => if nd.idx > a then nd.idx else a) n0.idx
    if startIdx + n ≤ idxMin ∨ startIdx > idxMax then
      ({ t with data := reindexGo t.data 0 startIdx n }, startIdx, startIdx + n)
    else (t, idxMax + n + 1, idxMax + 2 * n + 1)

/-- The splice loop shared by the three tree-append functions (`etree.rs`
lines 345-350 etc.): rewrite each incoming route to
`cell.route ++ route[1..]` (`none` models the `unwrap` on an empty incoming
route and `Vec::insert` out of bounds) and insert the nodes one after the
other from the anchor index on, while recording their ids in the index. -/
def ETree.spliceTree (d : ETree) (cellRoute : Chars) (cellIdx : Nat) :
    List ETreeNode → Nat → Option ETree
  | [], _ => some d
  | n :: rest, i =>
    match n.route with
    | [] => none
    | _ :: routeTail =>
      if cellIdx + i > d.data.length then none
      else
        let n' := { n with route := cellRoute ++ routeTail }
        ETree.spliceTree
          { d with data := d.data.insertIdx (cellIdx + i) n',
                   index := assocInsert d.index n'.idx (cellIdx + i) }
          cellRoute cellIdx rest (i + 1)

/-- The common graft body of `append_previous_tree`/`append_next_tree`/
`append_child_tree` (`etree.rs` lines 333-439): reindex the incoming ids away
from the destination's live range (two extra passes when the target block
overlaps them), stamp the anchor's tail on the incoming root, splice the
re-routed nodes at the anchor, shift the id index, and — when indentation is
active — re-run the pretty-printer on the grafted block at the computed
depth and restore the anchor tail.  First, the id-relocation dance (`etree.rs`
lines 334-342): one `subtree_reindex` pass when its start equals the
destination counter, otherwise a scratch-block pass followed by a final
pass. -/
def ETree.reindexDance (t0 : ETree) (cnt : Nat) : ETree × Nat :=
  let (t1, s1, e1) := t0.subtreeReindex cnt
  if s1 = cnt then (t1, e1)
  else
    let (t2, _, _) := t1.subtreeReindex s1
    let (t3, _, e3) := t2.subtreeReindex cnt
    (t3, e3)

/-- The graft body proper, after the dance. -/
def ETree.graftTree (d : ETree) (cell : ETreeNode) (t0 : ETree) : Option ETree :=
  let (t, cnt') := t0.reindexDance d.count
  match t.data with
  | [] => none
  | first :: restNodes =>
    let tail := cell.tail
    let tdata := { first with tail := tail } :: restNodes
    let d := { d with count := cnt' }
    match d.spliceTree cell.route cell.idx tdata 0 with
    | none => none
    | some d2 =>
      let d3 := d2.updateIndex (cell.idx + tdata.length)
      if d3.indent.length > 0 then
        match (linesOf tail).getLast? with
        | none => none
        | some lastLine =>
          let level := lastLine.length / d3.indent.length
          match d3.next cell.idx with
          | none => none
          | some r =>
            let level := if r = none then level + 1 else level
            match ETree.prettyTree (d3.data.length + 1) d3 cell.idx level with
            | none => none
            | some d4 => some (d4.modifyNode cell.idx (fun n => { n with tail := tail }))
      else some d3

/-- `ETree::append_previous_tree` (`etree.rs` lines 333-365). -/
def ETree.appendPreviousTree (d : ETree) (pos : Nat) (t : ETree) :
    Option (ETree × Nat) :=
  match d.prepareAppendPrevious pos with
  | none => none
  | some (d1, cell) => (d1.graftTree cell t).map (fun d2 => (d2, cell.idx))

/-- `ETree::append_next_tree` (`etree.rs` lines 370-402). -/
def ETree.appendNextTree (d : ETree) (pos : Nat) (t : ETree) :
    Option (ETree × Nat) :=
  match d.prepareAppendNext pos with
  | none => none
  | some (d1, cell) => (d1.graftTree cell t).map (fun d2 => (d2, cell.idx))

/-- `ETree::append_child_tree` (`etree.rs` lines 407-439). -/
def ETree.appendChildTree (d : ETree) (pos : Nat) (t : ETree) :
    Option (ETree × Nat) :=
  match d.prepareAppendChild pos with
  | none => none
  | some (d1, cell) => (d1.graftTree cell t).map (fun d2 => (d2, cell.idx))

/-- A detached element node with given tag, id and route (all other fields
default), for concrete documents in the statements below. -/
def mkNode (nm : Chars) (i : Nat) (r : Chars) : ETreeNode :=
  { ETreeNode.new nm with idx := i, route := r }

/-- A document holding the given node sequence, ids counted. -/
def mkDoc (ns : List ETreeNode) : ETree :=
  { indent := [], count := ns.length, version := [], encoding := none,
    standalone := none, data := ns, crlf := ['\n'], enableIndex := false,
    index := [] }

/-- Two top-level siblings. -/
def docSib : ETree := mkDoc [mkNode ['A'] 0 ['#'], mkNode ['B'] 1 ['#']]

/-- The empty document, as `parse_str` produces on input with no elements. -/
def docEmpty : ETree := mkDoc []

/-- C10: `next` is total on non-empty documents — the guard `data.len() - 1`
has a value and the function returns an `Option` without failing — but on a
document with an empty node sequence that subtraction underflows `usize`, so
the guard is not total there (the checked computation has no value). -/
theorem c10_next_guard_totality :
    (∀ (d : ETree) (pos : Nat), d.data ≠ [] → ∃ r, d.next pos = some r) ∧
    (∀ (d : ETree) (pos : Nat), d.data = [] → d.next pos = none) := by
  constructor
  · intro d pos hne
    rw [ETree.next]
    cases hd : d.data.length with
    | zero => exact absurd (List.length_eq_zero.mp hd) hne
    | succ n => exact ⟨_, rfl⟩
  · intro d pos he
    rw [ETree.next]
    simp [he]

/-- Witness for C10 at concrete documents. -/
theorem c10_next_guard_totality_witness :
    (∃ r, docSib.next 0 = some r) ∧ docEmpty.next 0 = none :=
  ⟨c10_next_guard_totality.1 docSib 0 (by decide),
   c10_next_guard_totality.2 docEmpty 0 (by decide)⟩

theorem prevScan_spec (data : List ETreeNode) (route : Chars) :
    ∀ k q, ETree.previous.prevScan data route k = some q →
      q < k ∧ (nodeAt data q).route = route ∧
      ∀ m, q < m → m < k →
        (nodeAt data m).route ≠ route ∧
        strStartsWith (nodeAt data m).route route = true := by
  intro k
  induction k with
  | zero => intro q h; simp [ETree.previous.prevScan] at h
  | succ k ih =>
    intro q h
    rw [ETree.previous.prevScan] at h
    by_cases h1 : (nodeAt data k).route = route
    · simp [h1] at h
      subst h
      exact ⟨Nat.lt_succ_self k, h1, fun m hm1 hm2 => by omega⟩
    · simp [h1] at h
      by_cases h2 : strStartsWith (nodeAt data k).route route = true
      · simp [h2] at h
        obtain ⟨hq, hr, hall⟩ := ih q h
        refine ⟨Nat.lt_succ_of_lt hq, hr, ?_⟩
        intro m hm1 hm2
        rcases Nat.lt_succ_iff_lt_or_eq.mp hm2 with h3 | h3
        · exact hall m hm1 h3
        · subst h3; exact ⟨h1, h2⟩
      · simp [h2] at h

theorem prevScan_finds (data : List ETreeNode) (route : Chars) :
    ∀ k j, j < k → (nodeAt data j).route = route →
      (∀ m, j < m → m < k →
        (nodeAt data m).route ≠ route ∧
        strStartsWith (nodeAt data m).route route = true) →
      ETree.previous.prevScan data route k = some j := by
  intro k
  induction k with
  | zero => intro j h; omega
  | succ k ih =>
    intro j hj hr hall
    rw [ETree.previous.prevScan]
    rcases Nat.lt_succ_iff_lt_or_eq.mp hj with h1 | h1
    · obtain ⟨hne, hpre⟩ := hall k h1 (Nat.lt_succ_self k)
      simp [hne, hpre]
      exact ih j h1 hr (fun m hm1 hm2 => hall m hm1 (Nat.lt_succ_of_lt hm2))
    · subst h1
      simp [hr]

theorem nextScan_spec (data : List ETreeNode) (route : Chars) :
    ∀ fuel i q, ETree.next.nextScan data route fuel i = some q →
      i ≤ q ∧ q < data.length ∧ (nodeAt data q).route = route ∧
      ∀ m, i ≤ m → m < q →
        (nodeAt data m).route ≠ route ∧
        strStartsWith (nodeAt data m).route route = true := by
  intro fuel
  induction fuel with
  | zero => intro i q h; simp [ETree.next.nextScan] at h
  | succ fuel ih =>
    intro i q h
    rw [ETree.next.nextScan] at h
    by_cases hlen : i < data.length
    · simp only [hlen, if_true] at h
      by_cases h1 : (nodeAt data i).route = route
      · simp [h1] at h
        subst h
        exact ⟨Nat.le_refl i, hlen, h1, fun m hm1 hm2 => by omega⟩
      · simp [h1] at h
        by_cases h2 : strStartsWith (nodeAt data i).route route = true
        · simp [h2] at h
          obtain ⟨hq, hql, hr, hall⟩ := ih (i + 1) q h
          refine ⟨by omega, hql, hr, ?_⟩
          intro m hm1 hm2
          rcases Nat.lt_or_ge i m with h3 | h3
          · exact hall m (by omega) hm2
          · have : m = i := by omega
            subst this; exact ⟨h1, h2⟩
        · simp [h2] at h
    · simp [hlen] at h

theorem nextScan_finds (data : List ETreeNode) (route : Chars) :
    ∀ fuel i j, i ≤ j → j < data.length →
      (nodeAt data j).route = route →
      (∀ m, i ≤ m → m < j →
        (nodeAt data m).route ≠ route ∧
        strStartsWith (nodeAt data m).route route = true) →
      data.length - i ≤ fuel →
      ETree.next.nextScan data route fuel i = some j := by
  intro fuel
  induction fuel with
  | zero => intro i j h1 h2 _ _ h5; omega
  | succ fuel ih =>
    intro i j hij hj hr hall hfuel
    rw [ETree.next.nextScan]
    have hi : i < data.length := Nat.lt_of_le_of_lt hij hj
    simp only [hi, if_true]
    rcases Nat.lt_or_eq_of_le hij with h1 | h1
    · obtain ⟨hne, hpre⟩ := hall i (Nat.le_refl i) h1
      simp [hne, hpre]
      exact ih (i + 1) j (by omega) hj hr
        (fun m hm1 hm2 => hall m (by omega) hm2) (by omega)
    · subst h1
      simp [hr]

/-- C6: `previous` and `next` are inverse: if `previous(p) = Some q` then
`next(q) = Some p`, and if `next(p) = Some q` then `previous(q) = Some p`
(this holds for every document, in particular those satisfying the pre-order
route invariant). -/
theorem c6_previous_next_inverse (d : ETree) (p q : Nat) :
    (d.previous p = some q → d.next q = some (some p)) ∧
    (d.next p = some (some q) → d.previous q = some p) := by
  constructor
  · intro h
    rw [ETree.previous] at h
    by_cases hg : p ≤ 0 ∨ p ≥ d.data.length
    · simp [hg] at h
      obtain ⟨⟨h1, h2⟩, _⟩ := h
      rcases hg with hg | hg <;> omega
    · simp only [hg, if_false] at h
      push_neg at hg
      obtain ⟨hp0, hplen⟩ := hg
      obtain ⟨hqp, hqr, hall⟩ := prevScan_spec d.data _ p q h
      rw [ETree.next]
      cases hd : d.data.length with
      | zero => omega
      | succ n =>
        have hqn : ¬ q ≥ n := by omega
        simp only [hqn, if_false]
        congr 1
        have hroute : (nodeAt d.data q).route =
            (nodeAt d.data p).route := hqr
        rw [hroute]
        exact nextScan_finds d.data _ _ (q + 1) p (by omega) hplen rfl
          (fun m hm1 hm2 => hall m (by omega) hm2) (by omega)
  · intro h
    rw [ETree.next] at h
    cases hd : d.data.length with
    | zero => rw [hd] at h; simp at h
    | succ n =>
      rw [hd] at h
      simp only [Option.some.injEq] at h
      by_cases hpn : p ≥ n
      · simp [hpn] at h
      · simp only [hpn, if_false] at h
        obtain ⟨hpq, hql, hqr, hall⟩ := nextScan_spec d.data _ _ (p + 1) q h
        rw [ETree.previous]
        have hg : ¬ (q ≤ 0 ∨ q ≥ d.data.length) := by omega
        simp only [hg, if_false]
        have hroute : (nodeAt d.data q).route =
            (nodeAt d.data p).route := hqr
        rw [hroute]
        exact prevScan_finds d.data _ q p (by omega) rfl
          (fun m hm1 hm2 => hall m (by omega) hm2)

/-- Witness for C6 on a two-sibling document. -/
theorem c6_previous_next_inverse_witness :
    docSib.next 0 = some (some 1) ∧ docSib.previous 1 = some 0 :=
  ⟨(c6_previous_next_inverse docSib 1 0).1 (by decide),
   (c6_previous_next_inverse docSib 0 1).2
     ((c6_previous_next_inverse docSib 1 0).1 (by decide))⟩

theorem nodeAt_eq_getElem (l : List ETreeNode) (i : Nat) :
    nodeAt l i = (l[i]?).getD (ETreeNode.new []) := by
  simp [nodeAt, List.getD]

theorem nodeAt_drop (l : List ETreeNode) (n m : Nat) :
    nodeAt (l.drop n) m = nodeAt l (n + m) := by
  simp [nodeAt_eq_getElem, List.getElem?_drop]

theorem takeWhile_pred_getD {α} (p : α → Bool) (dflt : α) :
    ∀ (l : List α) (m : Nat), m < (l.takeWhile p).length →
      p (l.getD m dflt) = true := by
  intro l
  induction l with
  | nil => intro m hm; simp [List.takeWhile] at hm
  | cons a t ih =>
    intro m hm
    rw [List.takeWhile_cons] at hm
    by_cases h : p a = true
    · simp only [h, if_true, List.length_cons] at hm
      cases m with
      | zero => simpa [List.getD]
      | succ m => rw [List.getD_cons_succ]; exact ih m (by omega)
    · simp [h] at hm

theorem descScan_eq_range (target : Chars) :
    ∀ (l : List ETreeNode) (start : Nat),
      ETree.descendant.descScan target l start =
        List.range' start (l.takeWhile (fun n => strStartsWith n.route target)).length := by
  intro l
  induction l with
  | nil => intro start; simp [ETree.descendant.descScan, List.takeWhile]
  | cons n rest ih =>
    intro start
    rw [ETree.descendant.descScan, List.takeWhile_cons]
    by_cases h : strStartsWith n.route target = true
    · simp [h, ih, List.range'_succ]
    · simp [h]

/-- `descendant` returns the contiguous block of positions after `pos` whose
routes extend `route(pos) ++ idx(pos) ++ "#"`. -/
theorem descendant_spec (d : ETree) (pos : Nat) (h : pos < d.data.length) :
    ∃ k, d.descendant pos = List.range' (pos + 1) k ∧
      pos + 1 + k ≤ d.data.length ∧
      ∀ m, m < k →
        strStartsWith (nodeAt d.data (pos + 1 + m)).route
          ((nodeAt d.data pos).route ++ natChars (nodeAt d.data pos).idx ++ ['#']) = true := by
  rw [ETree.descendant]
  simp only [h, if_true]
  refine ⟨_, descScan_eq_range _ _ _, ?_, ?_⟩
  · have h1 := (List.takeWhile_prefix
      (fun n => strStartsWith n.route
        ((nodeAt d.data pos).route ++ natChars (nodeAt d.data pos).idx ++ ['#']))
      (l := d.data.drop (pos + 1))).length_le
    simp only [List.length_drop] at h1
    omega
  · intro m hm
    have := takeWhile_pred_getD
      (fun n => strStartsWith n.route
        ((nodeAt d.data pos).route ++ natChars (nodeAt d.data pos).idx ++ ['#']))
      (ETreeNode.new []) (d.data.drop (pos + 1)) m hm
    rw [show (d.data.drop (pos + 1)).getD m (ETreeNode.new []) =
          nodeAt (d.data.drop (pos + 1)) m from rfl, nodeAt_drop] at this
    exact this

theorem restNodes_spec (d : ETree) (base : Nat) :
    ∀ ps : List Nat, (∀ i ∈ ps, base ≤ (nodeAt d.data i).route.length) →
      ETree.subtree.restNodes d base ps =
        some (ps.map (fun i =>
          { nodeAt d.data i with route := (nodeAt d.data i).route.drop base })) := by
  intro ps
  induction ps with
  | nil => intro _; simp [ETree.subtree.restNodes]
  | cons i rest ih =>
    intro hall
    rw [ETree.subtree.restNodes]
    have h1 : ¬ (nodeAt d.data i).route.length < base := by
      have := hall i (by simp)
      omega
    simp only [h1, if_false]
    rw [ih (fun j hj => hall j (by simp [hj]))]
    simp

theorem nodeAt_cons_succ (a : ETreeNode) (l : List ETreeNode) (j : Nat) :
    nodeAt (a :: l) (j + 1) = nodeAt l j := by
  simp [nodeAt_eq_getElem]

theorem nodeAt_cons_zero (a : ETreeNode) (l : List ETreeNode) :
    nodeAt (a :: l) 0 = a := by
  simp [nodeAt_eq_getElem]

def docNest : ETree := mkDoc [mkNode ['R'] 0 ['#'],
  mkNode ['A'] 1 ['#', '0', '#']]

theorem scanBack_none (data : List ETreeNode) (par : Chars) :
    ∀ k, (∀ j, j < k → (nodeAt data j).route ≠ par) →
      ETree.parent.scanBack data par k = none := by
  intro k
  induction k with
  | zero => intro h; rfl
  | succ k ih =>
    intro h
    rw [ETree.parent.scanBack]
    rw [if_neg (h k (by omega))]
    exact ih (fun j hj => h j (by omega))

theorem childScan_nil (target : Chars) : ∀ (l : List ETreeNode) (i : Nat),
    (∀ k, k < l.length → (nodeAt l k).route ≠ target) →
    ETree.children.childScan target l i = [] := by
  intro l
  induction l with
  | nil => intro i _; rfl
  | cons n rest ih =>
    intro i h
    rw [ETree.children.childScan]
    have h0 : n.route ≠ target := by
      have := h 0 (by simp)
      rwa [nodeAt_cons_zero] at this
    rw [if_neg h0]
    by_cases hs : strStartsWith n.route target = true
    · rw [if_neg (fun hc => hc hs)]
      exact ih (i + 1) (fun k hk => by
        have := h (k + 1) (by simpa using hk)
        rwa [nodeAt_cons_succ] at this)
    · rw [if_pos hs]

theorem descScan_nil (target : Chars) (l : List ETreeNode) (i : Nat)
    (h : ∀ k, k < l.length → strStartsWith (nodeAt l k).route target = false) :
    ETree.descendant.descScan target l i = [] := by
  match l with
  | [] => rfl
  | n :: rest =>
    rw [ETree.descendant.descScan]
    have h0 := h 0 (by simp)
    rw [nodeAt_cons_zero] at h0
    rw [if_neg (by rw [h0]; decide)]

/-- C8: on a non-empty document an absent lookup is reported by value and
never by a thrown failure. For every out-of-range position, `node`,
`parent`, `previous` return `None`, `next` returns `None` (its guard having
a value), and `children`, `descendant` return the empty list; and for every
in-range position whose requested relative does not exist — no earlier node
carries the parent route (`parent` of a root), no earlier node shares the
route (`previous` of a first sibling), no later node shares the route
(`next` of a last sibling), no later node carries or extends the child
route (`children`/`descendant` of a leaf) — the lookup likewise returns
`None`/the empty list by value. -/
theorem c8_lookup_miss_by_value (d : ETree) (pos : Nat) (hne : d.data ≠ []) :
    (pos ≥ d.data.length →
      d.node pos = none ∧ d.parent pos = none ∧ d.previous pos = none ∧
      d.next pos = some none ∧ d.children pos = [] ∧ d.descendant pos = []) ∧
    (pos < d.data.length →
      ((∀ par ds, routeParentId ((nodeAt d.data pos).route) = some (par, ds) →
          ∀ j, j < pos → (nodeAt d.data j).route ≠ par) →
        d.parent pos = none) ∧
      ((∀ j, j < pos → (nodeAt d.data j).route ≠ (nodeAt d.data pos).route) →
        d.previous pos = none) ∧
      ((∀ j, pos < j → j < d.data.length →
          (nodeAt d.data j).route ≠ (nodeAt d.data pos).route) →
        d.next pos = some none) ∧
      ((∀ j, pos < j → j < d.data.length →
          (nodeAt d.data j).route ≠
            (nodeAt d.data pos).route ++ natChars (nodeAt d.data pos).idx ++
              ['#']) →
        d.children pos = []) ∧
      ((∀ j, pos < j → j < d.data.length →
          strStartsWith (nodeAt d.data j).route
            ((nodeAt d.data pos).route ++ natChars (nodeAt d.data pos).idx ++
              ['#']) = false) →
        d.descendant pos = [])) := by
  constructor
  · intro hoor
    refine ⟨?_, ?_, ?_, ?_, ?_, ?_⟩
    · rw [ETree.node]
      exact List.get?_eq_none.mpr hoor
    · rw [ETree.parent]
      simp [hoor]
    · rw [ETree.previous]
      simp [hoor]
    · rw [ETree.next]
      cases hd : d.data.length with
      | zero => exact absurd (List.length_eq_zero.mp hd) hne
      | succ n =>
        have : pos ≥ n := by omega
        simp [this]
    · rw [ETree.children]
      simp [Nat.not_lt.mpr hoor]
    · rw [ETree.descendant]
      simp [Nat.not_lt.mpr hoor]
  · intro hlt
    refine ⟨?_, ?_, ?_, ?_, ?_⟩
    · intro hmiss
      rw [ETree.parent]
      by_cases hp0 : pos ≤ 0
      · rw [if_pos (Or.inl hp0)]
      · rw [if_neg (by push_neg; omega)]
        cases hrp : routeParentId ((nodeAt d.data pos).route) with
        | none => rfl
        | some pc =>
          obtain ⟨par, ds⟩ := pc
          simp only []
          exact scanBack_none d.data par pos (fun j hj => hmiss par ds hrp j hj)
    · intro hmiss
      rw [ETree.previous]
      by_cases hp0 : pos ≤ 0
      · rw [if_pos (Or.inl hp0)]
      · rw [if_neg (by push_neg; omega)]
        cases hps : ETree.previous.prevScan d.data
            ((nodeAt d.data pos).route) pos with
        | none => rfl
        | some q =>
          obtain ⟨hq1, hq2, _⟩ :=
            prevScan_spec d.data ((nodeAt d.data pos).route) pos q hps
          exact absurd hq2 (hmiss q hq1)
    · intro hmiss
      rw [ETree.next]
      cases hd : d.data.length with
      | zero => exact absurd (List.length_eq_zero.mp hd) hne
      | succ n =>
        simp only []
        by_cases hpn : pos ≥ n
        · rw [if_pos hpn]
        · rw [if_neg hpn]
          cases hns : ETree.next.nextScan d.data ((nodeAt d.data pos).route)
              (n + 1 - (pos + 1)) (pos + 1) with
          | none => rfl
          | some q =>
            obtain ⟨hq1, hq2, hq3, _⟩ := nextScan_spec d.data
              ((nodeAt d.data pos).route) (n + 1 - (pos + 1)) (pos + 1) q hns
            exact absurd hq3 (hmiss q (by omega) hq2)
    · intro hmiss
      rw [ETree.children]
      rw [if_pos hlt]
      show ETree.children.childScan
        ((nodeAt d.data pos).route ++ natChars (nodeAt d.data pos).idx ++ ['#'])
        (d.data.drop (pos + 1)) (pos + 1) = []
      refine childScan_nil _ _ _ (fun k hk => ?_)
      rw [nodeAt_drop]
      have hklen : pos + 1 + k < d.data.length := by
        rw [List.length_drop] at hk
        omega
      exact hmiss (pos + 1 + k) (by omega) hklen
    · intro hmiss
      rw [ETree.descendant]
      rw [if_pos hlt]
      show ETree.descendant.descScan
        ((nodeAt d.data pos).route ++ natChars (nodeAt d.data pos).idx ++ ['#'])
        (d.data.drop (pos + 1)) (pos + 1) = []
      refine descScan_nil _ _ _ (fun k hk => ?_)
      rw [nodeAt_drop]
      have hklen : pos + 1 + k < d.data.length := by
        rw [List.length_drop] at hk
        omega
      exact hmiss (pos + 1 + k) (by omega) hklen

/-- Witness for C8: an out-of-range position, and in-range misses — a
root-level node without parent or next sibling, a first child without a
previous sibling, and a childless node. -/
theorem c8_lookup_miss_by_value_witness :
    docSib.node 5 = none ∧ docSib.parent 1 = none ∧
    docNest.previous 1 = none ∧ docSib.next 1 = some none ∧
    docNest.children 1 = [] ∧ docNest.descendant 1 = [] := by
  have h5 := (c8_lookup_miss_by_value docSib 5 (by decide)).1 (by decide)
  have hs1 := (c8_lookup_miss_by_value docSib 1 (by decide)).2 (by decide)
  have hn1 := (c8_lookup_miss_by_value docNest 1 (by decide)).2 (by decide)
  refine ⟨h5.1, hs1.1 ?_, hn1.2.1 ?_, hs1.2.2.1 ?_, hn1.2.2.2.1 ?_,
    hn1.2.2.2.2 ?_⟩
  · intro par ds hpd
    rw [show routeParentId ((nodeAt docSib.data 1).route) = none from by decide]
      at hpd
    exact Option.noConfusion hpd
  · intro j hj
    have hj0 : j = 0 := by omega
    subst hj0
    decide
  · intro j h1 h2
    rw [show docSib.data.length = 2 from by decide] at h2
    omega
  · intro j h1 h2
    rw [show docNest.data.length = 2 from by decide] at h2
    omega
  · intro j h1 h2
    rw [show docNest.data.length = 2 from by decide] at h2
    omega

theorem nodeAt_map_pos (f : Nat → ETreeNode) (ps : List Nat) (j : Nat)
    (h : j < ps.length) : nodeAt (ps.map f) j = f (ps.getD j 0) := by
  have h1 : ps[j]? = some ps[j] := List.getElem?_eq_getElem h
  simp [nodeAt_eq_getElem, List.getElem?_map, h1, List.getD]

theorem drop_pred_of_getLast (l : Chars) (c : Char) (h : l.getLast? = some c) :
    l.drop (l.length - 1) = [c] := by
  induction l with
  | nil => simp at h
  | cons a t ih =>
    cases t with
    | nil => simp_all
    | cons b t' =>
      rw [List.getLast?_cons_cons] at h
      have := ih h
      simpa using this

/-- C5: `subtree(p)` returns `None` exactly for out-of-range `p`; otherwise
it yields a document of `1 + |descendant(p)|` nodes whose first node's route
is `"#"`, whose other routes are the originals with the shared prefix
(`route(p)` less its final `#`) stripped, and whose ids are copied
unchanged.  Hypotheses: `p`'s route is the usual non-empty `#`-terminated
route string when `p` is in range. -/
theorem c5_subtree_shape (d : ETree) (pos : Nat)
    (hr : pos < d.data.length → (nodeAt d.data pos).route ≠ [])
    (hl : pos < d.data.length →
      (nodeAt d.data pos).route.getLast? = some '#') :
    (d.subtree pos = some none ↔ pos ≥ d.data.length) ∧
    (pos < d.data.length → ∃ t, d.subtree pos = some (some t) ∧
      t.data.length = 1 + (d.descendant pos).length ∧
      (nodeAt t.data 0).route = ['#'] ∧
      (nodeAt t.data 0).idx = (nodeAt d.data pos).idx ∧
      ∀ j, j < (d.descendant pos).length →
        (nodeAt t.data (j + 1)).idx =
          (nodeAt d.data ((d.descendant pos).getD j 0)).idx ∧
        (nodeAt t.data (j + 1)).route =
          (nodeAt d.data ((d.descendant pos).getD j 0)).route.drop
            ((nodeAt d.data pos).route.length - 1)) := by
  by_cases hoor : pos ≥ d.data.length
  · constructor
    · rw [ETree.subtree]
      simp [hoor]
    · intro h; omega
  · push_neg at hoor
    obtain ⟨k, hdesc, hbound, hpre⟩ := descendant_spec d pos hoor
    have hrne := hr hoor
    have hlast := hl hoor
    have hbase : ∀ i ∈ d.descendant pos,
        (nodeAt d.data pos).route.length - 1 ≤ (nodeAt d.data i).route.length := by
      intro i hi
      rw [hdesc, List.mem_range'] at hi
      obtain ⟨m, hm, hieq⟩ := hi
      have hieq' : i = pos + 1 + m := by omega
      subst hieq'
      have hpm := hpre m hm
      have hlen := ((strStartsWith_iff _ _).mp hpm).length_le
      simp only [List.length_append, List.length_cons, List.length_nil] at hlen
      omega
    have hng : ¬ pos ≥ d.data.length := by omega
    have hsub : d.subtree pos =
        some (some
          { indent := d.indent, count := 0, version := d.version,
            encoding := d.encoding, standalone := d.standalone,
            data := { nodeAt d.data pos with
                      route := (nodeAt d.data pos).route.drop
                        ((nodeAt d.data pos).route.length - 1) } ::
              (d.descendant pos).map (fun i =>
                { nodeAt d.data i with
                  route := (nodeAt d.data i).route.drop
                    ((nodeAt d.data pos).route.length - 1) }),
            crlf := d.crlf, enableIndex := false, index := [] }) := by
      rw [ETree.subtree, if_neg hng, if_neg hrne]
      simp only [restNodes_spec d _ _ hbase]
    refine ⟨⟨fun hcontra => ?_, fun hge => absurd hge hng⟩, fun _ => ?_⟩
    · rw [hsub] at hcontra
      simp at hcontra
    · refine ⟨_, hsub, ?_, ?_, ?_, ?_⟩
      · simp
        omega
      · rw [nodeAt_cons_zero]
        exact drop_pred_of_getLast _ _ hlast
      · rw [nodeAt_cons_zero]
      · intro j hj
        rw [nodeAt_cons_succ, nodeAt_map_pos _ _ _ (by simpa using hj)]
        exact ⟨rfl, rfl⟩

/-- Witness for C5: extracting a subtree from a concrete document. -/
theorem c5_subtree_shape_witness :
    ∃ t, docSib.subtree 0 = some (some t) ∧
      t.data.length = 1 + (docSib.descendant 0).length := by
  obtain ⟨t, h1, h2, _⟩ :=
    (c5_subtree_shape docSib 0 (fun _ => by decide) (fun _ => by decide)).2 (by decide)
  exact ⟨t, h1, h2⟩

theorem removeDesc_data :
    ∀ (ps : List Nat) (d : ETree),
      (ETree.remove.removeDesc d ps).data =
        ps.foldl (fun l i => l.eraseIdx i) d.data := by
  intro ps
  induction ps with
  | nil => intro d; simp [ETree.remove.removeDesc]
  | cons i rest ih =>
    intro d
    rw [ETree.remove.removeDesc, ih]
    simp

theorem foldl_erase_range (k : Nat) :
    ∀ (l : List ETreeNode) (pos : Nat), pos + 1 + k ≤ l.length →
      (List.range' (pos + 1) k).reverse.foldl (fun l i => l.eraseIdx i) l =
        l.take (pos + 1) ++ l.drop (pos + 1 + k) := by
  induction k with
  | zero =>
    intro l pos _
    simp
  | succ k ih =>
    intro l pos hb
    have hconc : List.range' (pos + 1) (k + 1) = List.range' (pos + 1) k ++ [pos + 1 + k] := by
      rw [List.range'_concat]
      simp
    rw [hconc, List.reverse_append]
    simp only [List.reverse_singleton, List.singleton_append, List.foldl_cons]
    have hlt : pos + 1 + k < l.length := by omega
    have herase : l.eraseIdx (pos + 1 + k) = l.take (pos + 1 + k) ++ l.drop (pos + 1 + k + 1) :=
      List.eraseIdx_eq_take_drop_succ l _
    rw [ih (l.eraseIdx (pos + 1 + k)) pos (by rw [List.length_eraseIdx_of_lt hlt]; omega)]
    have htake : (l.eraseIdx (pos + 1 + k)).take (pos + 1) = l.take (pos + 1) := by
      rw [herase, List.take_append_of_le_length (by rw [List.length_take]; omega),
        List.take_take, Nat.min_eq_left (by omega)]
    have hdrop : (l.eraseIdx (pos + 1 + k)).drop (pos + 1 + k) = l.drop (pos + 1 + (k + 1)) := by
      rw [herase]
      have h1 : (l.take (pos + 1 + k)).length = pos + 1 + k := by
        rw [List.length_take]; omega
      calc (l.take (pos + 1 + k) ++ l.drop (pos + 1 + k + 1)).drop (pos + 1 + k)
          = (l.take (pos + 1 + k) ++ l.drop (pos + 1 + k + 1)).drop
              ((l.take (pos + 1 + k)).length) := by rw [h1]
        _ = l.drop (pos + 1 + k + 1) := List.drop_left _ _
        _ = l.drop (pos + 1 + (k + 1)) := by ring_nf
    rw [htake, hdrop]

theorem modify_preserves_shape (l : List ETreeNode) (i : Nat)
    (f : ETreeNode → ETreeNode)
    (hf : ∀ n, (f n).route = n.route ∧ (f n).idx = n.idx) :
    (l.modify f i).length = l.length ∧
    ∀ j, (nodeAt (l.modify f i) j).route = (nodeAt l j).route ∧
         (nodeAt (l.modify f i) j).idx = (nodeAt l j).idx := by
  refine ⟨by simp, ?_⟩
  intro j
  rw [nodeAt_eq_getElem, nodeAt_eq_getElem, List.getElem?_modify]
  by_cases h : i = j
  · subst h
    cases hl : l[i]? with
    | none => simp
    | some n => simp [hf n]
  · simp [h]

theorem descScan_congr (target : Chars) :
    ∀ (l1 l2 : List ETreeNode) (start : Nat), l1.length = l2.length →
      (∀ j, j < l1.length → (nodeAt l1 j).route = (nodeAt l2 j).route) →
      ETree.descendant.descScan target l1 start =
        ETree.descendant.descScan target l2 start := by
  intro l1
  induction l1 with
  | nil =>
    intro l2 start hlen _
    cases l2 with
    | nil => rfl
    | cons b t2 => simp at hlen
  | cons a t1 ih =>
    intro l2 start hlen hsame
    cases l2 with
    | nil => simp at hlen
    | cons b t2 =>
      have h0 := hsame 0 (by simp)
      rw [nodeAt_cons_zero, nodeAt_cons_zero] at h0
      rw [ETree.descendant.descScan, ETree.descendant.descScan, h0]
      have ht : ETree.descendant.descScan target t1 (start + 1) =
          ETree.descendant.descScan target t2 (start + 1) := by
        refine ih t2 (start + 1) (by simpa using hlen) ?_
        intro j hj
        have := hsame (j + 1) (by simpa using Nat.succ_lt_succ hj)
        rwa [nodeAt_cons_succ, nodeAt_cons_succ] at this
      rw [ht]

theorem descendant_congr (d d' : ETree) (hlen : d'.data.length = d.data.length)
    (hsame : ∀ j, (nodeAt d'.data j).route = (nodeAt d.data j).route ∧
       (nodeAt d'.data j).idx = (nodeAt d.data j).idx) (pos : Nat) :
    d'.descendant pos = d.descendant pos := by
  rw [ETree.descendant, ETree.descendant, hlen]
  by_cases h : pos < d.data.length
  · simp only [h, if_true]
    have htar : (nodeAt d'.data pos).route ++ natChars (nodeAt d'.data pos).idx ++ ['#'] =
        (nodeAt d.data pos).route ++ natChars (nodeAt d.data pos).idx ++ ['#'] := by
      rw [(hsame pos).1, (hsame pos).2]
    rw [htar]
    refine descScan_congr _ _ _ _ (by simp [hlen]) ?_
    intro j hj
    rw [nodeAt_drop, nodeAt_drop]
    exact (hsame (pos + 1 + j)).1
  · simp [h]

theorem removeHeal_shape (d : ETree) (pos : Nat) (d1 : ETree)
    (h : d.removeHeal pos = some d1) :
    d1.data.length = d.data.length ∧
    ∀ j, (nodeAt d1.data j).route = (nodeAt d.data j).route ∧
         (nodeAt d1.data j).idx = (nodeAt d.data j).idx := by
  rw [ETree.removeHeal] at h
  cases hprev : d.previous pos with
  | some prev =>
    simp only [hprev, Option.some.injEq] at h
    subst h
    exact modify_preserves_shape d.data prev _ (fun n => ⟨rfl, rfl⟩)
  | none =>
    simp only [hprev] at h
    cases hnext : d.next pos with
    | none =>
      simp only [hnext] at h
      exact Option.noConfusion h
    | some r =>
      simp only [hnext] at h
      cases r with
      | some q =>
        simp only [Option.some.injEq] at h
        subst h
        exact ⟨rfl, fun j => ⟨rfl, rfl⟩⟩
      | none =>
        cases hpar : d.parent pos with
        | none =>
          simp only [hpar, Option.some.injEq] at h
          subst h
          exact ⟨rfl, fun j => ⟨rfl, rfl⟩⟩
        | some par =>
          simp only [hpar] at h
          cases htxt : (nodeAt d.data par).text with
          | none =>
            simp only [htxt] at h
            exact Option.noConfusion h
          | some t =>
            simp only [htxt] at h
            by_cases hend : strEndsWith t d.indent = true
            · rw [if_pos hend] at h
              simp only [Option.some.injEq] at h
              subst h
              exact modify_preserves_shape d.data par _ (fun n => ⟨rfl, rfl⟩)
            · rw [if_neg hend] at h
              simp only [Option.some.injEq] at h
              subst h
              exact ⟨rfl, fun j => ⟨rfl, rfl⟩⟩

theorem nodeAt_lt (l : List ETreeNode) (a : Nat) (ha : a < l.length) :
    nodeAt l a = l[a] := by
  rw [nodeAt_eq_getElem, List.getElem?_eq_getElem ha]
  rfl

theorem nodeAt_append_left (A B : List ETreeNode) (j : Nat) (h : j < A.length) :
    nodeAt (A ++ B) j = nodeAt A j := by
  simp [nodeAt_eq_getElem, List.getElem?_append_left h]

theorem nodeAt_append_right (A B : List ETreeNode) (j : Nat) (h : A.length ≤ j) :
    nodeAt (A ++ B) j = nodeAt B (j - A.length) := by
  simp [nodeAt_eq_getElem, List.getElem?_append_right h]

theorem nodeAt_take (l : List ETreeNode) (n j : Nat) (h : j < n) :
    nodeAt (l.take n) j = nodeAt l j := by
  simp [nodeAt_eq_getElem, List.getElem?_take_of_lt h]

theorem nodup_idx_ne (l : List ETreeNode)
    (h : (l.map (fun n => n.idx)).Nodup) (a b : Nat)
    (ha : a < l.length) (hb : b < l.length) (hab : a ≠ b) :
    (nodeAt l a).idx ≠ (nodeAt l b).idx := by
  intro he
  have hma : a < (l.map (fun n => n.idx)).length := by simpa using ha
  have hmb : b < (l.map (fun n => n.idx)).length := by simpa using hb
  have h1 : (l.map (fun n => n.idx)).get ⟨a, hma⟩ = (l.map (fun n => n.idx)).get ⟨b, hmb⟩ := by
    rw [List.get_eq_getElem, List.get_eq_getElem, List.getElem_map, List.getElem_map]
    rw [nodeAt_lt l a ha, nodeAt_lt l b hb] at he
    exact he
  exact hab (congrArg Fin.val ((List.Nodup.get_inj_iff h).mp h1))

theorem updateIndex_data (x : ETree) (p : Nat) : (x.updateIndex p).data = x.data := by
  rw [ETree.updateIndex]
  split <;> rfl

/-- C4: a successful `remove(p)` at an in-range `p` shortens the node
sequence by exactly `1 + |descendant(p)|` (measured pre-removal), and — when
the document's ids are unique — no node carrying the id of any removed
position (`p` or a pre-removal descendant of `p`) remains reachable at any
position of the result. -/
theorem c4_remove_block (d : ETree) (pos : Nat) (d' : ETree)
    (hlt : pos < d.data.length) (hrm : d.remove pos = some d') :
    d'.data.length + (1 + (d.descendant pos).length) = d.data.length ∧
    ((d.data.map (fun n => n.idx)).Nodup →
      ∀ r, pos ≤ r → r ≤ pos + (d.descendant pos).length →
        ∀ j, j < d'.data.length → (nodeAt d'.data j).idx ≠ (nodeAt d.data r).idx) := by
  rw [ETree.remove] at hrm
  cases hheal : d.removeHeal pos with
  | none =>
    rw [hheal] at hrm
    exact Option.noConfusion hrm
  | some d1 =>
    simp only [hheal] at hrm
    obtain ⟨hlen1, hsame1⟩ := removeHeal_shape d pos d1 hheal
    have hdesc1 : d1.descendant pos = d.descendant pos :=
      descendant_congr d d1 hlen1 hsame1 pos
    obtain ⟨k, hdr, hbound, _⟩ := descendant_spec d pos hlt
    have hklen : (d.descendant pos).length = k := by rw [hdr]; simp
    have hd2 : (ETree.remove.removeDesc d1 (d1.descendant pos).reverse).data =
        d1.data.take (pos + 1) ++ d1.data.drop (pos + 1 + k) := by
      rw [removeDesc_data, hdesc1, hdr]
      exact foldl_erase_range k d1.data pos (by omega)
    have hmin1 : min (pos + 1) d1.data.length = pos + 1 := Nat.min_eq_left (by omega)
    have hlen2 : (ETree.remove.removeDesc d1 (d1.descendant pos).reverse).data.length =
        d.data.length - k := by
      rw [hd2, List.length_append, List.length_take, List.length_drop, hmin1]
      omega
    rw [hlen2] at hrm
    have hc : pos < d.data.length - k := by omega
    rw [if_pos hc] at hrm
    simp only [Option.some.injEq] at hrm
    subst hrm
    rw [updateIndex_data]
    have hA : (d1.data.take (pos + 1)).length = pos + 1 := by
      rw [List.length_take]; omega
    have hdposdata : (ETree.remove.removeDesc d1 (d1.descendant pos).reverse).data.eraseIdx pos =
        d1.data.take pos ++ d1.data.drop (pos + 1 + k) := by
      rw [hd2, List.eraseIdx_eq_take_drop_succ]
      have h1 : (d1.data.take (pos + 1) ++ d1.data.drop (pos + 1 + k)).take pos =
          d1.data.take pos := by
        rw [List.take_append_of_le_length (by omega), List.take_take,
          Nat.min_eq_left (by omega)]
      have h2 : (d1.data.take (pos + 1) ++ d1.data.drop (pos + 1 + k)).drop (pos + 1) =
          d1.data.drop (pos + 1 + k) := List.drop_left' hA
      rw [h1, h2]
    rw [hdposdata]
    have hlenfinal : (d1.data.take pos ++ d1.data.drop (pos + 1 + k)).length =
        d.data.length - k - 1 := by
      rw [List.length_append, List.length_take, List.length_drop,
        Nat.min_eq_left (by omega : pos ≤ d1.data.length)]
      omega
    constructor
    · rw [hlenfinal, hklen]; omega
    · intro hnodup r hr1 hr2 j hj
      rw [hlenfinal] at hj
      rw [hklen] at hr2
      -- position of j in the original sequence
      by_cases hjpos : j < pos
      · rw [nodeAt_append_left _ _ _ (by rw [List.length_take]; omega),
          nodeAt_take _ _ _ hjpos]
        have hido : (nodeAt d1.data j).idx = (nodeAt d.data j).idx := (hsame1 j).2
        rw [hido]
        exact nodup_idx_ne d.data hnodup j r (by omega) (by omega) (by omega)
      · have hjge : (d1.data.take pos).length ≤ j := by
          rw [List.length_take, Nat.min_eq_left (by omega : pos ≤ d1.data.length)]
          omega
        rw [nodeAt_append_right _ _ _ hjge]
        rw [List.length_take, Nat.min_eq_left (by omega : pos ≤ d1.data.length)]
        rw [nodeAt_drop]
        have hido : (nodeAt d1.data (pos + 1 + k + (j - pos))).idx =
            (nodeAt d.data (pos + 1 + k + (j - pos))).idx :=
          (hsame1 (pos + 1 + k + (j - pos))).2
        rw [hido]
        exact nodup_idx_ne d.data hnodup (pos + 1 + k + (j - pos)) r
          (by omega) (by omega) (by omega)

/-- Witness for C4: removing the first sibling of a concrete document. -/
theorem c4_remove_block_witness :
    ∃ d', docSib.remove 0 = some d' ∧
      d'.data.length + (1 + (docSib.descendant 0).length) = docSib.data.length := by
  have h : docSib.remove 0 = some (ETree.updateIndex
      { docSib with data := docSib.data.eraseIdx 0,
                    index := assocRemove docSib.index 0 } 0) := by decide
  exact ⟨_, h, (c4_remove_block docSib 0 _ (by decide) h).1⟩

theorem insertIdx_eq_take_cons_drop (x : ETreeNode) :
    ∀ (l : List ETreeNode) (k : Nat), k ≤ l.length →
      l.insertIdx k x = l.take k ++ x :: l.drop k := by
  intro l
  induction l with
  | nil =>
    intro k hk
    have hk0 : k = 0 := by simp at hk; omega
    subst hk0
    rfl
  | cons a t ih =>
    intro k hk
    cases k with
    | zero => rfl
    | succ k =>
      simp only [List.insertIdx_succ_cons, List.take_succ_cons, List.drop_succ_cons,
        List.cons_append, List.cons.injEq, true_and]
      exact ih k (by simpa using hk)

theorem eq_take_cons_drop (l : List ETreeNode) (i : Nat) (h : i < l.length) :
    l = l.take i ++ nodeAt l i :: l.drop (i + 1) := by
  rw [nodeAt_lt l i h]
  have h1 : l[i] :: l.drop (i + 1) = l.drop i := List.get_drop_eq_drop l i h
  rw [h1, List.take_append_drop]

theorem modify_eq_set (l : List ETreeNode) (f : ETreeNode → ETreeNode) (i : Nat)
    (h : i < l.length) : l.modify f i = l.set i (f (nodeAt l i)) := by
  rw [nodeAt_lt l i h]
  exact List.modify_eq_set_get f h

/-- The text-plus-tail character count of one node. -/
def nodeChars (n : ETreeNode) : Nat := (n.text.getD []).length + n.tail.length

/-- The total text-plus-tail character count across the document. -/
def ETree.totalChars (d : ETree) : Nat := (d.data.map nodeChars).sum

theorem sum_map_set (l : List ETreeNode) (i : Nat) (x : ETreeNode)
    (h : i < l.length) :
    ((l.set i x).map nodeChars).sum + nodeChars (nodeAt l i) =
      (l.map nodeChars).sum + nodeChars x := by
  rw [List.set_eq_take_cons_drop x h]
  conv_rhs => rw [eq_take_cons_drop l i h]
  simp [List.sum_append]
  ring

theorem sum_map_insertIdx (l : List ETreeNode) (k : Nat) (x : ETreeNode)
    (h : k ≤ l.length) :
    ((l.insertIdx k x).map nodeChars).sum = (l.map nodeChars).sum + nodeChars x := by
  rw [insertIdx_eq_take_cons_drop x l k h]
  simp [List.sum_append]
  have h2 := List.sum_take_add_sum_drop (l.map nodeChars) k
  omega

theorem nodeAt_insertIdx_self (l : List ETreeNode) (k : Nat) (x : ETreeNode)
    (h : k ≤ l.length) : nodeAt (l.insertIdx k x) k = x := by
  rw [insertIdx_eq_take_cons_drop x l k h]
  have hk : (l.take k).length = k := by rw [List.length_take]; omega
  rw [nodeAt_append_right _ _ _ (by omega), hk, Nat.sub_self, nodeAt_cons_zero]

/-- The change `prepare_append_child` makes to text/tail characters outside
the inserted node itself (mirrors the two branches of `etree.rs` lines
842-888): with no children, `tail ++ indent` is stamped on `p`'s text when
that text is absent or empty; with children, the last child's tail is
replaced by a copy of its previous sibling's tail or the parent's text. -/
def ETree.appendChildAdjust (d : ETree) (pos : Nat) : Int :=
  match d.children pos with
  | [] =>
    let tail := match d.previous pos with
      | some prev => (nodeAt d.data prev).tail
      | none =>
        match d.parent pos with
        | some par => ((nodeAt d.data par).text).getD []
        | none => d.crlf
    if (nodeAt d.data pos).text = none ∨ (nodeAt d.data pos).text = some [] then
      ((tail.length : Int) + d.indent.length)
    else 0
  | c :: cs =>
    let prev := (c :: cs).getLast (by simp)
    let newTail : Chars := match d.previous prev with
      | some p2 => (nodeAt d.data p2).tail
      | none =>
        match d.parent prev with
        | some par => ((nodeAt d.data par).text).getD []
        | none => []
    (newTail.length : Int) - (nodeAt d.data prev).tail.length

/-- C3 (counterexample to the claim as stated): on the document parsed from
`<R/>` (a lone empty root, line terminator `\n`), `append_child_node` grows
the total text/tail character count by 2 while the inserted node's own
contribution is 1 — the root's text gains the healing whitespace. -/
theorem c3_counterexample_whitespace :
    ((mkDoc [mkNode ['R'] 0 ['#']]).appendChildNode 0 (ETreeNode.new ['A'])).map
        (fun r => (r.1.totalChars, (nodeAt r.1.data r.2).tail.length)) = some (2, 1) ∧
    (mkDoc [mkNode ['R'] 0 ['#']]).totalChars = 0 ∧
    ((ETreeNode.new ['A']).text.getD []).length = 0 ∧
    (2 : Nat) ≠ 0 + (0 + 1) := by
  decide

theorem childScan_mem_bounds (target : Chars) :
    ∀ (l : List ETreeNode) (start j : Nat),
      j ∈ ETree.children.childScan target l start →
      start ≤ j ∧ j < start + l.length := by
  intro l
  induction l with
  | nil => intro start j h; simp [ETree.children.childScan] at h
  | cons a t ih =>
    intro start j h
    rw [ETree.children.childScan] at h
    by_cases h1 : a.route = target
    · simp only [h1, if_true, List.mem_cons] at h
      rcases h with h | h
      · subst h; simp
      · have := ih (start + 1) j h
        constructor <;> [omega; (simp only [List.length_cons]; omega)]
    · rw [if_neg h1] at h
      by_cases h2 : strStartsWith a.route target = true
      · rw [if_neg (not_not_intro h2)] at h
        have := ih (start + 1) j h
        constructor <;> [omega; (simp only [List.length_cons]; omega)]
      · rw [if_pos h2] at h
        simp at h

theorem children_mem_bounds (d : ETree) (pos j : Nat) (h : j ∈ d.children pos) :
    pos < j ∧ j < d.data.length := by
  rw [ETree.children] at h
  by_cases hlt : pos < d.data.length
  · simp only [hlt, if_true] at h
    have := childScan_mem_bounds _ _ _ _ h
    rw [List.length_drop] at this
    omega
  · simp [hlt] at h

theorem prepareAppendChild_total (d : ETree) (pos : Nat) (d1 : ETree)
    (cell : ETreeNode) (h : d.prepareAppendChild pos = some (d1, cell)) :
    (d1.totalChars : Int) = d.totalChars + d.appendChildAdjust pos := by
  rw [ETree.prepareAppendChild] at h
  rw [ETree.appendChildAdjust]
  by_cases hoor : pos ≥ d.data.length
  · rw [if_pos hoor] at h
    exact Option.noConfusion h
  · rw [if_neg hoor] at h
    push_neg at hoor
    cases hch : d.children pos with
    | nil =>
      simp only [hch, Option.some.injEq, Prod.mk.injEq] at h ⊢
      obtain ⟨hd1, _⟩ := h
      by_cases ht1 : (nodeAt d.data pos).text = none
      · rw [if_pos (Or.inl ht1)]
        rw [if_pos ht1] at hd1
        subst hd1
        rw [ETree.totalChars, ETree.totalChars, ETree.modifyNode,
          modify_eq_set _ _ _ hoor]
        have hs := sum_map_set d.data pos
          { nodeAt d.data pos with
            text := some ((match d.previous pos with
              | some prev => (nodeAt d.data prev).tail
              | none =>
                match d.parent pos with
                | some par => ((nodeAt d.data par).text).getD []
                | none => d.crlf) ++ d.indent) } hoor
        simp only [nodeChars, ht1, Option.getD_none, List.length_nil,
          Option.getD_some, List.length_append] at hs
        dsimp only
        omega
      · rw [if_neg ht1] at hd1
        by_cases ht2 : (nodeAt d.data pos).text = some []
        · rw [if_pos (Or.inr ht2)]
          rw [if_pos ht2] at hd1
          subst hd1
          rw [ETree.totalChars, ETree.totalChars, ETree.modifyNode,
            modify_eq_set _ _ _ hoor]
          have hs := sum_map_set d.data pos
            { nodeAt d.data pos with
              text := some ((match d.previous pos with
                | some prev => (nodeAt d.data prev).tail
                | none =>
                  match d.parent pos with
                  | some par => ((nodeAt d.data par).text).getD []
                  | none => d.crlf) ++ d.indent) } hoor
          simp only [nodeChars, ht2, Option.getD_some, List.length_nil,
            List.length_append] at hs
          dsimp only
          omega
        · rw [if_neg (by tauto)]
          rw [if_neg ht2] at hd1
          subst hd1
          simp
    | cons c cs =>
      simp only [hch] at h ⊢
      have hprevlt : (c :: cs).getLast (by simp) < d.data.length := by
        have hmem : (c :: cs).getLast (by simp) ∈ d.children pos := by
          rw [hch]
          exact List.getLast_mem _
        exact (children_mem_bounds d pos _ hmem).2
      cases hp2 : d.previous ((c :: cs).getLast (by simp)) with
      | some p2 =>
        simp only [hp2] at h ⊢
        cases hlast : (d.modifyNode ((c :: cs).getLast (by simp))
            (fun n => { n with tail := (nodeAt d.data p2).tail })).descendant pos |>.getLast? with
        | none =>
          rw [hlast] at h
          exact Option.noConfusion h
        | some l =>
          rw [hlast] at h
          simp only [Option.some.injEq, Prod.mk.injEq] at h
          obtain ⟨hd1, _⟩ := h
          subst hd1
          rw [ETree.totalChars, ETree.totalChars, ETree.modifyNode,
            modify_eq_set _ _ _ hprevlt]
          have hs := sum_map_set d.data ((c :: cs).getLast (by simp))
            { nodeAt d.data ((c :: cs).getLast (by simp)) with
              tail := (nodeAt d.data p2).tail } hprevlt
          simp only [nodeChars] at hs
          dsimp only
          omega
      | none =>
        simp only [hp2] at h ⊢
        cases hpar : d.parent ((c :: cs).getLast (by simp)) with
        | none =>
          rw [hpar] at h
          exact Option.noConfusion h
        | some par =>
          simp only [hpar] at h ⊢
          cases hlast : (d.modifyNode ((c :: cs).getLast (by simp))
              (fun n => { n with
                tail := ((nodeAt d.data par).text).getD [] })).descendant pos |>.getLast? with
          | none =>
            rw [hlast] at h
            exact Option.noConfusion h
          | some l =>
            rw [hlast] at h
            simp only [Option.some.injEq, Prod.mk.injEq] at h
            obtain ⟨hd1, _⟩ := h
            subst hd1
            rw [ETree.totalChars, ETree.totalChars, ETree.modifyNode,
              modify_eq_set _ _ _ hprevlt]
            have hs := sum_map_set d.data ((c :: cs).getLast (by simp))
              { nodeAt d.data ((c :: cs).getLast (by simp)) with
                tail := ((nodeAt d.data par).text).getD [] } hprevlt
            simp only [nodeChars] at hs
            dsimp only
            omega

/-- C3 (amended): a successful `append_child_node(p, n)` changes the total
text/tail character count by the inserted node's own contribution (its text
plus its stamped tail) plus the formatting adjustment the preparation makes
at the insertion point (`appendChildAdjust`: `|tail| + |indent|` stamped on
`p`'s empty/absent text when `p` had no children, or the difference between
the last child's new and old tails when it had children); the original
claim's "exactly the inserted node's own contribution" fails whenever that
adjustment is non-zero. -/
theorem c3_total_change_exact (d : ETree) (pos : Nat) (n : ETreeNode)
    (d' : ETree) (newpos : Nat)
    (h : d.appendChildNode pos n = some (d', newpos)) :
    (d'.totalChars : Int) =
      d.totalChars + ((n.text.getD []).length + (nodeAt d'.data newpos).tail.length)
        + d.appendChildAdjust pos := by
  rw [ETree.appendChildNode] at h
  cases hprep : d.prepareAppendChild pos with
  | none =>
    rw [hprep] at h
    exact Option.noConfusion h
  | some pr =>
    obtain ⟨d1, cell⟩ := pr
    rw [hprep] at h
    simp only [ETree.spliceNode] at h
    by_cases hg : cell.idx > d1.data.length
    · rw [if_pos hg] at h
      exact Option.noConfusion h
    · rw [if_neg hg] at h
      simp only [Option.some.injEq, Prod.mk.injEq] at h
      obtain ⟨hd', hnp⟩ := h
      subst hnp
      have hins : d'.data = d1.data.insertIdx cell.idx
          { n with idx := d1.count, tail := cell.tail, route := cell.route } := by
        rw [← hd']
        rw [updateIndex_data]
      have htot : d'.totalChars = d1.totalChars +
          nodeChars { n with idx := d1.count, tail := cell.tail, route := cell.route } := by
        rw [ETree.totalChars, ETree.totalChars, hins]
        exact sum_map_insertIdx d1.data cell.idx _ (by omega)
      have hcelltail : (nodeAt d'.data cell.idx).tail = cell.tail := by
        rw [hins, nodeAt_insertIdx_self _ _ _ (by omega)]
      have hd1tot := prepareAppendChild_total d pos d1 cell hprep
      rw [htot, hcelltail]
      simp only [nodeChars]
      omega

/-- Witness for C3 (amended) on the `<R/>` document. -/
theorem c3_total_change_exact_witness :
    ∃ d' newpos,
      (mkDoc [mkNode ['R'] 0 ['#']]).appendChildNode 0 (ETreeNode.new ['A']) =
        some (d', newpos) ∧
      (d'.totalChars : Int) =
        (mkDoc [mkNode ['R'] 0 ['#']]).totalChars +
          (((ETreeNode.new ['A']).text.getD []).length +
            (nodeAt d'.data newpos).tail.length) +
        (mkDoc [mkNode ['R'] 0 ['#']]).appendChildAdjust 0 := by
  cases hap : (mkDoc [mkNode ['R'] 0 ['#']]).appendChildNode 0 (ETreeNode.new ['A']) with
  | none => exact absurd hap (by decide)
  | some r =>
    obtain ⟨d', np⟩ := r
    exact ⟨d', np, rfl, c3_total_change_exact _ _ _ _ _ hap⟩

theorem nodeAt_map_route_change (g : ETreeNode → Chars) (l : List ETreeNode) (j : Nat) :
    (nodeAt (l.map (fun nd => { nd with route := g nd })) j).idx = (nodeAt l j).idx := by
  rw [nodeAt_eq_getElem, nodeAt_eq_getElem, List.getElem?_map]
  cases l[j]? with
  | none => rfl
  | some nd => rfl

theorem reindexStep_length (l : List ETreeNode) (i cur : Nat) :
    (reindexStep l i cur).length = l.length := by
  simp [reindexStep]

theorem reindexStep_idx (l : List ETreeNode) (i cur j : Nat) :
    (nodeAt (reindexStep l i cur) j).idx =
      if j = i ∧ j < l.length then cur else (nodeAt l j).idx := by
  simp only [reindexStep, nodeAt_eq_getElem, List.getElem?_map, List.getElem?_modify]
  by_cases h : i = j
  · subst h
    cases hl : l[i]? with
    | none =>
      have hlen : l.length ≤ i := List.getElem?_eq_none_iff.mp hl
      have hcond : ¬ (i = i ∧ i < l.length) := by omega
      simp [hl, hcond, Nat.not_lt.mpr hlen]
    | some nd =>
      obtain ⟨hlt, _⟩ := List.getElem?_eq_some.mp hl
      have hcond : i = i ∧ i < l.length := ⟨rfl, hlt⟩
      simp [hl, hcond]
  · cases hl : l[j]? with
    | none =>
      simp [hl, h, Ne.symm h]
    | some nd =>
      have hcond : ¬ (j = i ∧ j < l.length) := by tauto
      simp [hl, h, hcond]

theorem reindexGo_length :
    ∀ (k : Nat) (l : List ETreeNode) (i cur : Nat),
      (reindexGo l i cur k).length = l.length := by
  intro k
  induction k with
  | zero => intro l i cur; rfl
  | succ k ih =>
    intro l i cur
    rw [reindexGo, ih, reindexStep_length]

theorem reindexGo_idx :
    ∀ (k : Nat) (l : List ETreeNode) (i cur j : Nat),
      (nodeAt (reindexGo l i cur k) j).idx =
        if i ≤ j ∧ j < i + k ∧ j < l.length then cur + (j - i)
        else (nodeAt l j).idx := by
  intro k
  induction k with
  | zero =>
    intro l i cur j
    rw [reindexGo, if_neg (by omega)]
  | succ k ih =>
    intro l i cur j
    rw [reindexGo, ih, reindexStep_length, reindexStep_idx]
    by_cases h1 : i + 1 ≤ j ∧ j < i + 1 + k ∧ j < l.length
    · rw [if_pos h1, if_pos (by omega)]
      omega
    · rw [if_neg h1]
      by_cases h2 : j = i ∧ j < l.length
      · rw [if_pos h2, if_pos (by omega)]
        omega
      · rw [if_neg h2, if_neg (by omega)]

theorem foldlMin_le_init (rest : List ETreeNode) :
    ∀ a : Nat, rest.foldl (fun a nd => if nd.idx < a then nd.idx else a) a ≤ a := by
  induction rest with
  | nil => intro a; simp
  | cons n t ih =>
    intro a
    rw [List.foldl_cons]
    by_cases h : n.idx < a
    · simp only [h, if_true]
      exact Nat.le_trans (ih n.idx) (by omega)
    · simp only [h, if_false]
      exact ih a

theorem foldlMin_mem (rest : List ETreeNode) :
    ∀ a : Nat, (rest.foldl (fun a nd => if nd.idx < a then nd.idx else a) a = a) ∨
      ∃ nd ∈ rest, rest.foldl (fun a nd => if nd.idx < a then nd.idx else a) a = nd.idx := by
  induction rest with
  | nil => intro a; simp
  | cons n t ih =>
    intro a
    rw [List.foldl_cons]
    by_cases h : n.idx < a
    · simp only [h, if_true]
      rcases ih n.idx with h1 | ⟨nd, hnd, h1⟩
      · exact Or.inr ⟨n, by simp, h1⟩
      · exact Or.inr ⟨nd, by simp [hnd], h1⟩
    · simp only [h, if_false]
      rcases ih a with h1 | ⟨nd, hnd, h1⟩
      · exact Or.inl h1
      · exact Or.inr ⟨nd, by simp [hnd], h1⟩

theorem foldlMax_ge_init (rest : List ETreeNode) :
    ∀ a : Nat, a ≤ rest.foldl (fun a nd => if nd.idx > a then nd.idx else a) a := by
  induction rest with
  | nil => intro a; simp
  | cons n t ih =>
    intro a
    rw [List.foldl_cons]
    by_cases h : n.idx > a
    · simp only [h, if_true]
      exact Nat.le_trans (by omega) (ih n.idx)
    · simp only [h, if_false]
      exact ih a

theorem foldlMax_ge_mem (rest : List ETreeNode) :
    ∀ (a : Nat) (nd : ETreeNode), nd ∈ rest →
      nd.idx ≤ rest.foldl (fun a nd => if nd.idx > a then nd.idx else a) a := by
  induction rest with
  | nil => intro a nd h; simp at h
  | cons n t ih =>
    intro a nd h
    rw [List.foldl_cons]
    rcases List.mem_cons.mp h with h1 | h1
    · subst h1
      by_cases h2 : nd.idx > a
      · simp only [h2, if_true]
        exact foldlMax_ge_init t nd.idx
      · simp only [h2, if_false]
        exact Nat.le_trans (by omega) (foldlMax_ge_init t a)
    · exact ih _ nd h1

theorem foldlMin_le_mem (rest : List ETreeNode) :
    ∀ (a : Nat) (nd : ETreeNode), nd ∈ rest →
      rest.foldl (fun a nd => if nd.idx < a then nd.idx else a) a ≤ nd.idx := by
  induction rest with
  | nil => intro a nd h; simp at h
  | cons n t ih =>
    intro a nd h
    rw [List.foldl_cons]
    rcases List.mem_cons.mp h with h1 | h1
    · subst h1
      by_cases h2 : nd.idx < a
      · simp only [h2, if_true]
        exact foldlMin_le_init t nd.idx
      · simp only [h2, if_false]
        exact Nat.le_trans (foldlMin_le_init t a) (by omega)
    · exact ih _ nd h1

theorem foldlMax_le_bound (rest : List ETreeNode) :
    ∀ (a B : Nat), a ≤ B → (∀ nd ∈ rest, nd.idx ≤ B) →
      rest.foldl (fun a nd => if nd.idx > a then nd.idx else a) a ≤ B := by
  induction rest with
  | nil => intro a B h _; simpa
  | cons n t ih =>
    intro a B ha hmem
    rw [List.foldl_cons]
    by_cases h : n.idx > a
    · simp only [h, if_true]
      exact ih n.idx B (hmem n (by simp)) (fun nd hnd => hmem nd (by simp [hnd]))
    · simp only [h, if_false]
      exact ih a B ha (fun nd hnd => hmem nd (by simp [hnd]))

theorem foldlMin_ge_bound (rest : List ETreeNode) :
    ∀ (a B : Nat), B ≤ a → (∀ nd ∈ rest, B ≤ nd.idx) →
      B ≤ rest.foldl (fun a nd => if nd.idx < a then nd.idx else a) a := by
  induction rest with
  | nil => intro a B h _; simpa
  | cons n t ih =>
    intro a B ha hmem
    rw [List.foldl_cons]
    by_cases h : n.idx < a
    · simp only [h, if_true]
      exact ih n.idx B (hmem n (by simp)) (fun nd hnd => hmem nd (by simp [hnd]))
    · simp only [h, if_false]
      exact ih a B ha (fun nd hnd => hmem nd (by simp [hnd]))

theorem mem_to_nodeAt (l : List ETreeNode) (nd : ETreeNode) (h : nd ∈ l) :
    ∃ j, j < l.length ∧ nodeAt l j = nd := by
  obtain ⟨j, hj, hg⟩ := List.getElem_of_mem h
  exact ⟨j, hj, by rw [nodeAt_lt l j hj]; exact hg⟩

/-- The two outcomes of `subtree_reindex` on a non-empty tree: either the
requested block was disjoint from the live id range and the ids are now
`start, start+1, …` (with routes rewritten), or nothing moved and a scratch
block strictly above the maximum live id is reported. -/
theorem subtreeReindex_spec (t : ETree) (s : Nat) (n0 : ETreeNode)
    (rest : List ETreeNode) (hdata : t.data = n0 :: rest) :
    (t.subtreeReindex s).1.data.length = t.data.length ∧
    (((t.subtreeReindex s).2.1 = s ∧
      (t.subtreeReindex s).2.2 = s + t.data.length ∧
      (∀ j, j < t.data.length → (nodeAt (t.subtreeReindex s).1.data j).idx = s + j))
     ∨ ((t.subtreeReindex s).1 = t ∧
        (∃ nd ∈ t.data, nd.idx < s + t.data.length) ∧
        ∃ M, (∀ nd ∈ t.data, nd.idx ≤ M) ∧ s ≤ M ∧
          (∀ B, (∀ nd ∈ t.data, nd.idx ≤ B) → M ≤ B) ∧
          (t.subtreeReindex s).2.1 = M + t.data.length + 1)) := by
  have hmin := foldlMin_le_init rest n0.idx
  have hmax := foldlMax_ge_init rest n0.idx
  simp only [ETree.subtreeReindex, hdata]
  by_cases hbr : s + (n0 :: rest).length ≤
      rest.foldl (fun a nd => if nd.idx < a then nd.idx else a) n0.idx ∨
      s > rest.foldl (fun a nd => if nd.idx > a then nd.idx else a) n0.idx
  · rw [if_pos hbr]
    refine ⟨by simp [reindexGo_length, hdata], Or.inl ⟨rfl, by simp [hdata], ?_⟩⟩
    intro j hj
    dsimp only
    rw [reindexGo_idx, if_pos (by omega)]
    omega
  · rw [if_neg hbr]
    push_neg at hbr
    obtain ⟨hc1, hc2⟩ := hbr
    refine ⟨by simp [hdata], Or.inr ⟨rfl, ?_, ?_⟩⟩
    · rcases foldlMin_mem rest n0.idx with hm | ⟨nd, hnd, hm⟩
      · exact ⟨n0, by simp, by omega⟩
      · exact ⟨nd, by simp [hnd], by omega⟩
    · refine ⟨rest.foldl (fun a nd => if nd.idx > a then nd.idx else a) n0.idx,
        ?_, by omega, ?_, by simp [hdata]⟩
      · intro nd hnd
        rcases List.mem_cons.mp hnd with h | h
        · subst h; exact hmax
        · exact foldlMax_ge_mem rest n0.idx nd h
      · intro B hB
        exact foldlMax_le_bound rest n0.idx B (hB n0 (by simp))
          (fun nd hnd => hB nd (by simp [hnd]))

/-- The id-relocation dance always lands the incoming ids on the contiguous
block starting at the destination counter. -/
theorem reindexDance_ids (t0 : ETree) (cnt : Nat) (n0 : ETreeNode)
    (rest : List ETreeNode) (hdata : t0.data = n0 :: rest) :
    (t0.reindexDance cnt).1.data.length = t0.data.length ∧
    (t0.reindexDance cnt).2 = cnt + t0.data.length ∧
    ∀ j, j < t0.data.length → (nodeAt (t0.reindexDance cnt).1.data j).idx = cnt + j := by
  obtain ⟨hlen1, hcase⟩ := subtreeReindex_spec t0 cnt n0 rest hdata
  obtain ⟨t1, s1, e1, hsr⟩ : ∃ t1 s1 e1, t0.subtreeReindex cnt = (t1, s1, e1) :=
    ⟨_, _, _, rfl⟩
  rw [ETree.reindexDance, hsr]
  rw [hsr] at hlen1 hcase
  dsimp only at hlen1 hcase ⊢
  rcases hcase with ⟨hs1, he1, hids⟩ | ⟨ht1, ⟨ndlow, hndlow, hndlt⟩, M, hMub, hMge, hMmin, hs1⟩
  · rw [if_pos hs1]
    exact ⟨hlen1, by omega, hids⟩
  · have hne : s1 ≠ cnt := by omega
    rw [if_neg hne, ht1]
    -- second pass: scratch block strictly above the maximum
    obtain ⟨hlen2, hcase2⟩ := subtreeReindex_spec t0 s1 n0 rest hdata
    obtain ⟨t2, s2, e2, hsr2⟩ : ∃ t2 s2 e2, t0.subtreeReindex s1 = (t2, s2, e2) :=
      ⟨_, _, _, rfl⟩
    rw [hsr2]
    rw [hsr2] at hlen2 hcase2
    dsimp only at hlen2 hcase2 ⊢
    rcases hcase2 with ⟨_, _, hids2⟩ | ⟨_, _, M2, hM2ub, hM2ge, hM2min, _⟩
    · -- third pass: back down onto the counter block
      have ht2ne : t2.data ≠ [] := by
        intro hnil
        rw [hnil] at hlen2
        simp [hdata] at hlen2
      obtain ⟨m0, rest2, hdata2⟩ : ∃ m0 rest2, t2.data = m0 :: rest2 := by
        cases ht2 : t2.data with
        | nil => exact absurd ht2 ht2ne
        | cons a b => exact ⟨a, b, rfl⟩
      obtain ⟨hlen3, hcase3⟩ := subtreeReindex_spec t2 cnt m0 rest2 hdata2
      obtain ⟨t3, s3, e3, hsr3⟩ : ∃ t3 s3 e3, t2.subtreeReindex cnt = (t3, s3, e3) :=
        ⟨_, _, _, rfl⟩
      rw [hsr3]
      rw [hsr3] at hlen3 hcase3
      dsimp only at hlen3 hcase3 ⊢
      have hlen2' : t2.data.length = t0.data.length := hlen2
      rcases hcase3 with ⟨_, he3, hids3⟩ | ⟨_, ⟨ndl, hndl, hndllt⟩, M3, hM3ub, hM3ge, hM3min, _⟩
      · refine ⟨by omega, by omega, ?_⟩
        intro j hj
        rw [hids3 j (by omega)]
      · -- impossible: every id of t2 is at least s1 = M + length + 1 > cnt + length
        obtain ⟨j, hjlt, hjeq⟩ := mem_to_nodeAt t2.data ndl hndl
        have := hids2 j (by omega)
        rw [hjeq] at this
        have hs1M : s1 = M + t0.data.length + 1 := hs1
        omega
    · -- impossible: the scratch start is strictly above every id
      have : M2 ≤ M := hM2min M hMub
      have hs1M : s1 = M + t0.data.length + 1 := hs1
      have hlen0 : 0 < t0.data.length := by rw [hdata]; simp
      omega

theorem subtreeReindex_length (t : ETree) (s : Nat) :
    (t.subtreeReindex s).1.data.length = t.data.length := by
  cases hd : t.data with
  | nil =>
    simp only [ETree.subtreeReindex, hd]
  | cons n0 rest =>
    have := (subtreeReindex_spec t s n0 rest hd).1
    rw [hd] at this
    exact this

theorem reindexDance_length (t0 : ETree) (cnt : Nat) :
    (t0.reindexDance cnt).1.data.length = t0.data.length := by
  obtain ⟨t1, s1, e1, hsr⟩ : ∃ t1 s1 e1, t0.subtreeReindex cnt = (t1, s1, e1) :=
    ⟨_, _, _, rfl⟩
  have h1 : t1.data.length = t0.data.length := by
    have := subtreeReindex_length t0 cnt
    rw [hsr] at this
    exact this
  rw [ETree.reindexDance, hsr]
  dsimp only
  by_cases hb : s1 = cnt
  · rw [if_pos hb]
    exact h1
  · rw [if_neg hb]
    obtain ⟨t2, s2, e2, hsr2⟩ : ∃ t2 s2 e2, t1.subtreeReindex s1 = (t2, s2, e2) :=
      ⟨_, _, _, rfl⟩
    have h2 : t2.data.length = t1.data.length := by
      have := subtreeReindex_length t1 s1
      rw [hsr2] at this
      exact this
    obtain ⟨t3, s3, e3, hsr3⟩ : ∃ t3 s3 e3, t2.subtreeReindex cnt = (t3, s3, e3) :=
      ⟨_, _, _, rfl⟩
    have h3 : t3.data.length = t2.data.length := by
      have := subtreeReindex_length t2 cnt
      rw [hsr3] at this
      exact this
    rw [hsr2]
    dsimp only
    rw [hsr3]
    dsimp only
    omega

theorem map_idx_modify (f : ETreeNode → ETreeNode) (hf : ∀ n, (f n).idx = n.idx) :
    ∀ (l : List ETreeNode) (i : Nat),
      (l.modify f i).map (fun n => n.idx) = l.map (fun n => n.idx) := by
  intro l i
  apply List.ext_get?
  intro j
  rw [List.get?_eq_getElem?, List.get?_eq_getElem?]
  simp only [List.getElem?_map, List.getElem?_modify]
  by_cases h : i = j
  · subst h
    cases l[i]? <;> simp [hf]
  · simp [h]

theorem modifyNode_map_idx (d : ETree) (i : Nat) (f : ETreeNode → ETreeNode)
    (hf : ∀ n, (f n).idx = n.idx) :
    (d.modifyNode i f).data.map (fun n => n.idx) = d.data.map (fun n => n.idx) :=
  map_idx_modify f hf d.data i

theorem modifyNode_tail_map_idx (d : ETree) (i : Nat) (X : Chars) :
    (d.modifyNode i (fun n => { n with tail := X })).data.map (fun n => n.idx) =
      d.data.map (fun n => n.idx) :=
  modifyNode_map_idx d i _ (fun n => rfl)

theorem modifyNode_text_map_idx (d : ETree) (i : Nat) (X : Option Chars) :
    (d.modifyNode i (fun n => { n with text := X })).data.map (fun n => n.idx) =
      d.data.map (fun n => n.idx) :=
  modifyNode_map_idx d i _ (fun n => rfl)

/-- `pretty_tree` rewrites only text and tail fields, so the id sequence is
untouched. -/
theorem prettyTK_ids :
    ∀ fuel : Nat,
      (∀ (d : ETree) (pos level : Nat) (e : ETree),
        ETree.prettyTree fuel d pos level = some e →
        e.data.map (fun n => n.idx) = d.data.map (fun n => n.idx)) ∧
      (∀ (d : ETree) (cs : List Nat) (level : Nat) (e : ETree),
        ETree.prettyKids fuel d cs level = some e →
        e.data.map (fun n => n.idx) = d.data.map (fun n => n.idx)) := by
  intro fuel
  induction fuel with
  | zero =>
    constructor
    · intro d pos level e h
      rw [ETree.prettyTree] at h
      exact Option.noConfusion h
    · intro d cs level e h
      cases cs with
      | nil =>
        rw [prettyKids_nil] at h
        simp only [Option.some.injEq] at h
        rw [h]
      | cons c cs =>
        rw [prettyKids_cons, ETree.prettyTree] at h
        exact Option.noConfusion h
  | succ fuel ih =>
    have hT : ∀ (d : ETree) (pos level : Nat) (e : ETree),
        ETree.prettyTree (fuel + 1) d pos level = some e →
        e.data.map (fun n => n.idx) = d.data.map (fun n => n.idx) := by
      intro d pos level e h
      simp only [prettyTree_unfold] at h
      by_cases hlt : pos < d.data.length
      · rw [if_pos hlt] at h
        cases hch : (d.modifyNode pos (fun n =>
            { n with tail := d.crlf ++ (List.replicate level d.indent).join })).children pos with
        | nil =>
          rw [hch] at h
          by_cases hm : (nodeAt (d.modifyNode pos (fun n =>
              { n with tail := d.crlf ++ (List.replicate level d.indent).join })).data pos).isMeta = true
          · rw [if_pos hm] at h
            simp only [Option.some.injEq] at h
            rw [← h]
            exact modifyNode_map_idx d pos _ (fun n => rfl)
          · rw [if_neg hm] at h
            cases htxt : (nodeAt (d.modifyNode pos (fun n =>
                { n with tail := d.crlf ++ (List.replicate level d.indent).join })).data pos).text with
            | none =>
              rw [htxt] at h
              simp only [Option.some.injEq] at h
              rw [← h]
              exact modifyNode_map_idx d pos _ (fun n => rfl)
            | some t =>
              rw [htxt] at h
              simp only [Option.some.injEq] at h
              rw [← h, modifyNode_text_map_idx]
              exact modifyNode_map_idx d pos _ (fun n => rfl)
        | cons c cs =>
          rw [hch] at h
          simp only [] at h
          cases htxt : (nodeAt (d.modifyNode pos (fun n =>
              { n with tail := d.crlf ++ (List.replicate level d.indent).join })).data pos).text with
          | none =>
            rw [htxt] at h
            exact absurd h (by simp)
          | some t =>
            rw [htxt] at h
            simp only [] at h
            split at h
            · exact Option.noConfusion h
            · rename_i d3 hkids
              simp only [Option.some.injEq] at h
              rw [← h]
              have h1 := ih.2 _ _ _ _ hkids
              rw [modifyNode_tail_map_idx, h1, modifyNode_text_map_idx]
              exact modifyNode_map_idx d pos _ (fun n => rfl)
      · rw [if_neg hlt] at h
        exact Option.noConfusion h
    refine ⟨hT, ?_⟩
    intro d cs
    induction cs generalizing d with
    | nil =>
      intro level e h
      rw [prettyKids_nil] at h
      simp only [Option.some.injEq] at h
      rw [h]
    | cons c cs ihk =>
      intro level e h
      rw [prettyKids_cons] at h
      cases ht : ETree.prettyTree (fuel + 1) d c level with
      | none =>
        rw [ht] at h
        exact Option.noConfusion h
      | some d' =>
        rw [ht] at h
        rw [ihk d' level e h]
        exact hT d c level d' ht

theorem perm_insertIdx (l : List ETreeNode) (k : Nat) (x : ETreeNode)
    (h : k ≤ l.length) : List.Perm (l.insertIdx k x) (x :: l) := by
  rw [insertIdx_eq_take_cons_drop x l k h]
  calc List.Perm (l.take k ++ x :: l.drop k) (x :: (l.take k ++ l.drop k)) :=
    List.perm_middle
  _ = (x :: l) := by rw [List.take_append_drop]

theorem spliceTree_ids_perm :
    ∀ (nodes : List ETreeNode) (i : Nat) (d : ETree) (cr : Chars) (ci : Nat)
      (d' : ETree), ETree.spliceTree d cr ci nodes i = some d' →
      List.Perm (d'.data.map (fun n => n.idx))
        (d.data.map (fun n => n.idx) ++ nodes.map (fun n => n.idx)) := by
  intro nodes
  induction nodes with
  | nil =>
    intro i d cr ci d' h
    rw [ETree.spliceTree] at h
    simp only [Option.some.injEq] at h
    rw [← h]
    simp
  | cons n rest ih =>
    intro i d cr ci d' h
    rw [ETree.spliceTree] at h
    cases hr : n.route with
    | nil =>
      rw [hr] at h
      exact Option.noConfusion h
    | cons rc rt =>
      rw [hr] at h
      simp only [] at h
      by_cases hg : ci + i > d.data.length
      · rw [if_pos hg] at h
        exact Option.noConfusion h
      · rw [if_neg hg] at h
        have hrec := ih (i + 1) _ cr ci d' h
        have hins : List.Perm
            ((d.data.insertIdx (ci + i) { n with route := cr ++ rt }).map (fun n => n.idx))
            ((fun (n : ETreeNode) => n.idx) { n with route := cr ++ rt } ::
              d.data.map (fun n => n.idx)) :=
          (perm_insertIdx d.data (ci + i) _ (by omega)).map (fun n => n.idx)
        refine hrec.trans ?_
        refine (List.Perm.append_right (rest.map (fun n => n.idx)) hins).trans ?_
        have : List.Perm (d.data.map (fun n => n.idx) ++ n.idx :: rest.map (fun n => n.idx))
            (n.idx :: (d.data.map (fun n => n.idx) ++ rest.map (fun n => n.idx))) :=
          List.perm_middle
        exact (this.symm).trans (by rfl) |>.symm.trans (by rfl) |>.symm

theorem prepareAppendNext_ids (d : ETree) (pos : Nat) (d1 : ETree)
    (cell : ETreeNode) (h : d.prepareAppendNext pos = some (d1, cell)) :
    d1.data.map (fun n => n.idx) = d.data.map (fun n => n.idx) ∧ d1.count = d.count := by
  rw [ETree.prepareAppendNext] at h
  by_cases hoor : pos ≥ d.data.length
  · rw [if_pos hoor] at h
    exact Option.noConfusion h
  · rw [if_neg hoor] at h
    cases hprev : d.previous pos with
    | some prev =>
      simp only [hprev] at h
      simp only [Option.some.injEq, Prod.mk.injEq] at h
      obtain ⟨hd1, _⟩ := h
      subst hd1
      exact ⟨modifyNode_tail_map_idx d pos _, rfl⟩
    | none =>
      simp only [hprev] at h
      cases hpar : d.parent pos with
      | some par =>
        simp only [hpar] at h
        cases htxt : (nodeAt d.data par).text with
        | none =>
          simp only [htxt] at h
          exact Option.noConfusion h
        | some t =>
          simp only [htxt] at h
          simp only [Option.some.injEq, Prod.mk.injEq] at h
          obtain ⟨hd1, _⟩ := h
          subst hd1
          exact ⟨modifyNode_tail_map_idx d pos _, rfl⟩
      | none =>
        simp only [hpar] at h
        simp only [Option.some.injEq, Prod.mk.injEq] at h
        obtain ⟨hd1, _⟩ := h
        subst hd1
        exact ⟨rfl, rfl⟩

theorem prepareAppendPrevious_ids (d : ETree) (pos : Nat) (d1 : ETree)
    (cell : ETreeNode) (h : d.prepareAppendPrevious pos = some (d1, cell)) :
    d1.data.map (fun n => n.idx) = d.data.map (fun n => n.idx) ∧ d1.count = d.count := by
  rw [ETree.prepareAppendPrevious] at h
  by_cases hoor : pos ≥ d.data.length
  · rw [if_pos hoor] at h
    exact Option.noConfusion h
  · rw [if_neg hoor] at h
    cases hprev : d.previous pos with
    | some prev =>
      simp only [hprev] at h
      exact prepareAppendNext_ids d prev d1 cell h
    | none =>
      simp only [hprev] at h
      cases hpar : d.parent pos with
      | some par =>
        simp only [hpar] at h
        cases htxt : (nodeAt d.data par).text with
        | none =>
          simp only [htxt] at h
          exact Option.noConfusion h
        | some t =>
          simp only [htxt] at h
          simp only [Option.some.injEq, Prod.mk.injEq] at h
          obtain ⟨hd1, _⟩ := h
          subst hd1
          exact ⟨rfl, rfl⟩
      | none =>
        simp only [hpar] at h
        exact Option.noConfusion h

theorem prepareAppendChild_ids (d : ETree) (pos : Nat) (d1 : ETree)
    (cell : ETreeNode) (h : d.prepareAppendChild pos = some (d1, cell)) :
    d1.data.map (fun n => n.idx) = d.data.map (fun n => n.idx) ∧ d1.count = d.count := by
  rw [ETree.prepareAppendChild] at h
  by_cases hoor : pos ≥ d.data.length
  · rw [if_pos hoor] at h
    exact Option.noConfusion h
  · rw [if_neg hoor] at h
    simp only [] at h
    cases hkids : d.children pos with
    | nil =>
      rw [hkids] at h
      simp only [] at h
      by_cases ht0 : (nodeAt d.data pos).text = none
      · rw [if_pos ht0] at h
        simp only [Option.some.injEq, Prod.mk.injEq] at h
        obtain ⟨hd1, _⟩ := h
        subst hd1
        exact ⟨modifyNode_text_map_idx d pos _, rfl⟩
      · rw [if_neg ht0] at h
        by_cases ht1 : (nodeAt d.data pos).text = some []
        · rw [if_pos ht1] at h
          simp only [Option.some.injEq, Prod.mk.injEq] at h
          obtain ⟨hd1, _⟩ := h
          subst hd1
          exact ⟨modifyNode_text_map_idx d pos _, rfl⟩
        · rw [if_neg ht1] at h
          simp only [Option.some.injEq, Prod.mk.injEq] at h
          obtain ⟨hd1, _⟩ := h
          subst hd1
          exact ⟨rfl, rfl⟩
    | cons c cs =>
      rw [hkids] at h
      simp only [] at h
      cases hprev : d.previous ((c :: cs).getLast (by simp)) with
      | some p2 =>
        rw [hprev] at h
        simp only [] at h
        split at h
        · exact Option.noConfusion h
        · rename_i l hlast
          simp only [Option.some.injEq, Prod.mk.injEq] at h
          obtain ⟨hd1, _⟩ := h
          subst hd1
          exact ⟨modifyNode_tail_map_idx d _ _, rfl⟩
      | none =>
        rw [hprev] at h
        simp only [] at h
        cases hpar : d.parent ((c :: cs).getLast (by simp)) with
        | some par =>
          rw [hpar] at h
          simp only [] at h
          split at h
          · exact Option.noConfusion h
          · rename_i l hlast
            simp only [Option.some.injEq, Prod.mk.injEq] at h
            obtain ⟨hd1, _⟩ := h
            subst hd1
            exact ⟨modifyNode_tail_map_idx d _ _, rfl⟩
        | none =>
          rw [hpar] at h
          simp only [] at h
          exact Option.noConfusion h

theorem graftTree_nodup (d : ETree) (cell : ETreeNode) (t0 : ETree) (d' : ETree)
    (hnodup : (d.data.map (fun n => n.idx)).Nodup)
    (hbound : ∀ n ∈ d.data, n.idx < d.count)
    (h : d.graftTree cell t0 = some d') :
    (d'.data.map (fun n => n.idx)).Nodup := by
  rw [ETree.graftTree] at h
  obtain ⟨t, cnt', hdance⟩ : ∃ t cnt', t0.reindexDance d.count = (t, cnt') :=
    ⟨_, _, rfl⟩
  rw [hdance] at h
  dsimp only at h
  cases htd : t.data with
  | nil =>
    rw [htd] at h
    exact Option.noConfusion h
  | cons first restNodes =>
    rw [htd] at h
    simp only [] at h
    -- t0 is nonempty since t is
    have hlen : t.data.length = t0.data.length := by
      have := reindexDance_length t0 d.count
      rw [hdance] at this
      exact this
    obtain ⟨n0, rest0, hdata0⟩ : ∃ n0 rest0, t0.data = n0 :: rest0 := by
      cases h0 : t0.data with
      | nil => rw [h0, htd] at hlen; simp at hlen
      | cons a b => exact ⟨a, b, rfl⟩
    obtain ⟨-, -, hids⟩ := reindexDance_ids t0 d.count n0 rest0 hdata0
    rw [hdance] at hids
    dsimp only at hids
    -- the reindexed block's ids are exactly the contiguous range
    have hmap : t.data.map (fun n => n.idx) = List.range' d.count t.data.length := by
      apply List.ext_getElem
      · simp
      · intro i h1 h2
        rw [List.getElem_map, List.getElem_range']
        rw [List.length_map] at h1
        have := hids i (by omega)
        rw [nodeAt_lt t.data i h1] at this
        rw [this]
        ring
    have htdata : (({ first with tail := cell.tail } : ETreeNode) :: restNodes).map
        (fun n => n.idx) = List.range' d.count t.data.length := by
      rw [← hmap, htd]
      rfl
    cases hsp : ETree.spliceTree { d with count := cnt' } cell.route cell.idx
        ({ first with tail := cell.tail } :: restNodes) 0 with
    | none =>
      rw [hsp] at h
      exact Option.noConfusion h
    | some d2 =>
      rw [hsp] at h
      simp only [] at h
      -- the spliced data's ids are a permutation of old ids plus the range
      have hperm := spliceTree_ids_perm _ 0 _ _ _ _ hsp
      rw [htdata] at hperm
      have hd2 : (d2.data.map (fun n => n.idx)).Nodup := by
        refine hperm.nodup_iff.mpr ?_
        rw [List.nodup_append]
        refine ⟨hnodup, List.nodup_range' _ _ , ?_⟩
        intro a ha hb
        rw [List.mem_range'] at hb
        obtain ⟨n, hn, hna⟩ := List.mem_map.mp ha
        have := hbound n hn
        omega
      have hd3 : ((d2.updateIndex (cell.idx +
          (({ first with tail := cell.tail } : ETreeNode) :: restNodes).length)).data.map
            (fun n => n.idx)).Nodup := by
        rw [updateIndex_data]
        exact hd2
      by_cases hind : (d2.updateIndex (cell.idx +
          (({ first with tail := cell.tail } : ETreeNode) :: restNodes).length)).indent.length > 0
      · rw [if_pos hind] at h
        cases hll : (linesOf cell.tail).getLast? with
        | none =>
          rw [hll] at h
          exact Option.noConfusion h
        | some lastLine =>
          rw [hll] at h
          simp only [] at h
          cases hnx : (d2.updateIndex (cell.idx +
              (({ first with tail := cell.tail } : ETreeNode) :: restNodes).length)).next
                cell.idx with
          | none =>
            rw [hnx] at h
            exact Option.noConfusion h
          | some r =>
            rw [hnx] at h
            simp only [] at h
            split at h
            · exact Option.noConfusion h
            · rename_i d4 hpt
              simp only [Option.some.injEq] at h
              rw [← h]
              rw [modifyNode_tail_map_idx]
              rw [(prettyTK_ids _).1 _ _ _ _ hpt]
              exact hd3
      · rw [if_neg hind] at h
        simp only [Option.some.injEq] at h
        rw [← h]
        exact hd3

theorem graft_after_prepare (d d1 : ETree) (cell : ETreeNode) (t : ETree)
    (hids : d1.data.map (fun n => n.idx) = d.data.map (fun n => n.idx))
    (hcnt : d1.count = d.count)
    (hnodup : (d.data.map (fun n => n.idx)).Nodup)
    (hbound : ∀ n ∈ d.data, n.idx < d.count)
    (d2 : ETree) (h : d1.graftTree cell t = some d2) :
    (d2.data.map (fun n => n.idx)).Nodup := by
  apply graftTree_nodup d1 cell t d2 _ _ h
  · rw [hids]
    exact hnodup
  · intro n hn
    have hmem : n.idx ∈ d1.data.map (fun n => n.idx) := List.mem_map.mpr ⟨n, hn, rfl⟩
    rw [hids] at hmem
    obtain ⟨m, hm, hme⟩ := List.mem_map.mp hmem
    rw [hcnt, ← hme]
    exact hbound m hm

/-- A one-element incoming tree for the witnesses below. -/
def tIn : ETree := mkDoc [mkNode ['C'] 0 ['#']]

/-- C2: grafting a subtree by any of `append_previous_tree`,
`append_next_tree` or `append_child_tree` into a destination whose node ids
are pairwise distinct (and below the id counter, the invariant the counter
maintains) yields a document whose node ids are again pairwise distinct: the
id-relocation dance of `subtree_reindex` lands the incoming ids on the fresh
block at the counter, disjoint from every live destination id. -/
theorem c2_graft_ids_unique (d : ETree) (pos : Nat) (t : ETree)
    (hnodup : (d.data.map (fun n => n.idx)).Nodup)
    (hbound : ∀ n ∈ d.data, n.idx < d.count) :
    (∀ d' k, d.appendPreviousTree pos t = some (d', k) →
      (d'.data.map (fun n => n.idx)).Nodup) ∧
    (∀ d' k, d.appendNextTree pos t = some (d', k) →
      (d'.data.map (fun n => n.idx)).Nodup) ∧
    (∀ d' k, d.appendChildTree pos t = some (d', k) →
      (d'.data.map (fun n => n.idx)).Nodup) := by
  refine ⟨?_, ?_, ?_⟩
  · intro d' k h
    rw [ETree.appendPreviousTree] at h
    cases hp : d.prepareAppendPrevious pos with
    | none =>
      rw [hp] at h
      exact Option.noConfusion h
    | some p =>
      obtain ⟨d1, cell⟩ := p
      rw [hp] at h
      simp only [Option.map_eq_some'] at h
      obtain ⟨d2, hg, hd'⟩ := h
      obtain ⟨hids, hcnt⟩ := prepareAppendPrevious_ids d pos d1 cell hp
      have := graft_after_prepare d d1 cell t hids hcnt hnodup hbound d2 hg
      rw [Prod.mk.injEq] at hd'
      rw [← hd'.1]
      exact this
  · intro d' k h
    rw [ETree.appendNextTree] at h
    cases hp : d.prepareAppendNext pos with
    | none =>
      rw [hp] at h
      exact Option.noConfusion h
    | some p =>
      obtain ⟨d1, cell⟩ := p
      rw [hp] at h
      simp only [Option.map_eq_some'] at h
      obtain ⟨d2, hg, hd'⟩ := h
      obtain ⟨hids, hcnt⟩ := prepareAppendNext_ids d pos d1 cell hp
      have := graft_after_prepare d d1 cell t hids hcnt hnodup hbound d2 hg
      rw [Prod.mk.injEq] at hd'
      rw [← hd'.1]
      exact this
  · intro d' k h
    rw [ETree.appendChildTree] at h
    cases hp : d.prepareAppendChild pos with
    | none =>
      rw [hp] at h
      exact Option.noConfusion h
    | some p =>
      obtain ⟨d1, cell⟩ := p
      rw [hp] at h
      simp only [Option.map_eq_some'] at h
      obtain ⟨d2, hg, hd'⟩ := h
      obtain ⟨hids, hcnt⟩ := prepareAppendChild_ids d pos d1 cell hp
      have := graft_after_prepare d d1 cell t hids hcnt hnodup hbound d2 hg
      rw [Prod.mk.injEq] at hd'
      rw [← hd'.1]
      exact this

theorem c2_graft_ids_unique_witness :
    ∃ d' k, docSib.appendNextTree 0 tIn = some (d', k) ∧
      (d'.data.map (fun n => n.idx)).Nodup := by
  cases hap : docSib.appendNextTree 0 tIn with
  | none => exact absurd hap (by decide)
  | some p =>
    obtain ⟨d', k⟩ := p
    exact ⟨d', k, rfl,
      (c2_graft_ids_unique docSib 0 tIn (by decide) (by decide)).2.1 d' k hap⟩

theorem dropWhile_all (p : Char → Bool) (l : Chars) (h : ∀ c ∈ l, p c = true) :
    l.dropWhile p = [] :=
  List.dropWhile_eq_nil_iff.mpr (fun x hx => h x hx)

theorem strTrimBack_append_ws (t w : Chars) (h : ∀ c ∈ w, c.isWhitespace = true) :
    strTrimBack (t ++ w) = strTrimBack t := by
  rw [strTrimBack, strTrimBack, List.reverse_append, List.dropWhile_append,
    dropWhile_all _ _ (fun c hc => h c (List.mem_reverse.mp hc))]
  simp

theorem dropWhile_idem (p : Char → Bool) (l : Chars) :
    (l.dropWhile p).dropWhile p = l.dropWhile p := by
  induction l with
  | nil => rfl
  | cons c rest ih =>
    rw [List.dropWhile_cons]
    by_cases hc : p c = true
    · rw [if_pos hc]
      exact ih
    · rw [if_neg hc, List.dropWhile_cons, if_neg hc]

theorem strTrimBack_idem (l : Chars) : strTrimBack (strTrimBack l) = strTrimBack l := by
  rw [strTrimBack, strTrimBack, List.reverse_reverse, dropWhile_idem]

theorem strTrimBack_cons (c : Char) (l : Chars) :
    strTrimBack (c :: l) =
      if strTrimBack l = [] then (if c.isWhitespace then [] else [c])
      else c :: strTrimBack l := by
  rw [strTrimBack, List.reverse_cons, List.dropWhile_append]
  by_cases h : List.dropWhile Char.isWhitespace l.reverse = []
  · have hsb : strTrimBack l = [] := by rw [strTrimBack, h]; rfl
    have hemp : (List.dropWhile Char.isWhitespace l.reverse).isEmpty = true := by
      rw [h]; rfl
    rw [hemp, if_pos rfl, if_pos hsb, List.dropWhile_cons, List.dropWhile_nil]
    by_cases hc : c.isWhitespace = true
    · simp [hc]
    · simp [hc]
  · have hemp : (List.dropWhile Char.isWhitespace l.reverse).isEmpty = false := by
      cases hd : List.dropWhile Char.isWhitespace l.reverse with
      | nil => exact absurd hd h
      | cons a b => rfl
    rw [hemp]
    simp only [Bool.false_eq_true, if_false]
    rw [if_neg (by rw [strTrimBack]; simpa using h)]
    rw [List.reverse_append, strTrimBack]
    rfl

theorem strTrimBack_head (l : Chars) :
    strTrimBack l = [] ∨ (strTrimBack l).head? = l.head? := by
  induction l with
  | nil => exact Or.inl rfl
  | cons c rest ih =>
    rw [strTrimBack_cons]
    by_cases h : strTrimBack rest = []
    · rw [if_pos h]
      by_cases hc : c.isWhitespace = true
      · rw [if_pos hc]
        exact Or.inl rfl
      · rw [if_neg hc]
        exact Or.inr rfl
    · rw [if_neg h]
      exact Or.inr rfl

theorem strTrimFront_strTrim (l : Chars) : strTrimFront (strTrim l) = strTrim l := by
  rw [strTrim]
  rcases strTrimBack_head (strTrimFront l) with h | h
  · rw [h]
    rfl
  · cases hb : strTrimBack (strTrimFront l) with
    | nil => rfl
    | cons c rest =>
      rw [hb] at h
      have hc : Char.isWhitespace c = false := by
        have hh := List.head?_dropWhile_not Char.isWhitespace l
        rw [strTrimFront] at h
        cases hF : List.dropWhile Char.isWhitespace l with
        | nil =>
          rw [strTrimFront, hF] at hb
          exact absurd hb (by simp [strTrimBack])
        | cons a b =>
          rw [hF] at h hh
          simp at h hh
          rw [h]
          exact hh
      rw [strTrimFront, List.dropWhile_cons, hc]
      simp

theorem strTrim_append_ws (t w : Chars) (h : ∀ c ∈ w, c.isWhitespace = true) :
    strTrim (strTrim t ++ w) = strTrim t := by
  cases hb : strTrim t with
  | nil =>
    rw [List.nil_append, strTrim, strTrimFront, dropWhile_all _ _ h]
    rfl
  | cons c rest =>
    have hc : c.isWhitespace = false := by
      have hfr := strTrimFront_strTrim t
      rw [hb, strTrimFront, List.dropWhile_cons] at hfr
      by_cases hcw : c.isWhitespace = true
      · rw [if_pos hcw] at hfr
        have hlen := congrArg List.length hfr
        simp at hlen
        have := (List.dropWhile_sublist (l := rest) Char.isWhitespace).length_le
        omega
      · simpa using hcw
    rw [strTrim, strTrimFront, List.cons_append, List.dropWhile_cons, hc]
    simp only [Bool.false_eq_true, if_false]
    rw [show (c :: (rest ++ w)) = (c :: rest) ++ w from rfl,
      strTrimBack_append_ws _ _ h, ← hb, strTrim, strTrimBack_idem]

theorem strTrim_idem (l : Chars) : strTrim (strTrim l) = strTrim l := by
  rw [show strTrim (strTrim l) = strTrim (strTrim l ++ []) by simp]
  exact strTrim_append_ws l [] (by intro c hc; simp at hc)

theorem splitNl_chars (l : Chars) :
    ∀ p ∈ splitNl l, ∀ c ∈ p, c ∈ l := by
  induction l with
  | nil =>
    intro p hp c hc
    rw [splitNl] at hp
    simp at hp
    subst hp
    simp at hc
  | cons a rest ih =>
    intro p hp c hc
    rw [splitNl] at hp
    by_cases ha : a = '\n'
    · rw [if_pos ha] at hp
      rcases List.mem_cons.mp hp with hp1 | hp1
      · subst hp1
        simp at hc
      · exact List.mem_cons_of_mem a (ih p hp1 c hc)
    · rw [if_neg ha] at hp
      cases hsp : splitNl rest with
      | nil =>
        rw [hsp] at hp
        simp at hp
        subst hp
        simp at hc
        subst hc
        simp
      | cons h0 t0 =>
        rw [hsp] at hp
        rcases List.mem_cons.mp hp with hp1 | hp1
        · subst hp1
          rcases List.mem_cons.mp hc with hc1 | hc1
          · subst hc1
            simp
          · exact List.mem_cons_of_mem a (ih h0 (by rw [hsp]; simp) c hc1)
        · exact List.mem_cons_of_mem a (ih p (by rw [hsp]; simp [hp1]) c hc)

theorem linesOf_chars (l : Chars) :
    ∀ p ∈ linesOf l, ∀ c ∈ p, c ∈ l := by
  intro p hp c hc
  rw [linesOf] at hp
  simp only [List.mem_map] at hp
  obtain ⟨q, hq, hpq⟩ := hp
  have hql : q ∈ splitNl l := by
    split at hq
    · exact List.mem_of_mem_dropLast hq
    · exact hq
  subst hpq
  rw [stripCr] at hc
  split at hc
  · exact splitNl_chars l q hql c (List.mem_of_mem_take hc)
  · exact splitNl_chars l q hql c hc

/-- A node with its formatting fields erased: what the pretty-printer reads
but never writes (tag, namespace, attributes, id, route). -/
def nodeCore (n : ETreeNode) : ETreeNode := { n with text := none, tail := [] }

/-- Two documents through which the pretty-printer runs identically: same
line terminator, same indent unit, same node cores position by position. -/
def shapeEq (d e : ETree) : Prop :=
  d.crlf = e.crlf ∧ d.indent = e.indent ∧ d.data.map nodeCore = e.data.map nodeCore

/-- The text field at a position (out of range: the default node's `none`). -/
def textAt (d : ETree) (j : Nat) : Option Chars := (nodeAt d.data j).text

/-- The tail field at a position (out of range: the default node's `[]`). -/
def tailAt (d : ETree) (j : Nat) : Chars := (nodeAt d.data j).tail

theorem map_core_modify (f : ETreeNode → ETreeNode)
    (hf : ∀ n, nodeCore (f n) = nodeCore n) :
    ∀ (l : List ETreeNode) (i : Nat),
      (l.modify f i).map nodeCore = l.map nodeCore := by
  intro l i
  apply List.ext_get?
  intro j
  rw [List.get?_eq_getElem?, List.get?_eq_getElem?]
  simp only [List.getElem?_map, List.getElem?_modify]
  by_cases h : i = j
  · subst h
    cases l[i]? <;> simp [hf]
  · simp [h]

theorem nodeCore_route (n : ETreeNode) : (nodeCore n).route = n.route := rfl

theorem nodeCore_idx (n : ETreeNode) : (nodeCore n).idx = n.idx := rfl

theorem nodeCore_name (n : ETreeNode) : (nodeCore n).name = n.name := rfl

theorem modifyNode_text_core (d : ETree) (i : Nat) (X : Option Chars) :
    (d.modifyNode i (fun n => { n with text := X })).data.map nodeCore =
      d.data.map nodeCore :=
  map_core_modify (fun n => { n with text := X }) (fun n => rfl) d.data i

theorem modifyNode_tail_core (d : ETree) (i : Nat) (X : Chars) :
    (d.modifyNode i (fun n => { n with tail := X })).data.map nodeCore =
      d.data.map nodeCore :=
  map_core_modify (fun n => { n with tail := X }) (fun n => rfl) d.data i

theorem shapeEq_length (d e : ETree) (h : shapeEq d e) :
    d.data.length = e.data.length := by
  have := congrArg List.length h.2.2
  simpa using this

theorem nodeAt_core_eq (l lh : List ETreeNode) (h : l.map nodeCore = lh.map nodeCore)
    (j : Nat) : nodeCore (nodeAt l j) = nodeCore (nodeAt lh j) := by
  have hlen : l.length = lh.length := by
    have := congrArg List.length h
    simpa using this
  by_cases hj : j < l.length
  · rw [nodeAt_lt l j hj, nodeAt_lt lh j (by omega)]
    have := congrArg (fun x => x[j]?) h
    simp only [List.getElem?_map] at this
    rw [List.getElem?_eq_getElem hj, List.getElem?_eq_getElem (show j < lh.length by omega)]
      at this
    simpa using this
  · rw [nodeAt_eq_getElem, nodeAt_eq_getElem, List.getElem?_eq_none (by omega),
      List.getElem?_eq_none (by omega)]

theorem childScan_congr_core (target : Chars) :
    ∀ (l lh : List ETreeNode) (start : Nat), l.map nodeCore = lh.map nodeCore →
      ETree.children.childScan target l start = ETree.children.childScan target lh start := by
  intro l
  induction l with
  | nil =>
    intro lh start h
    cases lh with
    | nil => rfl
    | cons a b => exact absurd (congrArg List.length h) (by simp)
  | cons a rest ih =>
    intro lh start h
    cases lh with
    | nil => exact absurd (congrArg List.length h) (by simp)
    | cons ah resth =>
      simp only [List.map_cons, List.cons.injEq] at h
      have hroute : a.route = ah.route := by
        have h2 : (nodeCore a).route = (nodeCore ah).route := by rw [h.1]
        exact h2
      rw [ETree.children.childScan, ETree.children.childScan, ← hroute,
        ih resth (start + 1) h.2]

theorem children_congr_shape (d dh : ETree) (pos : Nat) (hs : shapeEq d dh) :
    d.children pos = dh.children pos := by
  rw [ETree.children, ETree.children]
  have hlen := shapeEq_length d dh hs
  by_cases hp : pos < d.data.length
  · rw [if_pos hp, if_pos (by omega)]
    have hcore := nodeAt_core_eq d.data dh.data hs.2.2 pos
    have hroute : (nodeAt d.data pos).route = (nodeAt dh.data pos).route := by
      have h2 : (nodeCore (nodeAt d.data pos)).route =
          (nodeCore (nodeAt dh.data pos)).route := by rw [hcore]
      exact h2
    have hidx : (nodeAt d.data pos).idx = (nodeAt dh.data pos).idx := by
      have h2 : (nodeCore (nodeAt d.data pos)).idx =
          (nodeCore (nodeAt dh.data pos)).idx := by rw [hcore]
      exact h2
    dsimp only
    rw [← hroute, ← hidx]
    apply childScan_congr_core
    rw [List.map_drop, List.map_drop, hs.2.2]
  · rw [if_neg hp, if_neg (by omega)]

theorem nodeAt_modify_self (l : List ETreeNode) (f : ETreeNode → ETreeNode)
    (i : Nat) (h : i < l.length) :
    nodeAt (l.modify f i) i = f (nodeAt l i) := by
  rw [nodeAt_eq_getElem, nodeAt_eq_getElem, List.getElem?_modify]
  rw [List.getElem?_eq_getElem h]
  simp

theorem nodeAt_modify_ne (l : List ETreeNode) (f : ETreeNode → ETreeNode)
    (i j : Nat) (h : j ≠ i) :
    nodeAt (l.modify f i) j = nodeAt l j := by
  rw [nodeAt_eq_getElem, nodeAt_eq_getElem, List.getElem?_modify]
  have : i ≠ j := fun he => h he.symm
  simp [this]

theorem textAt_modify_tail (d : ETree) (p : Nat) (w : Chars) (j : Nat) :
    textAt (d.modifyNode p (fun n => { n with tail := w })) j = textAt d j := by
  rw [textAt, textAt, ETree.modifyNode]
  by_cases hj : j = p
  · subst hj
    by_cases hp : j < d.data.length
    · rw [nodeAt_modify_self _ _ _ hp]
    · rw [nodeAt_eq_getElem, nodeAt_eq_getElem,
        List.getElem?_eq_none (by simp only [List.length_modify]; omega),
        List.getElem?_eq_none (by omega)]
  · rw [nodeAt_modify_ne _ _ _ _ hj]

theorem tailAt_modify_text (d : ETree) (p : Nat) (v : Option Chars) (j : Nat) :
    tailAt (d.modifyNode p (fun n => { n with text := v })) j = tailAt d j := by
  rw [tailAt, tailAt, ETree.modifyNode]
  by_cases hj : j = p
  · subst hj
    by_cases hp : j < d.data.length
    · rw [nodeAt_modify_self _ _ _ hp]
    · rw [nodeAt_eq_getElem, nodeAt_eq_getElem,
        List.getElem?_eq_none (by simp only [List.length_modify]; omega),
        List.getElem?_eq_none (by omega)]
  · rw [nodeAt_modify_ne _ _ _ _ hj]

theorem textAt_modify_text_self (d : ETree) (p : Nat) (v : Option Chars)
    (hp : p < d.data.length) :
    textAt (d.modifyNode p (fun n => { n with text := v })) p = v := by
  rw [textAt, ETree.modifyNode, nodeAt_modify_self _ _ _ hp]

theorem textAt_modify_text_ne (d : ETree) (p : Nat) (v : Option Chars) (j : Nat)
    (hj : j ≠ p) :
    textAt (d.modifyNode p (fun n => { n with text := v })) j = textAt d j := by
  rw [textAt, textAt, ETree.modifyNode, nodeAt_modify_ne _ _ _ _ hj]

theorem tailAt_modify_tail_self (d : ETree) (p : Nat) (w : Chars)
    (hp : p < d.data.length) :
    tailAt (d.modifyNode p (fun n => { n with tail := w })) p = w := by
  rw [tailAt, ETree.modifyNode, nodeAt_modify_self _ _ _ hp]

theorem tailAt_modify_tail_ne (d : ETree) (p : Nat) (w : Chars) (j : Nat)
    (hj : j ≠ p) :
    tailAt (d.modifyNode p (fun n => { n with tail := w })) j = tailAt d j := by
  rw [tailAt, tailAt, ETree.modifyNode, nodeAt_modify_ne _ _ _ _ hj]

theorem isMeta_congr_core (a b : ETreeNode) (h : nodeCore a = nodeCore b) :
    a.isMeta = b.isMeta := by
  have hname : a.name = b.name := by
    have h2 : (nodeCore a).name = (nodeCore b).name := by rw [h]
    exact h2
  rw [ETreeNode.isMeta, ETreeNode.isMeta, ETreeNode.localname, ETreeNode.localname, hname]

/-- The pretty-printer rewrites only text and tail fields, so the shape (line
terminator, indent unit, node cores) is untouched. -/
theorem prettyTK_core :
    ∀ fuel : Nat,
      (∀ (d : ETree) (pos level : Nat) (e : ETree),
        ETree.prettyTree fuel d pos level = some e →
        e.crlf = d.crlf ∧ e.indent = d.indent ∧
          e.data.map nodeCore = d.data.map nodeCore) ∧
      (∀ (d : ETree) (cs : List Nat) (level : Nat) (e : ETree),
        ETree.prettyKids fuel d cs level = some e →
        e.crlf = d.crlf ∧ e.indent = d.indent ∧
          e.data.map nodeCore = d.data.map nodeCore) := by
  intro fuel
  induction fuel with
  | zero =>
    constructor
    · intro d pos level e h
      rw [ETree.prettyTree] at h
      exact Option.noConfusion h
    · intro d cs level e h
      cases cs with
      | nil =>
        rw [prettyKids_nil] at h
        simp only [Option.some.injEq] at h
        rw [h]
        exact ⟨rfl, rfl, rfl⟩
      | cons c cs =>
        rw [prettyKids_cons, ETree.prettyTree] at h
        exact Option.noConfusion h
  | succ fuel ih =>
    have hT : ∀ (d : ETree) (pos level : Nat) (e : ETree),
        ETree.prettyTree (fuel + 1) d pos level = some e →
        e.crlf = d.crlf ∧ e.indent = d.indent ∧
          e.data.map nodeCore = d.data.map nodeCore := by
      intro d pos level e h
      simp only [prettyTree_unfold] at h
      by_cases hlt : pos < d.data.length
      · rw [if_pos hlt] at h
        cases hch : (d.modifyNode pos (fun n =>
            { n with tail := d.crlf ++ (List.replicate level d.indent).join })).children pos with
        | nil =>
          rw [hch] at h
          by_cases hm : (nodeAt (d.modifyNode pos (fun n =>
              { n with tail := d.crlf ++ (List.replicate level d.indent).join })).data pos).isMeta = true
          · rw [if_pos hm] at h
            simp only [Option.some.injEq] at h
            rw [← h]
            exact ⟨rfl, rfl, modifyNode_tail_core d pos _⟩
          · rw [if_neg hm] at h
            cases htxt : (nodeAt (d.modifyNode pos (fun n =>
                { n with tail := d.crlf ++ (List.replicate level d.indent).join })).data pos).text with
            | none =>
              rw [htxt] at h
              simp only [Option.some.injEq] at h
              rw [← h]
              exact ⟨rfl, rfl, modifyNode_tail_core d pos _⟩
            | some t =>
              rw [htxt] at h
              simp only [Option.some.injEq] at h
              rw [← h]
              refine ⟨rfl, rfl, ?_⟩
              rw [modifyNode_text_core]
              exact modifyNode_tail_core d pos _
        | cons c cs =>
          rw [hch] at h
          simp only [] at h
          cases htxt : (nodeAt (d.modifyNode pos (fun n =>
              { n with tail := d.crlf ++ (List.replicate level d.indent).join })).data pos).text with
          | none =>
            rw [htxt] at h
            exact absurd h (by simp)
          | some t =>
            rw [htxt] at h
            simp only [] at h
            split at h
            · exact Option.noConfusion h
            · rename_i d3 hkids
              simp only [Option.some.injEq] at h
              rw [← h]
              obtain ⟨hc3, hi3, hm3⟩ := ih.2 _ _ _ _ hkids
              refine ⟨hc3, hi3, ?_⟩
              rw [modifyNode_tail_core, hm3, modifyNode_text_core]
              exact modifyNode_tail_core d pos _
      · rw [if_neg hlt] at h
        exact Option.noConfusion h
    refine ⟨hT, ?_⟩
    intro d cs
    induction cs generalizing d with
    | nil =>
      intro level e h
      rw [prettyKids_nil] at h
      simp only [Option.some.injEq] at h
      rw [h]
      exact ⟨rfl, rfl, rfl⟩
    | cons c cs ihk =>
      intro level e h
      rw [prettyKids_cons] at h
      cases ht : ETree.prettyTree (fuel + 1) d c level with
      | none =>
        rw [ht] at h
        exact Option.noConfusion h
      | some d' =>
        rw [ht] at h
        obtain ⟨h1, h2, h3⟩ := ihk d' level e h
        obtain ⟨g1, g2, g3⟩ := hT d c level d' ht
        exact ⟨h1.trans g1, h2.trans g2, h3.trans g3⟩

theorem textStep (a ah b bh c ch : Option Chars)
    (h1 : (bh = b ∧ b.map strTrim = a.map strTrim) ∨ (bh = ah ∧ b = a))
    (h2 : (ch = c ∧ c.map strTrim = b.map strTrim) ∨ (ch = bh ∧ c = b)) :
    (ch = c ∧ c.map strTrim = a.map strTrim) ∨ (ch = ah ∧ c = a) := by
  rcases h1 with ⟨e1, t1⟩ | ⟨e1, e1'⟩
  · rcases h2 with ⟨e2, t2⟩ | ⟨e2, e2'⟩
    · exact Or.inl ⟨e2, t2.trans t1⟩
    · exact Or.inl ⟨e2.trans (e1.trans e2'.symm), by rw [e2']; exact t1⟩
  · rcases h2 with ⟨e2, t2⟩ | ⟨e2, e2'⟩
    · exact Or.inl ⟨e2, by rw [e1'] at t2; exact t2⟩
    · exact Or.inr ⟨e2.trans e1, e2'.trans e1'⟩

theorem tailStep (a ah b bh c ch : Chars)
    (h1 : bh = b ∨ (bh = ah ∧ b = a)) (h2 : ch = c ∨ (ch = bh ∧ c = b)) :
    ch = c ∨ (ch = ah ∧ c = a) := by
  rcases h1 with e1 | ⟨e1, e1'⟩
  · rcases h2 with e2 | ⟨e2, e2'⟩
    · exact Or.inl e2
    · exact Or.inl (e2.trans (e1.trans e2'.symm))
  · rcases h2 with e2 | ⟨e2, e2'⟩
    · exact Or.inl e2
    · exact Or.inr ⟨e2.trans e1, e2'.trans e1'⟩

theorem modifyNode_length (d : ETree) (i : Nat) (f : ETreeNode → ETreeNode) :
    (d.modifyNode i f).data.length = d.data.length := by
  rw [ETree.modifyNode]
  simp

theorem join_replicate_ws (k : Nat) (ind : Chars)
    (h : ∀ c ∈ ind, c.isWhitespace = true) :
    ∀ c ∈ (List.replicate k ind).join, c.isWhitespace = true := by
  intro c hc
  rw [List.mem_join] at hc
  obtain ⟨p, hp, hcp⟩ := hc
  rw [List.mem_replicate] at hp
  exact h c (hp.2 ▸ hcp)

theorem ws_append (a b : Chars) (ha : ∀ c ∈ a, c.isWhitespace = true)
    (hb : ∀ c ∈ b, c.isWhitespace = true) :
    ∀ c ∈ a ++ b, c.isWhitespace = true := by
  intro c hc
  rcases List.mem_append.mp hc with h | h
  · exact ha c h
  · exact hb c h

theorem modifyNode_crlf (d : ETree) (i : Nat) (f : ETreeNode → ETreeNode) :
    (d.modifyNode i f).crlf = d.crlf := rfl

theorem modifyNode_indent (d : ETree) (i : Nat) (f : ETreeNode → ETreeNode) :
    (d.modifyNode i f).indent = d.indent := rfl

/-- Two pretty-printer runs over shape-equal documents whose texts agree up
to trimming go through the same branches; at every position the two outputs
either agree exactly (and the first run's text there trim-equals its input's)
or both runs left the position untouched. -/
theorem prettyTK_sim :
    ∀ fuel : Nat,
      (∀ (d dh : ETree) (pos level : Nat) (e : ETree),
        (∀ c ∈ d.crlf, c.isWhitespace = true) →
        (∀ c ∈ d.indent, c.isWhitespace = true) →
        shapeEq d dh →
        (∀ j, (textAt d j).map strTrim = (textAt dh j).map strTrim) →
        ETree.prettyTree fuel d pos level = some e →
        ∃ eh, ETree.prettyTree fuel dh pos level = some eh ∧
          (∀ j, (textAt eh j = textAt e j ∧
                 (textAt e j).map strTrim = (textAt d j).map strTrim) ∨
                (textAt eh j = textAt dh j ∧ textAt e j = textAt d j)) ∧
          (∀ j, tailAt eh j = tailAt e j ∨
                (tailAt eh j = tailAt dh j ∧ tailAt e j = tailAt d j))) ∧
      (∀ (d dh : ETree) (cs : List Nat) (level : Nat) (e : ETree),
        (∀ c ∈ d.crlf, c.isWhitespace = true) →
        (∀ c ∈ d.indent, c.isWhitespace = true) →
        shapeEq d dh →
        (∀ j, (textAt d j).map strTrim = (textAt dh j).map strTrim) →
        ETree.prettyKids fuel d cs level = some e →
        ∃ eh, ETree.prettyKids fuel dh cs level = some eh ∧
          (∀ j, (textAt eh j = textAt e j ∧
                 (textAt e j).map strTrim = (textAt d j).map strTrim) ∨
                (textAt eh j = textAt dh j ∧ textAt e j = textAt d j)) ∧
          (∀ j, tailAt eh j = tailAt e j ∨
                (tailAt eh j = tailAt dh j ∧ tailAt e j = tailAt d j))) := by
  intro fuel
  induction fuel with
  | zero =>
    constructor
    · intro d dh pos level e hwc hwi hs htr h
      rw [ETree.prettyTree] at h
      exact Option.noConfusion h
    · intro d dh cs level e hwc hwi hs htr h
      cases cs with
      | nil =>
        rw [prettyKids_nil] at h
        simp only [Option.some.injEq] at h
        subst h
        refine ⟨dh, by rw [prettyKids_nil], ?_, ?_⟩
        · intro j
          exact Or.inr ⟨rfl, rfl⟩
        · intro j
          exact Or.inr ⟨rfl, rfl⟩
      | cons c cs =>
        rw [prettyKids_cons, ETree.prettyTree] at h
        exact Option.noConfusion h
  | succ fuel ih =>
    have hT : ∀ (d dh : ETree) (pos level : Nat) (e : ETree),
        (∀ c ∈ d.crlf, c.isWhitespace = true) →
        (∀ c ∈ d.indent, c.isWhitespace = true) →
        shapeEq d dh →
        (∀ j, (textAt d j).map strTrim = (textAt dh j).map strTrim) →
        ETree.prettyTree (fuel + 1) d pos level = some e →
        ∃ eh, ETree.prettyTree (fuel + 1) dh pos level = some eh ∧
          (∀ j, (textAt eh j = textAt e j ∧
                 (textAt e j).map strTrim = (textAt d j).map strTrim) ∨
                (textAt eh j = textAt dh j ∧ textAt e j = textAt d j)) ∧
          (∀ j, tailAt eh j = tailAt e j ∨
                (tailAt eh j = tailAt dh j ∧ tailAt e j = tailAt d j)) := by
      intro d dh pos level e hwc hwi hs htr h
      simp only [prettyTree_unfold, modifyNode_crlf, modifyNode_indent] at h
      have hlen := shapeEq_length d dh hs
      by_cases hlt : pos < d.data.length
      · rw [if_pos hlt] at h
        have hs1 : shapeEq
            (d.modifyNode pos (fun n =>
              { n with tail := d.crlf ++ (List.replicate level d.indent).join }))
            (dh.modifyNode pos (fun n =>
              { n with tail := d.crlf ++ (List.replicate level d.indent).join })) := by
          refine ⟨hs.1, hs.2.1, ?_⟩
          rw [modifyNode_tail_core, modifyNode_tail_core, hs.2.2]
        have htr1 : ∀ j,
            (textAt (d.modifyNode pos (fun n =>
              { n with tail := d.crlf ++ (List.replicate level d.indent).join })) j).map strTrim =
            (textAt (dh.modifyNode pos (fun n =>
              { n with tail := d.crlf ++ (List.replicate level d.indent).join })) j).map strTrim := by
          intro j
          rw [textAt_modify_tail, textAt_modify_tail]
          exact htr j
        have hTtext : ∀ j,
            (textAt (dh.modifyNode pos (fun n =>
               { n with tail := d.crlf ++ (List.replicate level d.indent).join })) j =
             textAt (d.modifyNode pos (fun n =>
               { n with tail := d.crlf ++ (List.replicate level d.indent).join })) j ∧
             (textAt (d.modifyNode pos (fun n =>
               { n with tail := d.crlf ++ (List.replicate level d.indent).join })) j).map strTrim =
             (textAt d j).map strTrim) ∨
            (textAt (dh.modifyNode pos (fun n =>
               { n with tail := d.crlf ++ (List.replicate level d.indent).join })) j = textAt dh j ∧
             textAt (d.modifyNode pos (fun n =>
               { n with tail := d.crlf ++ (List.replicate level d.indent).join })) j = textAt d j) := by
          intro j
          exact Or.inr ⟨textAt_modify_tail _ _ _ _, textAt_modify_tail _ _ _ _⟩
        have hTtail : ∀ j,
            tailAt (dh.modifyNode pos (fun n =>
              { n with tail := d.crlf ++ (List.replicate level d.indent).join })) j =
            tailAt (d.modifyNode pos (fun n =>
              { n with tail := d.crlf ++ (List.replicate level d.indent).join })) j ∨
            (tailAt (dh.modifyNode pos (fun n =>
              { n with tail := d.crlf ++ (List.replicate level d.indent).join })) j = tailAt dh j ∧
             tailAt (d.modifyNode pos (fun n =>
              { n with tail := d.crlf ++ (List.replicate level d.indent).join })) j = tailAt d j) := by
          intro j
          by_cases hj : j = pos
          · subst hj
            exact Or.inl (by
              rw [tailAt_modify_tail_self _ _ _ (by omega),
                tailAt_modify_tail_self _ _ _ hlt])
          · exact Or.inr ⟨tailAt_modify_tail_ne _ _ _ _ hj, tailAt_modify_tail_ne _ _ _ _ hj⟩
        have hchEq : (dh.modifyNode pos (fun n =>
            { n with tail := d.crlf ++ (List.replicate level d.indent).join })).children pos =
          (d.modifyNode pos (fun n =>
            { n with tail := d.crlf ++ (List.replicate level d.indent).join })).children pos :=
          (children_congr_shape _ _ pos hs1).symm
        have hmEq : (nodeAt (dh.modifyNode pos (fun n =>
            { n with tail := d.crlf ++ (List.replicate level d.indent).join })).data pos).isMeta =
          (nodeAt (d.modifyNode pos (fun n =>
            { n with tail := d.crlf ++ (List.replicate level d.indent).join })).data pos).isMeta :=
          (isMeta_congr_core _ _ (nodeAt_core_eq _ _ hs1.2.2 pos)).symm
        cases hch : (d.modifyNode pos (fun n =>
            { n with tail := d.crlf ++ (List.replicate level d.indent).join })).children pos with
        | nil =>
          rw [hch] at h
          by_cases hm : (nodeAt (d.modifyNode pos (fun n =>
              { n with tail := d.crlf ++ (List.replicate level d.indent).join })).data pos).isMeta = true
          · rw [if_pos hm] at h
            simp only [Option.some.injEq] at h
            subst h
            refine ⟨_, ?_, hTtext, hTtail⟩
            simp only [prettyTree_unfold, modifyNode_crlf, modifyNode_indent]
            rw [if_pos (show pos < dh.data.length by omega), ← hs.1, ← hs.2.1,
              hchEq, hch]
            simp only []
            rw [hmEq, if_pos hm]
          · rw [if_neg hm] at h
            cases htxt : (nodeAt (d.modifyNode pos (fun n =>
                { n with tail := d.crlf ++ (List.replicate level d.indent).join })).data pos).text with
            | none =>
              rw [htxt] at h
              simp only [Option.some.injEq] at h
              subst h
              have h0 := htr1 pos
              rw [textAt, textAt, htxt] at h0
              have hthn : (nodeAt (dh.modifyNode pos (fun n =>
                  { n with tail := d.crlf ++ (List.replicate level d.indent).join })).data pos).text = none := by
                cases hx : (nodeAt (dh.modifyNode pos (fun n =>
                    { n with tail := d.crlf ++ (List.replicate level d.indent).join })).data pos).text with
                | none => rfl
                | some z =>
                  rw [hx] at h0
                  exact absurd h0 (by simp)
              refine ⟨_, ?_, hTtext, hTtail⟩
              simp only [prettyTree_unfold, modifyNode_crlf, modifyNode_indent]
              rw [if_pos (show pos < dh.data.length by omega), ← hs.1, ← hs.2.1,
                hchEq, hch]
              simp only []
              rw [hmEq, if_neg hm, hthn]
            | some t =>
              rw [htxt] at h
              simp only [Option.some.injEq] at h
              subst h
              have h0 := htr1 pos
              rw [textAt, textAt, htxt] at h0
              obtain ⟨th, hth, htrm⟩ : ∃ th, (nodeAt (dh.modifyNode pos (fun n =>
                  { n with tail := d.crlf ++ (List.replicate level d.indent).join })).data pos).text = some th ∧
                  strTrim th = strTrim t := by
                cases hx : (nodeAt (dh.modifyNode pos (fun n =>
                    { n with tail := d.crlf ++ (List.replicate level d.indent).join })).data pos).text with
                | none =>
                  rw [hx] at h0
                  exact absurd h0 (by simp)
                | some z =>
                  rw [hx] at h0
                  simp only [Option.map_some'] at h0
                  exact ⟨z, rfl, by injection h0 with h0'; exact h0'.symm⟩
              have hdp : textAt d pos = some t := by
                rw [← textAt_modify_tail d pos
                  (d.crlf ++ (List.replicate level d.indent).join) pos, textAt, htxt]
              refine ⟨(dh.modifyNode pos (fun n =>
                  { n with tail := d.crlf ++ (List.replicate level d.indent).join })).modifyNode pos
                    (fun n => { n with text := some (strTrim t) }), ?_, ?_, ?_⟩
              · simp only [prettyTree_unfold, modifyNode_crlf, modifyNode_indent]
                rw [if_pos (show pos < dh.data.length by omega), ← hs.1, ← hs.2.1,
                  hchEq, hch]
                simp only []
                rw [hmEq, if_neg hm, hth]
                simp only []
                rw [htrm]
              · intro j
                by_cases hj : j = pos
                · subst hj
                  refine Or.inl ⟨?_, ?_⟩
                  · rw [textAt_modify_text_self _ _ _ (by rw [modifyNode_length]; omega),
                      textAt_modify_text_self _ _ _ (by rw [modifyNode_length]; omega)]
                  · rw [textAt_modify_text_self _ _ _ (by rw [modifyNode_length]; omega), hdp]
                    simp only [Option.map_some']
                    rw [strTrim_idem]
                · exact Or.inr ⟨by rw [textAt_modify_text_ne _ _ _ _ hj, textAt_modify_tail],
                    by rw [textAt_modify_text_ne _ _ _ _ hj, textAt_modify_tail]⟩
              · intro j
                rcases hTtail j with h1 | ⟨h1, h2⟩
                · exact Or.inl (by rw [tailAt_modify_text, tailAt_modify_text, h1])
                · exact Or.inr ⟨by rw [tailAt_modify_text, h1], by rw [tailAt_modify_text, h2]⟩
        | cons c cs =>
          rw [hch] at h
          simp only [] at h
          cases htxt : (nodeAt (d.modifyNode pos (fun n =>
              { n with tail := d.crlf ++ (List.replicate level d.indent).join })).data pos).text with
          | none =>
            rw [htxt] at h
            exact absurd h (by simp)
          | some t =>
            rw [htxt] at h
            simp only [] at h
            split at h
            · exact Option.noConfusion h
            · rename_i d3 hkids
              simp only [Option.some.injEq] at h
              subst h
              have h0 := htr1 pos
              rw [textAt, textAt, htxt] at h0
              obtain ⟨th, hth, htrm⟩ : ∃ th, (nodeAt (dh.modifyNode pos (fun n =>
                  { n with tail := d.crlf ++ (List.replicate level d.indent).join })).data pos).text = some th ∧
                  strTrim th = strTrim t := by
                cases hx : (nodeAt (dh.modifyNode pos (fun n =>
                    { n with tail := d.crlf ++ (List.replicate level d.indent).join })).data pos).text with
                | none =>
                  rw [hx] at h0
                  exact absurd h0 (by simp)
                | some z =>
                  rw [hx] at h0
                  simp only [Option.map_some'] at h0
                  exact ⟨z, rfl, by injection h0 with h0'; exact h0'.symm⟩
              have hwsuf : ∀ ch ∈ d.crlf ++ (List.replicate (level + 1) d.indent).join,
                  ch.isWhitespace = true :=
                ws_append _ _ hwc (join_replicate_ws _ _ hwi)
              have hlen1 : (d.modifyNode pos (fun n =>
                  { n with tail := d.crlf ++ (List.replicate level d.indent).join })).data.length
                  = d.data.length := modifyNode_length _ _ _
              have hlen1h : (dh.modifyNode pos (fun n =>
                  { n with tail := d.crlf ++ (List.replicate level d.indent).join })).data.length
                  = dh.data.length := modifyNode_length _ _ _
              have hs2 : shapeEq
                  ((d.modifyNode pos (fun n =>
                    { n with tail := d.crlf ++ (List.replicate level d.indent).join })).modifyNode pos
                      (fun n => { n with text := some (strTrim t ++ d.crlf ++
                        (List.replicate (level + 1) d.indent).join) }))
                  ((dh.modifyNode pos (fun n =>
                    { n with tail := d.crlf ++ (List.replicate level d.indent).join })).modifyNode pos
                      (fun n => { n with text := some (strTrim t ++ d.crlf ++
                        (List.replicate (level + 1) d.indent).join) })) := by
                refine ⟨hs.1, hs.2.1, ?_⟩
                rw [modifyNode_text_core, modifyNode_text_core, modifyNode_tail_core,
                  modifyNode_tail_core, hs.2.2]
              have step2text : ∀ j,
                  (textAt ((dh.modifyNode pos (fun n =>
                    { n with tail := d.crlf ++ (List.replicate level d.indent).join })).modifyNode pos
                      (fun n => { n with text := some (strTrim t ++ d.crlf ++
                        (List.replicate (level + 1) d.indent).join) })) j =
                   textAt ((d.modifyNode pos (fun n =>
                    { n with tail := d.crlf ++ (List.replicate level d.indent).join })).modifyNode pos
                      (fun n => { n with text := some (strTrim t ++ d.crlf ++
                        (List.replicate (level + 1) d.indent).join) })) j ∧
                   (textAt ((d.modifyNode pos (fun n =>
                    { n with tail := d.crlf ++ (List.replicate level d.indent).join })).modifyNode pos
                      (fun n => { n with text := some (strTrim t ++ d.crlf ++
                        (List.replicate (level + 1) d.indent).join) })) j).map strTrim =
                   (textAt (d.modifyNode pos (fun n =>
                    { n with tail := d.crlf ++ (List.replicate level d.indent).join })) j).map strTrim) ∨
                  (textAt ((dh.modifyNode pos (fun n =>
                    { n with tail := d.crlf ++ (List.replicate level d.indent).join })).modifyNode pos
                      (fun n => { n with text := some (strTrim t ++ d.crlf ++
                        (List.replicate (level + 1) d.indent).join) })) j =
                   textAt (dh.modifyNode pos (fun n =>
                    { n with tail := d.crlf ++ (List.replicate level d.indent).join })) j ∧
                   textAt ((d.modifyNode pos (fun n =>
                    { n with tail := d.crlf ++ (List.replicate level d.indent).join })).modifyNode pos
                      (fun n => { n with text := some (strTrim t ++ d.crlf ++
                        (List.replicate (level + 1) d.indent).join) })) j =
                   textAt (d.modifyNode pos (fun n =>
                    { n with tail := d.crlf ++ (List.replicate level d.indent).join })) j) := by
                intro j
                by_cases hj : j = pos
                · subst hj
                  refine Or.inl ⟨?_, ?_⟩
                  · rw [textAt_modify_text_self _ _ _ (by rw [hlen1h]; omega),
                      textAt_modify_text_self _ _ _ (by rw [hlen1]; omega)]
                  · rw [textAt_modify_text_self _ _ _ (by rw [hlen1]; omega), textAt, htxt]
                    simp only [Option.map_some']
                    congr 1
                    rw [List.append_assoc]
                    exact strTrim_append_ws t _ hwsuf
                · exact Or.inr ⟨textAt_modify_text_ne _ _ _ _ hj,
                    textAt_modify_text_ne _ _ _ _ hj⟩
              have step2tail : ∀ j,
                  tailAt ((dh.modifyNode pos (fun n =>
                    { n with tail := d.crlf ++ (List.replicate level d.indent).join })).modifyNode pos
                      (fun n => { n with text := some (strTrim t ++ d.crlf ++
                        (List.replicate (level + 1) d.indent).join) })) j =
                  tailAt ((d.modifyNode pos (fun n =>
                    { n with tail := d.crlf ++ (List.replicate level d.indent).join })).modifyNode pos
                      (fun n => { n with text := some (strTrim t ++ d.crlf ++
                        (List.replicate (level + 1) d.indent).join) })) j ∨
                  (tailAt ((dh.modifyNode pos (fun n =>
                    { n with tail := d.crlf ++ (List.replicate level d.indent).join })).modifyNode pos
                      (fun n => { n with text := some (strTrim t ++ d.crlf ++
                        (List.replicate (level + 1) d.indent).join) })) j =
                   tailAt (dh.modifyNode pos (fun n =>
                    { n with tail := d.crlf ++ (List.replicate level d.indent).join })) j ∧
                   tailAt ((d.modifyNode pos (fun n =>
                    { n with tail := d.crlf ++ (List.replicate level d.indent).join })).modifyNode pos
                      (fun n => { n with text := some (strTrim t ++ d.crlf ++
                        (List.replicate (level + 1) d.indent).join) })) j =
                   tailAt (d.modifyNode pos (fun n =>
                    { n with tail := d.crlf ++ (List.replicate level d.indent).join })) j) := by
                intro j
                exact Or.inr ⟨tailAt_modify_text _ _ _ _, tailAt_modify_text _ _ _ _⟩
              have htr2 : ∀ j,
                  (textAt ((d.modifyNode pos (fun n =>
                    { n with tail := d.crlf ++ (List.replicate level d.indent).join })).modifyNode pos
                      (fun n => { n with text := some (strTrim t ++ d.crlf ++
                        (List.replicate (level + 1) d.indent).join) })) j).map strTrim =
                  (textAt ((dh.modifyNode pos (fun n =>
                    { n with tail := d.crlf ++ (List.replicate level d.indent).join })).modifyNode pos
                      (fun n => { n with text := some (strTrim t ++ d.crlf ++
                        (List.replicate (level + 1) d.indent).join) })) j).map strTrim := by
                intro j
                by_cases hj : j = pos
                · subst hj
                  rw [textAt_modify_text_self _ _ _ (by rw [hlen1]; omega),
                    textAt_modify_text_self _ _ _ (by rw [hlen1h]; omega)]
                · rw [textAt_modify_text_ne _ _ _ _ hj, textAt_modify_text_ne _ _ _ _ hj]
                  exact htr1 j
              have hwc2 : ∀ ch ∈ ((d.modifyNode pos (fun n =>
                  { n with tail := d.crlf ++ (List.replicate level d.indent).join })).modifyNode pos
                    (fun n => { n with text := some (strTrim t ++ d.crlf ++
                      (List.replicate (level + 1) d.indent).join) })).crlf,
                  ch.isWhitespace = true := by
                rw [modifyNode_crlf, modifyNode_crlf]
                exact hwc
              have hwi2 : ∀ ch ∈ ((d.modifyNode pos (fun n =>
                  { n with tail := d.crlf ++ (List.replicate level d.indent).join })).modifyNode pos
                    (fun n => { n with text := some (strTrim t ++ d.crlf ++
                      (List.replicate (level + 1) d.indent).join) })).indent,
                  ch.isWhitespace = true := by
                rw [modifyNode_indent, modifyNode_indent]
                exact hwi
              obtain ⟨d3h, hk3, Ktext, Ktail⟩ := ih.2 _ _ (c :: cs) (level + 1) d3
                hwc2 hwi2 hs2 htr2 hkids
              obtain ⟨hc3, hi3, hm3⟩ := (prettyTK_core fuel).2 _ _ _ _ hkids
              obtain ⟨hc3h, hi3h, hm3h⟩ := (prettyTK_core fuel).2 _ _ _ _ hk3
              have hlen3 : d3.data.length = d.data.length := by
                have hx := congrArg List.length hm3
                simp only [List.length_map] at hx
                rw [hx, modifyNode_length, hlen1]
              have hlen3h : d3h.data.length = dh.data.length := by
                have hx := congrArg List.length hm3h
                simp only [List.length_map] at hx
                rw [hx, modifyNode_length, hlen1h]
              have hlastmem : (c :: cs).getLast (by simp) ∈ (d.modifyNode pos (fun n =>
                  { n with tail := d.crlf ++ (List.replicate level d.indent).join })).children pos := by
                rw [hch]
                exact List.getLast_mem (by simp)
              have hlastlt : (c :: cs).getLast (by simp) < d.data.length := by
                have := (children_mem_bounds _ _ _ hlastmem).2
                omega
              have step4text : ∀ j,
                  (textAt (d3h.modifyNode ((c :: cs).getLast (by simp)) (fun n =>
                    { n with tail := d.crlf ++ (List.replicate level d.indent).join })) j =
                   textAt (d3.modifyNode ((c :: cs).getLast (by simp)) (fun n =>
                    { n with tail := d.crlf ++ (List.replicate level d.indent).join })) j ∧
                   (textAt (d3.modifyNode ((c :: cs).getLast (by simp)) (fun n =>
                    { n with tail := d.crlf ++ (List.replicate level d.indent).join })) j).map strTrim =
                   (textAt d3 j).map strTrim) ∨
                  (textAt (d3h.modifyNode ((c :: cs).getLast (by simp)) (fun n =>
                    { n with tail := d.crlf ++ (List.replicate level d.indent).join })) j =
                   textAt d3h j ∧
                   textAt (d3.modifyNode ((c :: cs).getLast (by simp)) (fun n =>
                    { n with tail := d.crlf ++ (List.replicate level d.indent).join })) j =
                   textAt d3 j) := by
                intro j
                exact Or.inr ⟨textAt_modify_tail _ _ _ _, textAt_modify_tail _ _ _ _⟩
              have step4tail : ∀ j,
                  tailAt (d3h.modifyNode ((c :: cs).getLast (by simp)) (fun n =>
                    { n with tail := d.crlf ++ (List.replicate level d.indent).join })) j =
                  tailAt (d3.modifyNode ((c :: cs).getLast (by simp)) (fun n =>
                    { n with tail := d.crlf ++ (List.replicate level d.indent).join })) j ∨
                  (tailAt (d3h.modifyNode ((c :: cs).getLast (by simp)) (fun n =>
                    { n with tail := d.crlf ++ (List.replicate level d.indent).join })) j =
                   tailAt d3h j ∧
                   tailAt (d3.modifyNode ((c :: cs).getLast (by simp)) (fun n =>
                    { n with tail := d.crlf ++ (List.replicate level d.indent).join })) j =
                   tailAt d3 j) := by
                intro j
                by_cases hj : j = (c :: cs).getLast (by simp)
                · subst hj
                  exact Or.inl (by
                    rw [tailAt_modify_tail_self _ _ _ (by omega),
                      tailAt_modify_tail_self _ _ _ (by omega)])
                · exact Or.inr ⟨tailAt_modify_tail_ne _ _ _ _ hj,
                    tailAt_modify_tail_ne _ _ _ _ hj⟩
              refine ⟨d3h.modifyNode ((c :: cs).getLast (by simp)) (fun n =>
                  { n with tail := d.crlf ++ (List.replicate level d.indent).join }), ?_, ?_, ?_⟩
              · simp only [prettyTree_unfold, modifyNode_crlf, modifyNode_indent]
                rw [if_pos (show pos < dh.data.length by omega), ← hs.1, ← hs.2.1,
                  hchEq, hch]
                simp only []
                rw [hth]
                simp only []
                rw [htrm, hk3]
              · intro j
                exact textStep _ _ _ _ _ _ (textStep _ _ _ _ _ _
                  (textStep _ _ _ _ _ _ (hTtext j) (step2text j)) (Ktext j)) (step4text j)
              · intro j
                exact tailStep _ _ _ _ _ _ (tailStep _ _ _ _ _ _
                  (tailStep _ _ _ _ _ _ (hTtail j) (step2tail j)) (Ktail j)) (step4tail j)
      · rw [if_neg hlt] at h
        exact Option.noConfusion h
    refine ⟨hT, ?_⟩
    intro d dh cs
    induction cs generalizing d dh with
    | nil =>
      intro level e hwc hwi hs htr h
      rw [prettyKids_nil] at h
      simp only [Option.some.injEq] at h
      subst h
      refine ⟨dh, by rw [prettyKids_nil], ?_, ?_⟩
      · intro j
        exact Or.inr ⟨rfl, rfl⟩
      · intro j
        exact Or.inr ⟨rfl, rfl⟩
    | cons c cs ihk =>
      intro level e hwc hwi hs htr h
      rw [prettyKids_cons] at h
      cases ht : ETree.prettyTree (fuel + 1) d c level with
      | none =>
        rw [ht] at h
        exact Option.noConfusion h
      | some d1 =>
        rw [ht] at h
        obtain ⟨d1h, ht', Ttext, Ttail⟩ := hT d dh c level d1 hwc hwi hs htr ht
        obtain ⟨hc1, hi1, hm1⟩ := (prettyTK_core (fuel + 1)).1 _ _ _ _ ht
        obtain ⟨hc1h, hi1h, hm1h⟩ := (prettyTK_core (fuel + 1)).1 _ _ _ _ ht'
        have hwc1 : ∀ ch ∈ d1.crlf, ch.isWhitespace = true := by
          rw [hc1]
          exact hwc
        have hwi1 : ∀ ch ∈ d1.indent, ch.isWhitespace = true := by
          rw [hi1]
          exact hwi
        have hs1 : shapeEq d1 d1h := ⟨hc1.trans (hs.1.trans hc1h.symm),
          hi1.trans (hs.2.1.trans hi1h.symm), hm1.trans (hs.2.2.trans hm1h.symm)⟩
        have htr1 : ∀ j, (textAt d1 j).map strTrim = (textAt d1h j).map strTrim := by
          intro j
          rcases Ttext j with ⟨he, htq⟩ | ⟨he, he'⟩
          · rw [he]
          · rw [he, he']
            exact htr j
        obtain ⟨eh, hk, Ktext, Ktail⟩ := ihk d1 d1h level e hwc1 hwi1 hs1 htr1 h
        refine ⟨eh, ?_, ?_, ?_⟩
        · rw [prettyKids_cons, ht']
          exact hk
        · intro j
          exact textStep _ _ _ _ _ _ (Ttext j) (Ktext j)
        · intro j
          exact tailStep _ _ _ _ _ _ (Ttail j) (Ktail j)

theorem skipMeta_core : ∀ (fuel : Nat) (d : ETree) (idx : Nat),
    (ETree.pretty.skipMeta d fuel idx).1.crlf = d.crlf ∧
    (ETree.pretty.skipMeta d fuel idx).1.indent = d.indent ∧
    (ETree.pretty.skipMeta d fuel idx).1.data.map nodeCore = d.data.map nodeCore ∧
    (∀ j, textAt (ETree.pretty.skipMeta d fuel idx).1 j = textAt d j) := by
  intro fuel
  induction fuel with
  | zero =>
    intro d idx
    exact ⟨rfl, rfl, rfl, fun j => rfl⟩
  | succ fuel ih =>
    intro d idx
    rw [ETree.pretty.skipMeta]
    by_cases hc : idx < d.data.length ∧ (nodeAt d.data idx).isMeta = true
    · rw [if_pos hc]
      obtain ⟨h1, h2, h3, h4⟩ := ih (d.modifyNode idx (fun n => { n with tail := d.crlf })) (idx + 1)
      refine ⟨h1, h2, ?_, ?_⟩
      · rw [h3, modifyNode_tail_core]
      · intro j
        rw [h4 j, textAt_modify_tail]
    · rw [if_neg hc]
      exact ⟨rfl, rfl, rfl, fun j => rfl⟩

theorem skipMeta_sim : ∀ (fuel : Nat) (d dh : ETree) (idx : Nat), shapeEq d dh →
    (ETree.pretty.skipMeta dh fuel idx).2 = (ETree.pretty.skipMeta d fuel idx).2 ∧
    (∀ j, tailAt (ETree.pretty.skipMeta dh fuel idx).1 j =
            tailAt (ETree.pretty.skipMeta d fuel idx).1 j ∨
          (tailAt (ETree.pretty.skipMeta dh fuel idx).1 j = tailAt dh j ∧
           tailAt (ETree.pretty.skipMeta d fuel idx).1 j = tailAt d j)) := by
  intro fuel
  induction fuel with
  | zero =>
    intro d dh idx hs
    exact ⟨rfl, fun j => Or.inr ⟨rfl, rfl⟩⟩
  | succ fuel ih =>
    intro d dh idx hs
    rw [ETree.pretty.skipMeta, ETree.pretty.skipMeta]
    have hlen := shapeEq_length d dh hs
    have hmeq : (nodeAt dh.data idx).isMeta = (nodeAt d.data idx).isMeta :=
      (isMeta_congr_core _ _ (nodeAt_core_eq _ _ hs.2.2 idx)).symm
    by_cases hc : idx < d.data.length ∧ (nodeAt d.data idx).isMeta = true
    · rw [if_pos hc, if_pos (by rw [hmeq]; exact ⟨by omega, hc.2⟩)]
      have hs' : shapeEq (d.modifyNode idx (fun n => { n with tail := d.crlf }))
          (dh.modifyNode idx (fun n => { n with tail := dh.crlf })) := by
        refine ⟨hs.1, hs.2.1, ?_⟩
        rw [modifyNode_tail_core, modifyNode_tail_core, hs.2.2]
      obtain ⟨h1, h2⟩ := ih _ _ (idx + 1) hs'
      refine ⟨h1, ?_⟩
      intro j
      rcases h2 j with ha | ⟨ha, hb⟩
      · exact Or.inl ha
      · by_cases hj : j = idx
        · subst hj
          rw [tailAt_modify_tail_self _ _ _ (by omega)] at ha
          rw [tailAt_modify_tail_self _ _ _ hc.1] at hb
          exact Or.inl (by rw [ha, hb, hs.1])
        · rw [tailAt_modify_tail_ne _ _ _ _ hj] at ha
          rw [tailAt_modify_tail_ne _ _ _ _ hj] at hb
          exact Or.inr ⟨ha, hb⟩
    · rw [if_neg hc, if_neg (by rw [hmeq]; intro hx; exact hc ⟨by omega, hx.2⟩)]
      exact ⟨rfl, fun j => Or.inr ⟨rfl, rfl⟩⟩

/-- C7 (amended): `pretty(indent)` is idempotent for whitespace indent
arguments — after a first successful `pretty(ind)` with `ind` made of
whitespace, a second `pretty(ind)` leaves every node's text and tail exactly
as the first call left them.  (For non-whitespace arguments the source
re-appends the stamped suffix on every call; see the counterexample.) -/
theorem c7_pretty_ws_idempotent (d : ETree) (ind : Chars)
    (hws : ∀ c ∈ ind, c.isWhitespace = true)
    (e1 e2 : ETree) (h1 : d.pretty ind = some e1) (h2 : e1.pretty ind = some e2) :
    ∀ j, textAt e2 j = textAt e1 j ∧ tailAt e2 j = tailAt e1 j := by
  rw [ETree.pretty] at h1 h2
  cases hgl : (linesOf ind).getLast? with
  | none =>
    have hnone : d.setIndent ind = none := by
      rw [ETree.setIndent]
      simp only []
      rw [hgl]
    rw [hnone] at h1
    exact Option.noConfusion h1
  | some lastLine =>
    set C : Chars := (if (linesOf ind).length ≥ 2 ∧ lastLine.length > 0 then
        (if containsCrlf ind then ['\r', '\n']
         else if ind.contains '\n' then ['\n'] else ['\r'])
        else ['\n']) with hC
    have hwsC : ∀ c ∈ C, c.isWhitespace = true := by
      rw [hC]
      intro c hc
      split at hc
      · split at hc
        · simp at hc
          rcases hc with h | h <;> subst h <;> decide
        · split at hc
          · simp at hc
            subst hc
            decide
          · simp at hc
            subst hc
            decide
      · simp at hc
        subst hc
        decide
    have hwsI : ∀ c ∈ lastLine, c.isWhitespace = true := by
      intro c hc
      exact hws c (linesOf_chars ind lastLine (List.mem_of_getLast?_eq_some hgl) c hc)
    have hsi : d.setIndent ind = some { d with crlf := C, indent := lastLine } := by
      rw [ETree.setIndent]
      simp only []
      rw [hgl]
    have hsih : e1.setIndent ind = some { e1 with crlf := C, indent := lastLine } := by
      rw [ETree.setIndent]
      simp only []
      rw [hgl]
    rw [hsi] at h1
    rw [hsih] at h2
    simp only [] at h1 h2
    obtain ⟨D1, I1, hsm⟩ : ∃ a b, ETree.pretty.skipMeta
        { d with crlf := C, indent := lastLine }
        ({ d with crlf := C, indent := lastLine } : ETree).data.length 0 = (a, b) :=
      ⟨_, _, rfl⟩
    obtain ⟨D1h, I1h, hsmh⟩ : ∃ a b, ETree.pretty.skipMeta
        { e1 with crlf := C, indent := lastLine }
        ({ e1 with crlf := C, indent := lastLine } : ETree).data.length 0 = (a, b) :=
      ⟨_, _, rfl⟩
    rw [hsm] at h1
    rw [hsmh] at h2
    dsimp only at h1 h2
    obtain ⟨hcr1, hin1, hcor1, htx1⟩ := skipMeta_core
      ({ d with crlf := C, indent := lastLine } : ETree).data.length
      { d with crlf := C, indent := lastLine } 0
    rw [hsm] at hcr1 hin1 hcor1 htx1
    dsimp only at hcr1 hin1 hcor1 htx1
    obtain ⟨hcr1h, hin1h, hcor1h, htx1h⟩ := skipMeta_core
      ({ e1 with crlf := C, indent := lastLine } : ETree).data.length
      { e1 with crlf := C, indent := lastLine } 0
    rw [hsmh] at hcr1h hin1h hcor1h htx1h
    dsimp only at hcr1h hin1h hcor1h htx1h
    obtain ⟨hcE1, hiE1, hmE1⟩ := (prettyTK_core (D1.data.length + 1)).1 _ _ _ _ h1
    have hcorD1h : D1h.data.map nodeCore = D1.data.map nodeCore :=
      hcor1h.trans hmE1
    have hsD : shapeEq D1 D1h :=
      ⟨hcr1.trans hcr1h.symm, hin1.trans hin1h.symm, hcorD1h.symm⟩
    have hwcD : ∀ c ∈ D1.crlf, c.isWhitespace = true := by
      rw [hcr1]
      exact hwsC
    have hwiD : ∀ c ∈ D1.indent, c.isWhitespace = true := by
      rw [hin1]
      exact hwsI
    obtain ⟨er, her, Rtext, _⟩ := (prettyTK_sim (D1.data.length + 1)).1 D1 D1 I1 0 e1
      hwcD hwiD ⟨rfl, rfl, rfl⟩ (fun j => rfl) h1
    rw [h1] at her
    injection her with her'
    subst her'
    have htrOne : ∀ j, (textAt e1 j).map strTrim = (textAt D1 j).map strTrim := by
      intro j
      rcases Rtext j with ⟨_, hq⟩ | ⟨_, hq⟩
      · exact hq
      · rw [hq]
    have hlen0 : ({ e1 with crlf := C, indent := lastLine } : ETree).data.length =
        ({ d with crlf := C, indent := lastLine } : ETree).data.length := by
      have hx := congrArg List.length hcorD1h
      simp only [List.length_map] at hx
      have hy := congrArg List.length hcor1
      simp only [List.length_map] at hy
      have hz := congrArg List.length hcor1h
      simp only [List.length_map] at hz
      dsimp only
      omega
    rw [hlen0] at hsmh
    obtain ⟨hsnd, hstail⟩ := skipMeta_sim
      ({ d with crlf := C, indent := lastLine } : ETree).data.length
      { d with crlf := C, indent := lastLine }
      { e1 with crlf := C, indent := lastLine } 0
      ⟨rfl, rfl, by dsimp only; exact (hmE1.trans hcor1).symm⟩
    rw [hsm, hsmh] at hsnd hstail
    dsimp only at hsnd hstail
    have hlenD : D1h.data.length = D1.data.length := by
      have hx := congrArg List.length hcorD1h
      simp only [List.length_map] at hx
      exact hx
    rw [hsnd, hlenD] at h2
    have htrSim : ∀ j, (textAt D1 j).map strTrim = (textAt D1h j).map strTrim := by
      intro j
      rw [htx1 j, htx1h j]
      have hq : (textAt ({ d with crlf := C, indent := lastLine } : ETree) j).map strTrim =
          (textAt e1 j).map strTrim := by
        rw [← htx1 j]
        exact (htrOne j).symm
      exact hq
    obtain ⟨eh, hEh, Stext, Stail⟩ := (prettyTK_sim (D1.data.length + 1)).1 D1 D1h I1 0 e1
      hwcD hwiD hsD htrSim h1
    rw [h2] at hEh
    injection hEh with hEh'
    subst hEh'
    intro j
    constructor
    · rcases Stext j with ⟨ha, _⟩ | ⟨ha, hb⟩
      · exact ha
      · rw [ha, htx1h j]
        rfl
    · rcases Stail j with ha | ⟨ha, hb⟩
      · exact ha
      · rcases hstail j with hc | ⟨hc, hd⟩
        · rw [ha, hc, hb]
        · rw [ha, hc]
          rfl


/-- A two-node document: a root with text and one child, for the pretty
statements below. -/
def docPar : ETree := mkDoc [ { mkNode ['R'] 0 ['#'] with text := some ['X'] },
                              mkNode ['A'] 1 ['#','0','#'] ]

/-- C7 counterexample: with the non-whitespace indent `"ab"` the second
`pretty` call extends the root text again (`"X\nab"` becomes `"X\nab\nab"`):
`pretty` is not idempotent for arbitrary indent arguments. -/
theorem c7_counterexample_nonws_indent :
    (((docPar.pretty ['a', 'b']).bind (fun x => x.pretty ['a', 'b'])).map
        (fun x => (nodeAt x.data 0).text)) ≠
      ((docPar.pretty ['a', 'b']).map (fun x => (nodeAt x.data 0).text)) := by
  decide

theorem c7_pretty_ws_idempotent_witness :
    (∀ c ∈ [' '], c.isWhitespace = true) ∧
    docPar.pretty [' '] = some ((docPar.pretty [' ']).getD docEmpty) ∧
    ((docPar.pretty [' ']).getD docEmpty).pretty [' '] =
      some ((((docPar.pretty [' ']).getD docEmpty).pretty [' ']).getD docEmpty) ∧
    ∀ j, textAt ((((docPar.pretty [' ']).getD docEmpty).pretty [' ']).getD docEmpty) j =
           textAt ((docPar.pretty [' ']).getD docEmpty) j ∧
         tailAt ((((docPar.pretty [' ']).getD docEmpty).pretty [' ']).getD docEmpty) j =
           tailAt ((docPar.pretty [' ']).getD docEmpty) j := by
  have h1 : docPar.pretty [' '] = some ((docPar.pretty [' ']).getD docEmpty) := by decide
  have h2 : ((docPar.pretty [' ']).getD docEmpty).pretty [' '] =
      some ((((docPar.pretty [' ']).getD docEmpty).pretty [' ']).getD docEmpty) := by decide
  exact ⟨by decide, h1, h2,
    c7_pretty_ws_idempotent docPar [' '] (by decide) _ _ h1 h2⟩

/-- Modelled from the spec: a compiled path segment of `xpath.rs` (not under
`src/`) — separator (`"/"` or `"//"`, empty before normalization), node test
(identifier, `"*"`, `"."` or `".."`), and the predicate, abstracted to its
per-candidate truth value (document, candidate position, 1-based index in the
gathered set, set size), `none` standing for `Predictor::None`. -/
structure XPathSegment where
  separator : Chars
  node : Chars
  condition : Option (ETree → Nat → Nat → Nat → Bool)

/-- The default segment (used only to read a list position known in range). -/
def segAt (segs : List XPathSegment) (i : Nat) : XPathSegment :=
  segs.getD i { separator := [], node := [], condition := none }

/-- The predicate loop of `XPathIterator::_find` (`etree.rs` lines 1131-1213):
keep the candidates whose predicate holds, feeding each its 1-based position
and the set size. -/
def condScan (d : ETree) (f : ETree → Nat → Nat → Nat → Bool) (len : Nat) :
    List Nat → Nat → List Nat
  | [], _ => []
  | x :: rest, i =>
    if f d x (i + 1) len then x :: condScan d f len rest (i + 1)
    else condScan d f len rest (i + 1)

/-- `XPathIterator::_find` (`etree.rs` lines 1102-1215): `.` is the candidate,
`..` its parent; otherwise gather `descendant` (for `//`) or `children` (for
`/`), filter by tag name unless `*`, then filter by the predicate. -/
def ETree.findSeg (d : ETree) (p : XPathSegment) (pos : Nat) : List Nat :=
  if p.separator = ['/'] ∧ p.node = ['.'] then [pos]
  else if p.separator = ['/'] ∧ p.node = ['.', '.'] then
    match d.parent pos with
    | some par => [par]
    | none => []
  else
    let container := if p.separator = ['/', '/'] then d.descendant pos else d.children pos
    let container := if p.node = ['*'] then container
      else container.filter (fun x => (nodeAt d.data x).fullName = p.node)
    match p.condition with
    | none => container
    | some f => condScan d f container.length container 0

/-- `XPathIterator::new` (`etree.rs` lines 1081-1101): normalize the first
segment (drop a bare `.`, turn a bare `..` into `/..`, make anything else
absolute `//`); `none` models the `path_todo[0]` panic on an empty parse. -/
def iterInit (segs : List XPathSegment) : Option (List XPathSegment) :=
  match segs with
  | [] => none
  | s0 :: rest =>
    if s0.separator = [] then
      if s0.node = ['.'] then some rest
      else if s0.node = ['.', '.'] then some ({ s0 with separator := ['/'] } :: rest)
      else some ({ s0 with separator := ['/', '/'] } :: rest)
    else some (s0 :: rest)

/-- `XPathIterator::next` (`etree.rs` lines 1220-1246), iterated to the full
output sequence (fuel-indexed; the list head is the stack top): pop an item;
a finished item is yielded, otherwise the segment's results are pushed — in
reverse order in forward mode (so they pop in result order), in result order
in reverse mode (so they pop reversed). -/
def runIter (d : ETree) (segs : List XPathSegment) (dir : Bool) :
    Nat → List (Nat × Nat) → List Nat
  | 0, _ => []
  | fuel + 1, todo =>
    match todo with
    | [] => []
    | (pos, si) :: rest =>
      if si ≥ segs.length then pos :: runIter d segs dir fuel rest
      else
        let result := d.findSeg (segAt segs si) pos
        runIter d segs dir fuel
          ((if dir then result else result.reverse).map (fun p => (p, si + 1)) ++ rest)

/-- `ETree::find_at_iter` (`etree.rs` lines 1000-1002), run to completion:
the sequence of positions forward iteration yields. -/
def ETree.findAtSeq (d : ETree) (segs : List XPathSegment) (pos : Nat)
    (fuel : Nat) : Option (List Nat) :=
  (iterInit segs).map (fun s => runIter d s true fuel [(pos, 0)])

/-- `ETree::rfind_at_iter` (`etree.rs` lines 1016-1018), run to completion:
the sequence of positions reverse iteration yields. -/
def ETree.rfindAtSeq (d : ETree) (segs : List XPathSegment) (pos : Nat)
    (fuel : Nat) : Option (List Nat) :=
  (iterInit segs).map (fun s => runIter d s false fuel [(pos, 0)])

/-- The work needed to exhaust one stack entry (gas is the number of
remaining segments). -/
def iterWork (d : ETree) (segs : List XPathSegment) : Nat → Nat × Nat → Nat
  | 0, _ => 1
  | gas + 1, (pos, si) =>
    if si ≥ segs.length then 1
    else 1 + ((d.findSeg (segAt segs si) pos).map
      (fun p => iterWork d segs gas (p, si + 1))).sum

/-- The denotational output of one stack entry, in document-traversal order. -/
def iterOut (d : ETree) (segs : List XPathSegment) : Nat → Nat × Nat → List Nat
  | 0, (pos, _) => [pos]
  | gas + 1, (pos, si) =>
    if si ≥ segs.length then [pos]
    else ((d.findSeg (segAt segs si) pos).map
      (fun p => iterOut d segs gas (p, si + 1))).join

theorem iterWork_pos (d : ETree) (segs : List XPathSegment) (gas : Nat)
    (it : Nat × Nat) : 1 ≤ iterWork d segs gas it := by
  cases gas with
  | zero => exact Nat.le_refl 1
  | succ g =>
    obtain ⟨pos, si⟩ := it
    rw [iterWork]
    split
    · exact Nat.le_refl 1
    · omega

theorem runIter_fwd (d : ETree) (segs : List XPathSegment) :
    ∀ (fuel : Nat) (todo : List (Nat × Nat)),
      (todo.map (fun it => iterWork d segs (segs.length - it.2) it)).sum ≤ fuel →
      runIter d segs true fuel todo =
        (todo.map (fun it => iterOut d segs (segs.length - it.2) it)).join := by
  intro fuel
  induction fuel with
  | zero =>
    intro todo hsum
    cases todo with
    | nil => rfl
    | cons it rest =>
      exfalso
      simp only [List.map_cons, List.sum_cons] at hsum
      have := iterWork_pos d segs (segs.length - it.2) it
      omega
  | succ fuel ih =>
    intro todo hsum
    cases todo with
    | nil => rfl
    | cons it rest =>
      obtain ⟨pos, si⟩ := it
      rw [runIter]
      simp only [List.map_cons, List.sum_cons] at hsum
      by_cases hsi : si ≥ segs.length
      · rw [if_pos hsi]
        have hgas : segs.length - si = 0 := by omega
        simp only [List.map_cons, List.join_cons, hgas, iterOut]
        rw [ih rest (by rw [hgas, iterWork] at hsum; omega)]
        rfl
      · rw [if_neg hsi]
        dsimp only
        simp only [if_true]
        have hgas : segs.length - si = (segs.length - (si + 1)) + 1 := by omega
        rw [hgas] at hsum
        rw [iterWork] at hsum
        rw [if_neg hsi] at hsum
        rw [ih _ (by
          simp only [List.map_append, List.sum_append, List.map_map]
          have hcomp : ((fun it => iterWork d segs (segs.length - it.2) it) ∘
              (fun p => (p, si + 1))) =
              (fun p => iterWork d segs (segs.length - (si + 1)) (p, si + 1)) := rfl
          rw [hcomp]
          omega)]
        simp only [List.map_cons, List.join_cons, List.map_append, List.join_append,
          List.map_map]
        have hcomp : ((fun it => iterOut d segs (segs.length - it.2) it) ∘
            (fun p => (p, si + 1))) =
            (fun p => iterOut d segs (segs.length - (si + 1)) (p, si + 1)) := rfl
        rw [hcomp, hgas, iterOut, if_neg hsi]

theorem runIter_rev (d : ETree) (segs : List XPathSegment) :
    ∀ (fuel : Nat) (todo : List (Nat × Nat)),
      (todo.map (fun it => iterWork d segs (segs.length - it.2) it)).sum ≤ fuel →
      runIter d segs false fuel todo =
        (todo.map (fun it => (iterOut d segs (segs.length - it.2) it).reverse)).join := by
  intro fuel
  induction fuel with
  | zero =>
    intro todo hsum
    cases todo with
    | nil => rfl
    | cons it rest =>
      exfalso
      simp only [List.map_cons, List.sum_cons] at hsum
      have := iterWork_pos d segs (segs.length - it.2) it
      omega
  | succ fuel ih =>
    intro todo hsum
    cases todo with
    | nil => rfl
    | cons it rest =>
      obtain ⟨pos, si⟩ := it
      rw [runIter]
      simp only [List.map_cons, List.sum_cons] at hsum
      by_cases hsi : si ≥ segs.length
      · rw [if_pos hsi]
        have hgas : segs.length - si = 0 := by omega
        simp only [List.map_cons, List.join_cons, hgas, iterOut]
        rw [ih rest (by rw [hgas, iterWork] at hsum; omega)]
        rfl
      · rw [if_neg hsi]
        dsimp only
        rw [if_neg (by decide)]
        have hgas : segs.length - si = (segs.length - (si + 1)) + 1 := by omega
        rw [hgas] at hsum
        rw [iterWork] at hsum
        rw [if_neg hsi] at hsum
        rw [ih _ (by
          simp only [List.map_append, List.sum_append, List.map_map]
          have hcomp : ((fun it => iterWork d segs (segs.length - it.2) it) ∘
              (fun p => (p, si + 1))) =
              (fun p => iterWork d segs (segs.length - (si + 1)) (p, si + 1)) := rfl
          rw [hcomp]
          rw [List.map_reverse, List.sum_reverse]
          omega)]
        simp only [List.map_cons, List.join_cons, List.map_append, List.join_append,
          List.map_map]
        have hcomp : ((fun it => (iterOut d segs (segs.length - it.2) it).reverse) ∘
            (fun p => (p, si + 1))) =
            (fun p => (iterOut d segs (segs.length - (si + 1)) (p, si + 1)).reverse) := rfl
        rw [hcomp, hgas, iterOut, if_neg hsi]
        rw [List.reverse_join, List.map_map, List.map_reverse]
        rfl

/-- C9 (corrected): for every compiled path, document and start position —
with fuel enough to exhaust the work stack — the reverse iteration sequence
(`rfind_at_iter`) is exactly the reversal of the forward iteration sequence
(`find_at_iter`).  The document-order half of the claim fails: forward
iteration is depth-first along segments, not sorted by position (see the
counterexample). -/
theorem c9_rfind_is_reverse_of_find (d : ETree) (segs s : List XPathSegment)
    (pos fuel : Nat) (hinit : iterInit segs = some s)
    (hfuel : iterWork d s s.length (pos, 0) ≤ fuel) :
    d.rfindAtSeq segs pos fuel = (d.findAtSeq segs pos fuel).map List.reverse := by
  rw [ETree.rfindAtSeq, ETree.findAtSeq, hinit]
  simp only [Option.map_some']
  have hbound : (([(pos, 0)] : List (Nat × Nat)).map
      (fun it => iterWork d s (s.length - it.2) it)).sum ≤ fuel := by
    simp only [List.map_cons, List.map_nil, List.sum_cons, List.sum_nil]
    simpa using hfuel
  rw [runIter_fwd d s fuel [(pos, 0)] hbound, runIter_rev d s fuel [(pos, 0)] hbound]
  simp

/-- Five nodes R(A(B(C), D)) in pre-order, for the iteration-order statements. -/
def docFive : ETree := mkDoc
  [mkNode ['R'] 0 ['#'],
   mkNode ['A'] 1 ['#', '0', '#'],
   mkNode ['B'] 2 ['#', '0', '#', '1', '#'],
   mkNode ['C'] 3 ['#', '0', '#', '1', '#', '2', '#'],
   mkNode ['D'] 4 ['#', '0', '#', '1', '#']]

/-- C9 counterexample: on R(A(B(C), D)) the path `//*/*` iterated forward
from the root yields positions `[2, 4, 3]` — B, D, then C — which is not
document order. -/
theorem c9_counterexample_forward_order :
    docFive.findAtSeq
      [{ separator := ['/', '/'], node := ['*'], condition := none },
       { separator := ['/'], node := ['*'], condition := none }] 0 100 =
      some [2, 4, 3] ∧
    ¬ List.Pairwise (fun a b => a ≤ b) ([2, 4, 3] : List Nat) := by
  constructor
  · rfl
  · decide

theorem c9_rfind_is_reverse_of_find_witness :
    iterInit [({ separator := ['/', '/'], node := ['*'], condition := none } : XPathSegment),
       { separator := ['/'], node := ['*'], condition := none }] =
      some [{ separator := ['/', '/'], node := ['*'], condition := none },
       { separator := ['/'], node := ['*'], condition := none }] ∧
    docFive.rfindAtSeq
      [{ separator := ['/', '/'], node := ['*'], condition := none },
       { separator := ['/'], node := ['*'], condition := none }] 0 100 =
      (docFive.findAtSeq
        [{ separator := ['/', '/'], node := ['*'], condition := none },
         { separator := ['/'], node := ['*'], condition := none }] 0 100).map List.reverse := by
  refine ⟨rfl, ?_⟩
  exact c9_rfind_is_reverse_of_find docFive _ _ 0 100 rfl (by decide)

/-- Modelled from the spec: the streaming events of the external XML
collaborator (quick-xml) — declaration, start/end/empty tags (prefixed name,
resolved namespace, attributes in source order), text, comment, CDATA,
processing instruction and doctype payloads.  The byte encoding and decoding
of the events is the external library's; the model works at the event level,
where re-parsing written bytes yields the written events minus empty text
chunks. -/
inductive XEvent where
  | decl (version : Chars) (encoding standalone : Option Chars)
  | startE (name : Chars) (ns : Option Chars) (attrs : List (Chars × Chars))
  | endE
  | emptyE (name : Chars) (ns : Option Chars) (attrs : List (Chars × Chars))
  | textE (s : Chars)
  | commentE (s : Chars)
  | cdataE (s : Chars)
  | piE (s : Chars)
  | doctypeE (s : Chars)
  deriving DecidableEq, Repr

/-- Modelled from the spec: re-parsing the written bytes drops the text
chunks that serialized to nothing. -/
def normalizeEvents (evs : List XEvent) : List XEvent :=
  evs.filter (fun e => e ≠ XEvent.textE [])

/-- quick-xml `local_name`: the bytes after the first `:`. -/
def afterColon : Chars → Chars
  | [] => []
  | c :: rest => if c = ':' then rest else afterColon rest

/-- The local part of a prefixed tag (`etree.rs` read, lines 510-514). -/
def localTag (full : Chars) : Chars :=
  if full.contains ':' then afterColon full else full

/-- The prefix of a tag (`etree.rs` read, lines 513-518): everything before
the local part, minus the separating colon. -/
def prefixTag (full : Chars) : Chars :=
  let short := localTag full
  let prefixlen := full.length - short.length
  if prefixlen > 0 then full.take (prefixlen - 1) else []

/-- The mutable cursor of `ETree::read` besides the tree itself: the route
under construction, the status flag (1 after a start tag, 2 after a close),
and the index that receives a tail. -/
structure RAux where
  route : Chars
  status : Nat
  closeidx : Nat
  deriving DecidableEq, Repr

/-- The close-tag regex of `read`/`write`
(`^(?P<parent>#.*?)(?P<current>\d+)#$`) applied to a route: parent prefix and
the numeric value of the trailing id. -/
def readClose (route : Chars) : Option (Chars × Nat) :=
  match routeParentId route with
  | none => none
  | some (par, ds) => some (par, digitsVal ds)

/-- One event step of `ETree::read` (`etree.rs` lines 499-640). -/
def readEvent (d : ETree) (a : RAux) : XEvent → ETree × RAux
  | .decl v enc sa =>
    ({ d with version := v,
              encoding := match enc with | some x => some x | none => d.encoding,
              standalone := match sa with | some x => some x | none => d.standalone }, a)
  | .startE full ns attrs =>
    let node := { ETreeNode.new (localTag full) with
      idx := d.count, ns := ns, nsAbbrev := prefixTag full, text := some [],
      route := a.route }
    let node := attrs.foldl (fun n kv => n.setAttr kv.1 kv.2) node
    ({ d with data := d.data ++ [node], count := d.count + 1 },
     { a with status := 1, route := a.route ++ natChars d.count ++ ['#'] })
  | .endE =>
    match readClose a.route with
    | some (par, cur) => (d, { route := par, status := 2, closeidx := cur })
    | none => (d, { a with status := 2 })
  | .emptyE full ns attrs =>
    let node := { ETreeNode.new (localTag full) with
      idx := d.count, ns := ns, nsAbbrev := prefixTag full, route := a.route }
    let node := attrs.foldl (fun n kv => n.setAttr kv.1 kv.2) node
    ({ d with data := d.data ++ [node], count := d.count + 1 },
     { a with status := 2, closeidx := d.count })
  | .textE s =>
    if a.status = 1 then
      (d.modifyNode (d.count - 1) (fun n => { n with text := some s }), a)
    else if a.status = 2 then
      (d.modifyNode a.closeidx (fun n => { n with tail := s }), a)
    else (d, a)
  | .commentE s =>
    ({ d with data := d.data ++ [{ ETreeNode.new ['<','C','o','m','m','e','n','t','>'] with
        idx := d.count, text := some s, route := a.route }], count := d.count + 1 },
     { a with status := 2, closeidx := d.count })
  | .cdataE s =>
    ({ d with data := d.data ++ [{ ETreeNode.new ['<','C','D','a','t','a','>'] with
        idx := d.count, text := some s, route := a.route }], count := d.count + 1 },
     { a with status := 2, closeidx := d.count })
  | .piE s =>
    ({ d with data := d.data ++ [{ ETreeNode.new ['<','P','I','>'] with
        idx := d.count, text := some s, route := a.route }], count := d.count + 1 },
     { a with status := 2, closeidx := d.count })
  | .doctypeE s =>
    ({ d with data := d.data ++ [{ ETreeNode.new ['<','D','o','c','T','y','p','e','>'] with
        idx := d.count, text := some s, route := a.route }], count := d.count + 1 },
     { a with status := 2, closeidx := d.count })

/-- The fresh document `parse_str` starts `read` on. -/
def freshDoc : ETree :=
  { indent := [], count := 0, version := [], encoding := none, standalone := none,
    data := [], crlf := ['\n'], enableIndex := false, index := [] }

/-- `ETree::read` run over a whole event stream from a given state. -/
def readFold (d : ETree) (a : RAux) (evs : List XEvent) : ETree × RAux :=
  evs.foldl (fun p e => readEvent p.1 p.2 e) (d, a)

/-- `ETree::read` on a fresh document (the `parse_str` entry). -/
def readDoc (evs : List XEvent) : ETree :=
  (readFold freshDoc { route := ['#'], status := 0, closeidx := 0 } evs).1

/-- The four synthetic marker names of `read`. -/
def metaComment : Chars := ['<','C','o','m','m','e','n','t','>']
def metaCData : Chars := ['<','C','D','a','t','a','>']
def metaPI : Chars := ['<','P','I','>']
def metaDocType : Chars := ['<','D','o','c','T','y','p','e','>']

/-- The `idxmap` of `ETree::write` (`etree.rs` lines 642-646): node id
rendered in decimal mapped to vector index, later inserts overwriting. -/
def idxFind (data : List ETreeNode) (key : Chars) : Option Nat :=
  (List.range data.length).foldl
    (fun acc i => if natChars (nodeAt data i).idx = key then some i else acc) none

/-- The end-tag-plus-tail pair `write` emits when leaving a node: the end tag
is skipped for synthetic markers. -/
def closeEvents (d : ETree) (i : Nat) : List XEvent :=
  (if (nodeAt d.data i).isMeta then [] else [XEvent.endE]) ++
    [XEvent.textE (nodeAt d.data i).tail]

/-- The close-tag loop of `ETree::write` (`etree.rs` lines 684-701 and
744-771): repeatedly strip the trailing id from the route, close that node,
and stop once the route equals the stop route (`none` models the `unwrap` on
a missing idxmap entry). -/
def closeChain (d : ETree) (stop : Chars) : Nat → Chars → Option (List XEvent)
  | 0, _ => none
  | fuel + 1, route =>
    match readClose route with
    | none => some []
    | some (par, cur) =>
      match idxFind d.data (natChars cur) with
      | none => none
      | some ci =>
        let evs := closeEvents d ci
        if par = stop then some evs
        else (closeChain d stop fuel par).map (fun more => evs ++ more)

/-- The inter-node part of `write`'s loop (`etree.rs` lines 658-711) for
`idx > 0`: siblings close the previous node, a child continues, a shorter
route closes the chain up to the current node's route (`none` models the
`panic!` on unrelated routes). -/
def writeBetween (d : ETree) (idx : Nat) : Option (List XEvent) :=
  let prev := nodeAt d.data (idx - 1)
  let cur := nodeAt d.data idx
  if cur.route = prev.route then
    some (if prev.text.isSome then closeEvents d (idx - 1) else [])
  else if strStartsWith cur.route prev.route then some []
  else if strStartsWith prev.route cur.route then
    (closeChain d cur.route (prev.route.length + 1) prev.route).map
      (fun more => (if prev.text.isSome then closeEvents d (idx - 1) else []) ++ more)
  else none

/-- The per-node part of `write`'s loop (`etree.rs` lines 712-742): markers
become their event (`none` models the `unwrap` on an absent marker text); an
element with text opens a start tag and writes the text, one without text is
written self-closing followed by its tail. -/
def writeNode (d : ETree) (idx : Nat) : Option (List XEvent) :=
  let n := nodeAt d.data idx
  if n.localname = metaComment then
    (n.text).map (fun t => [XEvent.commentE t])
  else if n.localname = metaCData then
    (n.text).map (fun t => [XEvent.cdataE t])
  else if n.localname = metaPI then
    (n.text).map (fun t => [XEvent.piE t])
  else if n.localname = metaDocType then
    (n.text).map (fun t => [XEvent.doctypeE t])
  else
    match n.text with
    | some t => some [XEvent.startE n.fullName none n.attrs, XEvent.textE t]
    | none => some [XEvent.emptyE n.fullName none n.attrs, XEvent.textE n.tail]

/-- One index of `write`'s loop: the inter-node part (skipped at index 0)
then the node part. -/
def writeStep (d : ETree) (idx : Nat) : Option (List XEvent) :=
  match (if idx = 0 then some [] else writeBetween d idx), writeNode d idx with
  | some a, some b => some (a ++ b)
  | _, _ => none

/-- `write`'s loop over a set of indices. -/
def writeSeq (d : ETree) : List Nat → Option (List XEvent)
  | [] => some []
  | i :: rest =>
    match writeStep d i, writeSeq d rest with
    | some a, some b => some (a ++ b)
    | _, _ => none

/-- `ETree::write` (`etree.rs` lines 641-771) at the event level: declaration
and line terminator, the main loop, the trailing close of the last node and
of every ancestor on its route (`none` models the panics of the source — the
`data[len - 1]` underflow on an empty document among them). -/
def ETree.writeEvents (d : ETree) : Option (List XEvent) :=
  match d.data with
  | [] => none
  | _ :: _ =>
    let last := d.data.length - 1
    let header := [XEvent.decl d.version d.encoding d.standalone, XEvent.textE d.crlf]
    match writeSeq d (List.range d.data.length),
      closeChain d ['#'] ((nodeAt d.data last).route.length + 1)
        ((nodeAt d.data last).route) with
    | some body, some chain =>
      some (header ++ body ++
        (if (nodeAt d.data last).text.isSome then closeEvents d last else []) ++ chain)
    | _, _ => none

/-- Modelled from the spec: the marker kinds of the event source. -/
inductive MetaKind where
  | comment
  | cdata
  | pi
  | doctype
  deriving DecidableEq, Repr

def metaName : MetaKind → Chars
  | .comment => metaComment
  | .cdata => metaCData
  | .pi => metaPI
  | .doctype => metaDocType

def metaEvent : MetaKind → Chars → XEvent
  | .comment, s => XEvent.commentE s
  | .cdata, s => XEvent.cdataE s
  | .pi, s => XEvent.piE s
  | .doctype, s => XEvent.doctypeE s

/-- Modelled from the spec: a well-formed XML input is a properly nested tag
stream — a forest of items, each an element (prefixed tag, namespace,
attributes, optional text, tail, children; absent text means the element was
self-closing and childless) or a marker with content and tail. -/
inductive XItem where
  | elem (full : Chars) (ns : Option Chars) (attrs : List (Chars × Chars))
      (text : Option Chars) (tail : Chars) (kids : List XItem)
  | meta (kind : MetaKind) (content : Chars) (tail : Chars)

/-- Modelled from the spec: the event sequence of a well-formed forest
(fuel-indexed; `keepEmpty` keeps the empty text chunks the writer emits and
the byte round trip drops). -/
def streamItem : Nat → Bool → XItem → List XEvent
  | 0, _, _ => []
  | fuel + 1, keepEmpty, item =>
    match item with
    | .meta kind content tail =>
      metaEvent kind content ::
        (if tail ≠ [] ∨ keepEmpty then [XEvent.textE tail] else [])
    | .elem full ns attrs text tail kids =>
      match text with
      | some t =>
        XEvent.startE full ns attrs ::
          ((if t ≠ [] ∨ keepEmpty then [XEvent.textE t] else []) ++
           (kids.map (streamItem fuel keepEmpty)).join ++
           [XEvent.endE] ++
           (if tail ≠ [] ∨ keepEmpty then [XEvent.textE tail] else []))
      | none =>
        XEvent.emptyE full ns attrs ::
          (if tail ≠ [] ∨ keepEmpty then [XEvent.textE tail] else [])

def streamForest (fuel : Nat) (keepEmpty : Bool) (items : List XItem) : List XEvent :=
  (items.map (streamItem fuel keepEmpty)).join

/-- The node an element item parses to (before children), at a given id and
route. -/
def elemNode (full : Chars) (ns : Option Chars) (attrs : List (Chars × Chars))
    (text : Option Chars) (tail : Chars) (sid : Nat) (route : Chars) : ETreeNode :=
  { name := localTag full, nsAbbrev := prefixTag full, ns := ns,
    attrs := attrs.foldl (fun a kv => ETreeNode.setAttr.setAttrList a kv.1 kv.2) [],
    text := text, tail := tail, idx := sid, route := route }

/-- The node a marker item parses to. -/
def metaNode (kind : MetaKind) (content : Chars) (tail : Chars) (sid : Nat)
    (route : Chars) : ETreeNode :=
  { ETreeNode.new (metaName kind) with
    idx := sid, text := some content, tail := tail, route := route }

/-- Modelled from the spec: the flat pre-order node sequence `read` builds
from a well-formed forest — ids equal positions, routes encode the ancestor
chain (fuel-indexed like the stream). -/
def flatItem : Nat → Chars → Nat → XItem → List ETreeNode
  | 0, _, _, _ => []
  | fuel + 1, route, sid, item =>
    match item with
    | .meta kind content tail => [metaNode kind content tail sid route]
    | .elem full ns attrs text tail kids =>
      elemNode full ns attrs text tail sid route ::
        (kids.foldl (fun (acc : List ETreeNode × Nat) k =>
            let l := flatItem fuel (route ++ natChars sid ++ ['#']) acc.2 k
            (acc.1 ++ l, acc.2 + l.length))
          ([], sid + 1)).1

def flatForest (fuel : Nat) (route : Chars) (sid : Nat) (items : List XItem) :
    List ETreeNode :=
  (items.foldl (fun (acc : List ETreeNode × Nat) k =>
      let l := flatItem fuel route acc.2 k
      (acc.1 ++ l, acc.2 + l.length))
    ([], sid)).1

theorem digitChar_isDigit (k : Nat) : (digitChar k).isDigit = true := by
  rw [digitChar.eq_def]
  split <;> decide

theorem digitChar_not_hash (k : Nat) : digitChar k ≠ '#' := by
  rw [digitChar.eq_def]
  split <;> decide

theorem natChars_digits (n : Nat) : ∀ c ∈ natChars n, c.isDigit = true := by
  induction n using Nat.strong_induction_on with
  | _ n ih =>
    intro c hc
    rw [natChars_unfold] at hc
    by_cases h : n < 10
    · rw [if_pos h] at hc
      simp at hc
      subst hc
      exact digitChar_isDigit n
    · rw [if_neg h] at hc
      rcases List.mem_append.mp hc with h1 | h1
      · exact ih (n / 10) (Nat.div_lt_self (by omega) (by omega)) c h1
      · simp at h1
        subst h1
        exact digitChar_isDigit _

theorem digitChar_val (k : Nat) (hk : k < 10) : (digitChar k).toNat - '0'.toNat = k := by
  interval_cases k <;> decide

theorem digitsVal_append (l : Chars) (c : Char) :
    digitsVal (l ++ [c]) = digitsVal l * 10 + (c.toNat - '0'.toNat) := by
  rw [digitsVal, digitsVal, List.foldl_append]
  rfl

theorem natChars_val (n : Nat) : digitsVal (natChars n) = n := by
  induction n using Nat.strong_induction_on with
  | _ n ih =>
    rw [natChars_unfold]
    by_cases h : n < 10
    · rw [if_pos h]
      rw [show [digitChar n] = ([] : Chars) ++ [digitChar n] from rfl, digitsVal_append]
      rw [digitChar_val n h]
      simp [digitsVal]
    · rw [if_neg h, digitsVal_append, ih (n / 10) (Nat.div_lt_self (by omega) (by omega)),
        digitChar_val _ (by omega)]
      omega

theorem natChars_inj (a b : Nat) (h : natChars a = natChars b) : a = b := by
  have := natChars_val a
  rw [h, natChars_val] at this
  omega

/-- A route is a `#`-delimited chain: nonempty, starting and ending in `#`. -/
def RouteOK (r : Chars) : Prop := r.head? = some '#' ∧ r.getLast? = some '#'

theorem routeOK_root : RouteOK ['#'] := ⟨rfl, rfl⟩

theorem routeOK_child (r : Chars) (id : Nat) (h : RouteOK r) :
    RouteOK (r ++ natChars id ++ ['#']) := by
  constructor
  · cases r with
    | nil => exact absurd h.1 (by simp)
    | cons a b =>
      have ha : a = '#' := by simpa using h.1
      subst ha
      simp
  · rw [List.getLast?_concat]

theorem takeWhile_append_all (p : Char → Bool) (a b : Chars)
    (ha : ∀ c ∈ a, p c = true) :
    (a ++ b).takeWhile p = a ++ b.takeWhile p := by
  induction a with
  | nil => rfl
  | cons c rest ih =>
    rw [List.cons_append, List.takeWhile_cons, ha c (by simp), List.cons_append,
      ih (fun x hx => ha x (by simp [hx]))]
    rfl

theorem routeParentId_spec (r : Chars) (id : Nat) (h : RouteOK r) :
    routeParentId (r ++ natChars id ++ ['#']) = some (r, natChars id) := by
  rw [routeParentId]
  rw [List.append_assoc, List.reverse_append]
  simp only [List.reverse_cons, List.reverse_nil, List.nil_append, List.cons_append,
    List.reverse_append]
  rw [takeWhile_append_all Char.isDigit (natChars id).reverse r.reverse
    (fun c hc => natChars_digits id c (List.mem_reverse.mp hc))]
  have hrh : r.reverse.takeWhile Char.isDigit = [] := by
    cases hrev : r.reverse with
    | nil => rfl
    | cons a b =>
      have hga : r.getLast? = some a := by
        rw [← List.head?_reverse, hrev]
        rfl
      rw [h.2] at hga
      injection hga with hth
      rw [List.takeWhile_cons, ← hth]
      simp
  rw [hrh, List.append_nil]
  rw [if_neg (by simp [natChars_ne_nil id])]
  rw [show (List.reverse (natChars id) ++ List.reverse r).drop
      (List.reverse (natChars id)).length = List.reverse r from List.drop_left' rfl]
  simp only [List.reverse_reverse]
  cases r with
  | nil => exact absurd h.1 (by simp)
  | cons a b =>
    have ha : a = '#' := by simpa using h.1
    subst ha
    rfl

theorem readClose_spec (r : Chars) (id : Nat) (h : RouteOK r) :
    readClose (r ++ natChars id ++ ['#']) = some (r, id) := by
  rw [readClose, routeParentId_spec r id h]
  simp [natChars_val]

theorem readClose_root : readClose ['#'] = none := by decide

theorem routeParentId_shorter (r par ds : Chars)
    (h : routeParentId r = some (par, ds)) : par.length + 2 ≤ r.length := by
  rw [routeParentId] at h
  split at h
  · rename_i rest heq
    simp only [] at h
    by_cases hds : rest.takeWhile Char.isDigit = []
    · rw [if_pos hds] at h
      exact Option.noConfusion h
    · rw [if_neg hds] at h
      split at h
      · rename_i q hq
        simp only [Option.some.injEq, Prod.mk.injEq] at h
        obtain ⟨h1, _⟩ := h
        have hlb : 1 ≤ (rest.takeWhile Char.isDigit).length := by
          cases hx : rest.takeWhile Char.isDigit with
          | nil => exact absurd hx hds
          | cons u v => simp
        have hrlen : r.length = rest.length + 1 := by
          have hc := congrArg List.length heq
          simp at hc
          omega
        have hparlen : par.length ≤ rest.length - (rest.takeWhile Char.isDigit).length := by
          rw [← h1]
          simp
        have htk := (List.takeWhile_prefix (p := Char.isDigit) (l := rest)).length_le
        omega
      · exact Option.noConfusion h
  · exact Option.noConfusion h

/-- Modelled from the spec: well-formedness of an input forest — element
local names are not marker-shaped, tags are namespace-well-formed (an
unprefixed tag has no colon in its local part), and a self-closing element
has no children. -/
def wfItem : Nat → XItem → Bool
  | 0, _ => true
  | fuel + 1, .meta _ _ _ => true
  | fuel + 1, .elem full _ _ text _ kids =>
    (!(strStartsWith (localTag full) ['<'] && strEndsWith (localTag full) ['>'])) &&
    ((!(prefixTag full).isEmpty) || !((localTag full).contains ':')) &&
    (text.isSome || kids.isEmpty) &&
    kids.all (wfItem fuel)

theorem readFold_cons (d : ETree) (a : RAux) (e : XEvent) (evs : List XEvent) :
    readFold d a (e :: evs) = readFold (readEvent d a e).1 (readEvent d a e).2 evs := rfl

theorem readFold_append (d : ETree) (a : RAux) (e1 e2 : List XEvent) :
    readFold d a (e1 ++ e2) =
      readFold (readFold d a e1).1 (readFold d a e1).2 e2 := by
  rw [readFold, readFold, readFold, List.foldl_append]

theorem streamForest_cons (fuel : Nat) (k : Bool) (it : XItem) (rest : List XItem) :
    streamForest fuel k (it :: rest) =
      streamItem fuel k it ++ streamForest fuel k rest := by
  rw [streamForest, streamForest, List.map_cons]
  rfl

theorem flatFold_go (fuel : Nat) (r : Chars) :
    ∀ (items : List XItem) (l0 : List ETreeNode) (s : Nat),
      (items.foldl (fun (acc : List ETreeNode × Nat) k =>
          (acc.1 ++ flatItem fuel r acc.2 k,
           acc.2 + (flatItem fuel r acc.2 k).length)) (l0, s)) =
        (l0 ++ (items.foldl (fun (acc : List ETreeNode × Nat) k =>
          (acc.1 ++ flatItem fuel r acc.2 k,
           acc.2 + (flatItem fuel r acc.2 k).length)) ([], s)).1,
         (items.foldl (fun (acc : List ETreeNode × Nat) k =>
          (acc.1 ++ flatItem fuel r acc.2 k,
           acc.2 + (flatItem fuel r acc.2 k).length)) ([], s)).2) ∧
      (items.foldl (fun (acc : List ETreeNode × Nat) k =>
          (acc.1 ++ flatItem fuel r acc.2 k,
           acc.2 + (flatItem fuel r acc.2 k).length)) ([], s)).2 =
        s + ((items.foldl (fun (acc : List ETreeNode × Nat) k =>
          (acc.1 ++ flatItem fuel r acc.2 k,
           acc.2 + (flatItem fuel r acc.2 k).length)) ([], s)).1).length := by
  intro items
  induction items with
  | nil =>
    intro l0 s
    constructor
    · simp
    · simp
  | cons it rest ih =>
    intro l0 s
    rw [List.foldl_cons, List.foldl_cons]
    dsimp only
    simp only [List.nil_append]
    obtain ⟨iha, _⟩ := ih (l0 ++ flatItem fuel r s it) (s + (flatItem fuel r s it).length)
    obtain ⟨ihc, ihd⟩ := ih (flatItem fuel r s it) (s + (flatItem fuel r s it).length)
    rw [iha, ihc]
    constructor
    · simp
    · dsimp only
      simp only [List.length_append]
      omega

theorem flatForest_cons (fuel : Nat) (r : Chars) (s : Nat) (it : XItem)
    (rest : List XItem) :
    flatForest fuel r s (it :: rest) =
      flatItem fuel r s it ++
        flatForest fuel r (s + (flatItem fuel r s it).length) rest := by
  rw [flatForest, flatForest, List.foldl_cons]
  simp only [List.nil_append]
  rw [(flatFold_go fuel r rest (flatItem fuel r s it)
    (s + (flatItem fuel r s it).length)).1]

theorem flatItem_elem_eq (fuel : Nat) (r : Chars) (s : Nat) (full : Chars)
    (ns : Option Chars) (attrs : List (Chars × Chars)) (text : Option Chars)
    (tail : Chars) (kids : List XItem) :
    flatItem (fuel + 1) r s (.elem full ns attrs text tail kids) =
      elemNode full ns attrs text tail s r ::
        flatForest fuel (r ++ natChars s ++ ['#']) (s + 1) kids := by
  rw [flatItem, flatForest]

theorem setAttr_foldl (attrs : List (Chars × Chars)) :
    ∀ node : ETreeNode,
      attrs.foldl (fun n kv => n.setAttr kv.1 kv.2) node =
        { node with attrs := attrs.foldl (fun a kv => ETreeNode.setAttr.setAttrList a kv.1 kv.2) node.attrs } := by
  induction attrs with
  | nil => intro node; rfl
  | cons kv rest ih =>
    intro node
    rw [List.foldl_cons, List.foldl_cons, ih]
    rfl

theorem modify_append_cons (l1 l2 : List ETreeNode) (x : ETreeNode)
    (f : ETreeNode → ETreeNode) :
    (l1 ++ x :: l2).modify f l1.length = l1 ++ f x :: l2 := by
  apply List.ext_get?
  intro j
  rw [List.get?_eq_getElem?, List.get?_eq_getElem?, List.getElem?_modify]
  by_cases hj : j < l1.length
  · rw [List.getElem?_append_left hj, List.getElem?_append_left hj]
    simp [Nat.ne_of_gt hj]
  · by_cases hj2 : j = l1.length
    · subst hj2
      rw [List.getElem?_append_right (Nat.le_refl _),
        List.getElem?_append_right (Nat.le_refl _)]
      simp
    · have hgt : l1.length < j := by omega
      rw [List.getElem?_append_right (by omega), List.getElem?_append_right (by omega)]
      have : j - l1.length = (j - l1.length - 1) + 1 := by omega
      rw [this]
      simp [Nat.ne_of_lt hgt]

theorem afterColon_append (p q : Chars) (hp : ∀ c ∈ p, c ≠ ':') :
    afterColon (p ++ ':' :: q) = q := by
  induction p with
  | nil => simp [afterColon]
  | cons c p ih =>
    have hc : c ≠ ':' := hp c (List.mem_cons_self c p)
    rw [List.cons_append, afterColon, if_neg hc]
    exact ih (fun x hx => hp x (List.mem_cons_of_mem c hx))

theorem afterColon_split (full : Chars) (h : full.contains ':' = true) :
    ∃ p q, full = p ++ ':' :: q ∧ (∀ c ∈ p, c ≠ ':') ∧ afterColon full = q := by
  induction full with
  | nil => exact absurd h (by decide)
  | cons c rest ih =>
    by_cases hc : c = ':'
    · subst hc
      exact ⟨[], rest, rfl, by intro x hx; exact absurd hx (List.not_mem_nil x),
        by simp [afterColon]⟩
    · have hmem : ':' ∈ c :: rest := List.elem_iff.mp h
      have hrest : rest.contains ':' = true := by
        rcases List.mem_cons.mp hmem with h1 | h2
        · exact absurd h1.symm hc
        · exact List.elem_iff.mpr h2
      obtain ⟨p, q, heq, hpc, hac⟩ := ih hrest
      refine ⟨c :: p, q, by rw [heq]; rfl, ?_, ?_⟩
      · intro x hx
        rcases List.mem_cons.mp hx with h1 | h2
        · subst h1; exact hc
        · exact hpc x h2
      · rw [afterColon, if_neg hc, ← heq] at *
        exact hac

theorem tag_decomp (full : Chars) (h : full.contains ':' = true) :
    ∃ p q, full = p ++ ':' :: q ∧ (∀ c ∈ p, c ≠ ':') ∧
      localTag full = q ∧ prefixTag full = p := by
  obtain ⟨p, q, heq, hpc, hac⟩ := afterColon_split full h
  refine ⟨p, q, heq, hpc, ?_, ?_⟩
  · rw [localTag, if_pos h, hac]
  · rw [prefixTag]
    have hlt : localTag full = q := by rw [localTag, if_pos h, hac]
    rw [hlt]
    have hlen : full.length = p.length + 1 + q.length := by
      rw [heq]; simp; omega
    have hpl : full.length - q.length = p.length + 1 := by omega
    rw [hpl]
    rw [if_pos (by omega)]
    have : p.length + 1 - 1 = p.length := by omega
    rw [this, heq]
    exact List.take_left p (':' :: q)

theorem tag_nocolon (full : Chars) (h : full.contains ':' = false) :
    localTag full = full ∧ prefixTag full = [] := by
  have hne : ¬(full.contains ':' = true) := by rw [h]; decide
  have hlt : localTag full = full := by rw [localTag, if_neg hne]
  refine ⟨hlt, ?_⟩
  rw [prefixTag, hlt]
  simp

/-- The canonical prefixed tag nodes are written back with (`get_name`). -/
def canonTag (full : Chars) : Chars :=
  if prefixTag full = [] then localTag full else prefixTag full ++ ':' :: localTag full

theorem canonTag_stable (full : Chars)
    (hwf : ((!(prefixTag full).isEmpty) || !((localTag full).contains ':')) = true) :
    localTag (canonTag full) = localTag full ∧
      prefixTag (canonTag full) = prefixTag full := by
  by_cases hc : full.contains ':' = true
  · obtain ⟨p, q, heq, hpc, hlt, hpt⟩ := tag_decomp full hc
    by_cases hp : p = []
    · subst hp
      rw [canonTag, hpt, if_pos rfl, hlt]
      rw [hpt, hlt] at hwf
      simp only [List.isEmpty_nil, Bool.not_true, Bool.false_or, Bool.not_eq_true'] at hwf
      have := tag_nocolon q hwf
      rw [this.1, this.2]
      exact ⟨rfl, rfl⟩
    · rw [canonTag, hpt, if_neg hp, hlt]
      have hcontains : (p ++ ':' :: q).contains ':' = true :=
        List.elem_iff.mpr (List.mem_append_right p (List.mem_cons_self ':' q))
      obtain ⟨p2, q2, heq2, hpc2, hlt2, hpt2⟩ := tag_decomp (p ++ ':' :: q) hcontains
      have hacq : afterColon (p ++ ':' :: q) = q := afterColon_append p q hpc
      have hq2 : q2 = q := by
        rw [localTag, if_pos hcontains, hacq] at hlt2
        exact hlt2.symm
      have hp2 : p2 = p := by
        subst hq2
        have := List.append_inj_left heq2 (by
          have h1 := congrArg List.length heq2
          simp at h1
          omega)
        exact this.symm
      rw [hlt2, hpt2, hq2, hp2]
      exact ⟨rfl, rfl⟩
  · have h0 := tag_nocolon full (by revert hc; cases full.contains ':' <;> simp)
    rw [canonTag, h0.2, if_pos rfl, h0.1]
    exact ⟨h0.1, h0.2⟩

/-- The attribute list `read` accumulates: `set_attr` folded over the tag's
attributes (duplicate keys collapse, last value wins). -/
def attrsCollapse (attrs : List (Chars × Chars)) : List (Chars × Chars) :=
  attrs.foldl (fun a kv => ETreeNode.setAttr.setAttrList a kv.1 kv.2) []

theorem setAttrList_not_mem (acc : List (Chars × Chars)) (k v : Chars)
    (h : k ∉ acc.map Prod.fst) :
    ETreeNode.setAttr.setAttrList acc k v = acc ++ [(k, v)] := by
  induction acc with
  | nil => rfl
  | cons kv rest ih =>
    obtain ⟨k2, v2⟩ := kv
    rw [List.map_cons, List.mem_cons, not_or] at h
    rw [ETreeNode.setAttr.setAttrList, if_neg (fun he => h.1 he.symm), ih h.2]
    rfl

theorem setAttrList_keys (acc : List (Chars × Chars)) (k v : Chars) :
    (ETreeNode.setAttr.setAttrList acc k v).map Prod.fst =
      if k ∈ acc.map Prod.fst then acc.map Prod.fst
      else acc.map Prod.fst ++ [k] := by
  induction acc with
  | nil => simp [ETreeNode.setAttr.setAttrList]
  | cons kv rest ih =>
    obtain ⟨k2, v2⟩ := kv
    by_cases hk : k2 = k
    · subst hk
      rw [ETreeNode.setAttr.setAttrList, if_pos rfl]
      simp
    · rw [ETreeNode.setAttr.setAttrList, if_neg hk, List.map_cons, List.map_cons, ih]
      by_cases hin : k ∈ rest.map Prod.fst
      · rw [if_pos hin, if_pos (List.mem_cons_of_mem k2 hin)]
      · rw [if_neg hin, if_neg (by
          rw [List.mem_cons, not_or]
          exact ⟨fun he => hk he.symm, hin⟩)]
        rfl

theorem setAttrList_keys_nodup (acc : List (Chars × Chars)) (k v : Chars)
    (h : (acc.map Prod.fst).Nodup) :
    ((ETreeNode.setAttr.setAttrList acc k v).map Prod.fst).Nodup := by
  rw [setAttrList_keys]
  by_cases hin : k ∈ acc.map Prod.fst
  · rwa [if_pos hin]
  · rw [if_neg hin]
    simp [List.nodup_append, h, hin]

theorem collapse_keys_nodup : ∀ (A acc : List (Chars × Chars)),
    (acc.map Prod.fst).Nodup →
    ((A.foldl (fun a kv => ETreeNode.setAttr.setAttrList a kv.1 kv.2) acc).map
      Prod.fst).Nodup := by
  intro A
  induction A with
  | nil => intro acc h; exact h
  | cons kv rest ih =>
    intro acc h
    rw [List.foldl_cons]
    exact ih _ (setAttrList_keys_nodup _ _ _ h)

theorem foldl_setAttrList_fresh : ∀ (A acc : List (Chars × Chars)),
    (A.map Prod.fst).Nodup →
    (∀ x ∈ A.map Prod.fst, x ∉ acc.map Prod.fst) →
    A.foldl (fun a kv => ETreeNode.setAttr.setAttrList a kv.1 kv.2) acc =
      acc ++ A := by
  intro A
  induction A with
  | nil => intro acc _ _; simp
  | cons kv rest ih =>
    intro acc hnd hfresh
    obtain ⟨k, v⟩ := kv
    rw [List.foldl_cons]
    have hknotin : k ∉ acc.map Prod.fst := hfresh k (by simp)
    have hstep : ETreeNode.setAttr.setAttrList acc (k, v).1 (k, v).2 =
        acc ++ [(k, v)] := setAttrList_not_mem _ _ _ hknotin
    rw [hstep]
    rw [List.map_cons, List.nodup_cons] at hnd
    have hcond : ∀ x ∈ rest.map Prod.fst, x ∉ (acc ++ [(k, v)]).map Prod.fst := by
      intro x hx
      rw [List.map_append, List.mem_append, not_or]
      refine ⟨hfresh x (List.mem_cons_of_mem _ hx), ?_⟩
      simp only [List.map_cons, List.map_nil, List.mem_singleton]
      intro he
      exact hnd.1 (he ▸ hx)
    rw [ih (acc ++ [(k, v)]) hnd.2 hcond]
    simp

theorem attrsCollapse_idem (attrs : List (Chars × Chars)) :
    attrsCollapse (attrsCollapse attrs) = attrsCollapse attrs := by
  rw [attrsCollapse, attrsCollapse]
  have hnd : ((attrs.foldl (fun a kv => ETreeNode.setAttr.setAttrList a kv.1 kv.2)
      []).map Prod.fst).Nodup := collapse_keys_nodup attrs [] (by simp)
  rw [foldl_setAttrList_fresh _ [] hnd (by intro x _ hx; exact (List.not_mem_nil x) (by simpa using hx))]
  simp

/-- Dropping the resolved-namespace field — the only node field the writer
does not serialize (it emits tags by `get_name`, without the `ns` URI). -/
def eraseNs (n : ETreeNode) : ETreeNode := { n with ns := none }

/-- Modelled from the spec: the forest the WRITTEN bytes describe — tags
rendered by `get_name`, no namespace event data, attributes as the collapsed
attribute map. -/
def normItem : Nat → XItem → XItem
  | 0, it => it
  | fuel + 1, .meta k c t => .meta k c t
  | fuel + 1, .elem full _ attrs text tail kids =>
    .elem (canonTag full) none (attrsCollapse attrs) text tail
      (kids.map (normItem fuel))

theorem flatForest_zero (r : Chars) : ∀ (items : List XItem) (s : Nat),
    flatForest 0 r s items = [] := by
  intro items
  induction items with
  | nil => intro s; rfl
  | cons it rest ih =>
    intro s
    rw [flatForest_cons]
    rw [show flatItem 0 r s it = [] from rfl]
    simpa using ih s

theorem streamForest_zero (k : Bool) (items : List XItem) :
    streamForest 0 k items = [] := by
  rw [streamForest]
  induction items with
  | nil => rfl
  | cons it rest ih =>
    rw [List.map_cons]
    rw [show streamItem 0 k it = [] from rfl]
    simpa using ih

theorem eraseNs_metaNode (k : MetaKind) (c t : Chars) (s : Nat) (r : Chars) :
    eraseNs (metaNode k c t s r) = metaNode k c t s r := rfl

theorem eraseNs_elemNode (full : Chars) (ns : Option Chars)
    (attrs : List (Chars × Chars)) (text : Option Chars) (tail : Chars)
    (s : Nat) (r : Chars)
    (hwf : ((!(prefixTag full).isEmpty) || !((localTag full).contains ':')) = true) :
    elemNode (canonTag full) none (attrsCollapse attrs) text tail s r =
      eraseNs (elemNode full ns attrs text tail s r) := by
  have hstab := canonTag_stable full hwf
  have hidem : attrsCollapse (attrsCollapse attrs) = attrsCollapse attrs :=
    attrsCollapse_idem attrs
  rw [attrsCollapse, attrsCollapse] at hidem
  rw [elemNode, elemNode, eraseNs, hstab.1, hstab.2, attrsCollapse, hidem]

theorem wfItem_elem_parts (fuel : Nat) (full : Chars) (ns : Option Chars)
    (attrs : List (Chars × Chars)) (text : Option Chars) (tail : Chars)
    (kids : List XItem)
    (h : wfItem (fuel + 1) (.elem full ns attrs text tail kids) = true) :
    (!(strStartsWith (localTag full) ['<'] && strEndsWith (localTag full) ['>'])) = true ∧
    ((!(prefixTag full).isEmpty) || !((localTag full).contains ':')) = true ∧
    (text = none → kids = []) ∧
    kids.all (wfItem fuel) = true := by
  rw [wfItem.eq_def] at h
  simp only [Bool.and_eq_true] at h
  refine ⟨h.1.1.1, h.1.1.2, ?_, h.2⟩
  intro ht
  subst ht
  have h3 := h.1.2
  simp only [Option.isSome_none, Bool.false_or] at h3
  simpa using h3

theorem flat_norm (fuel : Nat) :
    (∀ it r s, wfItem fuel it = true →
      flatItem fuel r s (normItem fuel it) = (flatItem fuel r s it).map eraseNs) ∧
    (∀ items r s, items.all (wfItem fuel) = true →
      flatForest fuel r s (items.map (normItem fuel)) =
        (flatForest fuel r s items).map eraseNs) := by
  induction fuel with
  | zero =>
    constructor
    · intro it r s _; rfl
    · intro items r s _
      rw [flatForest_zero, flatForest_zero]
      rfl
  | succ fuel ih =>
    have hitem : ∀ it r s, wfItem (fuel + 1) it = true →
        flatItem (fuel + 1) r s (normItem (fuel + 1) it) =
          (flatItem (fuel + 1) r s it).map eraseNs := by
      intro it r s hwf
      match it with
      | .meta k c t =>
        rw [normItem]
        rw [show flatItem (fuel + 1) r s (.meta k c t) = [metaNode k c t s r] from rfl]
        rw [List.map_cons, List.map_nil, eraseNs_metaNode]
      | .elem full ns attrs text tail kids =>
        obtain ⟨_, hcolon, _, hkids⟩ := wfItem_elem_parts fuel full ns attrs text tail kids hwf
        rw [normItem, flatItem_elem_eq, flatItem_elem_eq, List.map_cons]
        rw [eraseNs_elemNode full ns attrs text tail s r hcolon]
        rw [ih.2 kids _ (s + 1) hkids]
    constructor
    · exact hitem
    · intro items
      induction items with
      | nil => intro r s _; rfl
      | cons it rest ihr =>
        intro r s hall
        rw [List.all_cons, Bool.and_eq_true] at hall
        rw [List.map_cons, flatForest_cons, flatForest_cons]
        rw [hitem it r s hall.1, ihr r _ hall.2, List.length_map, List.map_append]

theorem wfItem_norm (fuel : Nat) :
    (∀ it, wfItem fuel it = true → wfItem fuel (normItem fuel it) = true) ∧
    (∀ items : List XItem, items.all (wfItem fuel) = true →
      (items.map (normItem fuel)).all (wfItem fuel) = true) := by
  induction fuel with
  | zero =>
    refine ⟨fun it _ => rfl, fun items h => ?_⟩
    rw [List.all_eq_true]
    intro x hx
    rfl
  | succ fuel ih =>
    have hitem : ∀ it, wfItem (fuel + 1) it = true →
        wfItem (fuel + 1) (normItem (fuel + 1) it) = true := by
      intro it hwf
      match it with
      | .meta k c t => exact hwf
      | .elem full ns attrs text tail kids =>
        obtain ⟨hm, hc, ht, hk⟩ := wfItem_elem_parts fuel full ns attrs text tail kids hwf
        rw [wfItem.eq_def] at hwf
        simp only [Bool.and_eq_true] at hwf
        have hek := hwf.1.2
        rw [normItem]
        show ((!(strStartsWith (localTag (canonTag full)) ['<'] &&
              strEndsWith (localTag (canonTag full)) ['>'])) &&
            ((!(prefixTag (canonTag full)).isEmpty) ||
              !((localTag (canonTag full)).contains ':')) &&
            (text.isSome || (kids.map (normItem fuel)).isEmpty) &&
            (kids.map (normItem fuel)).all (wfItem fuel)) = true
        have hstab := canonTag_stable full hc
        rw [hstab.1, hstab.2]
        simp only [Bool.and_eq_true]
        refine ⟨⟨⟨hm, hc⟩, ?_⟩, ih.2 kids hk⟩
        rw [Bool.or_eq_true] at hek ⊢
        rcases hek with h1 | h2
        · exact Or.inl h1
        · refine Or.inr ?_
          rw [List.isEmpty_iff] at h2 ⊢
          rw [h2]
          rfl
    refine ⟨hitem, fun items h => ?_⟩
    rw [List.all_eq_true] at *
    intro x hx
    obtain ⟨y, hy, rfl⟩ := List.mem_map.mp hx
    exact hitem y (h y hy)

theorem readEvent_meta_eq (d : ETree) (a : RAux) (k : MetaKind) (c : Chars) :
    readEvent d a (metaEvent k c) =
      ({ d with data := d.data ++ [metaNode k c [] d.count a.route],
                count := d.count + 1 },
       { a with status := 2, closeidx := d.count }) := by
  cases k <;> rfl

theorem readEvent_start (d : ETree) (a : RAux) (full : Chars) (ns : Option Chars)
    (attrs : List (Chars × Chars)) :
    readEvent d a (XEvent.startE full ns attrs) =
      ({ d with data := d.data ++ [elemNode full ns attrs (some []) [] d.count a.route],
                count := d.count + 1 },
       { a with status := 1, route := a.route ++ natChars d.count ++ ['#'] }) := by
  simp only [readEvent]
  rw [setAttr_foldl]
  rfl

theorem readEvent_empty (d : ETree) (a : RAux) (full : Chars) (ns : Option Chars)
    (attrs : List (Chars × Chars)) :
    readEvent d a (XEvent.emptyE full ns attrs) =
      ({ d with data := d.data ++ [elemNode full ns attrs none [] d.count a.route],
                count := d.count + 1 },
       { a with status := 2, closeidx := d.count }) := by
  simp only [readEvent]
  rw [setAttr_foldl]
  rfl

theorem readEvent_text2 (d : ETree) (a : RAux) (t : Chars) (h : a.status = 2) :
    readEvent d a (XEvent.textE t) =
      (d.modifyNode a.closeidx (fun n => { n with tail := t }), a) := by
  rw [readEvent, if_neg (by rw [h]; decide), if_pos h]

theorem readEvent_text1 (d : ETree) (a : RAux) (t : Chars) (h : a.status = 1) :
    readEvent d a (XEvent.textE t) =
      (d.modifyNode (d.count - 1) (fun n => { n with text := some t }), a) := by
  rw [readEvent, if_pos h]

theorem readEvent_text0 (d : ETree) (a : RAux) (t : Chars) (h1 : a.status ≠ 1)
    (h2 : a.status ≠ 2) :
    readEvent d a (XEvent.textE t) = (d, a) := by
  rw [readEvent, if_neg h1, if_neg h2]

theorem readFold_tail_attach (dd : ETree) (r : Chars) (i : Nat) (t : Chars)
    (P Q : List ETreeNode) (x : ETreeNode)
    (hdata : dd.data = P ++ x :: Q) (hi : i = P.length) (hx : x.tail = []) :
    readFold dd { route := r, status := 2, closeidx := i }
        (if t ≠ [] then [XEvent.textE t] else []) =
      ({ dd with data := P ++ { x with tail := t } :: Q },
       { route := r, status := 2, closeidx := i }) := by
  by_cases ht : t = []
  · subst ht
    rw [if_neg (by simp)]
    rw [readFold]
    simp only [List.foldl_nil]
    have hxx : { x with tail := ([] : Chars) } = x := by rw [← hx]
    rw [hxx, ← hdata]
  · rw [if_pos ht]
    rw [readFold]
    simp only [List.foldl_cons, List.foldl_nil]
    rw [readEvent_text2 _ _ _ rfl]
    rw [ETree.modifyNode]
    have hcl : ({ route := r, status := 2, closeidx := i } : RAux).closeidx = i := rfl
    rw [hcl, hdata, hi, modify_append_cons]

theorem readFold_textopt1 (dd : ETree) (a : RAux) (t : Chars)
    (P : List ETreeNode) (x : ETreeNode) (h1 : a.status = 1)
    (hdata : dd.data = P ++ [x]) (hcnt : dd.count = P.length + 1)
    (hx : x.text = some []) :
    readFold dd a (if t ≠ [] then [XEvent.textE t] else []) =
      ({ dd with data := P ++ [{ x with text := some t }] }, a) := by
  by_cases ht : t = []
  · subst ht
    rw [if_neg (by simp)]
    rw [readFold]
    simp only [List.foldl_nil]
    have hxx : { x with text := some ([] : Chars) } = x := by rw [← hx]
    rw [hxx, ← hdata]
  · rw [if_pos ht]
    rw [readFold]
    simp only [List.foldl_cons, List.foldl_nil]
    rw [readEvent_text1 _ _ _ h1]
    rw [ETree.modifyNode]
    have hc1 : dd.count - 1 = P.length := by omega
    rw [hc1, hdata, modify_append_cons]

theorem streamItem_meta_false (fuel : Nat) (k : MetaKind) (c tail : Chars) :
    streamItem (fuel + 1) false (.meta k c tail) =
      metaEvent k c :: (if tail ≠ [] then [XEvent.textE tail] else []) := by
  rw [streamItem]
  by_cases h : tail = [] <;> simp [h]

theorem streamItem_elem_some_false (fuel : Nat) (full : Chars) (ns : Option Chars)
    (attrs : List (Chars × Chars)) (t tail : Chars) (kids : List XItem) :
    streamItem (fuel + 1) false (.elem full ns attrs (some t) tail kids) =
      XEvent.startE full ns attrs ::
        ((if t ≠ [] then [XEvent.textE t] else []) ++
         (streamForest fuel false kids ++ ([XEvent.endE] ++
         (if tail ≠ [] then [XEvent.textE tail] else [])))) := by
  rw [streamItem]
  by_cases h1 : t = [] <;> by_cases h2 : tail = [] <;>
    simp [h1, h2, streamForest]

theorem streamItem_elem_none_false (fuel : Nat) (full : Chars) (ns : Option Chars)
    (attrs : List (Chars × Chars)) (tail : Chars) (kids : List XItem) :
    streamItem (fuel + 1) false (.elem full ns attrs none tail kids) =
      XEvent.emptyE full ns attrs ::
        (if tail ≠ [] then [XEvent.textE tail] else []) := by
  rw [streamItem]
  by_cases h : tail = [] <;> simp [h]

theorem append_singleton_cons {α : Type} (A B : List α) (x : α) :
    (A ++ [x]) ++ B = A ++ x :: B := by
  rw [List.append_assoc]
  rfl

theorem readEvent_end_child (d : ETree) (r : Chars) (id : Nat) (st cix : Nat)
    (h : RouteOK r) :
    readEvent d { route := r ++ natChars id ++ ['#'], status := st, closeidx := cix }
        XEvent.endE = (d, { route := r, status := 2, closeidx := id }) := by
  rw [readEvent]
  dsimp only
  rw [readClose_spec r id h]

theorem readFold_elem_some (fuel : Nat)
    (hf : ∀ (items : List XItem) (d : ETree) (a : RAux),
      items.all (wfItem fuel) = true → d.count = d.data.length →
      RouteOK a.route →
      ∃ st cix, readFold d a (streamForest fuel false items) =
        ({ d with data := d.data ++ flatForest fuel a.route d.count items,
                  count := d.count + (flatForest fuel a.route d.count items).length },
         { route := a.route, status := st, closeidx := cix }))
    (full : Chars) (ns : Option Chars) (attrs : List (Chars × Chars))
    (t tail : Chars) (kids : List XItem) (d : ETree) (a : RAux)
    (hkids : kids.all (wfItem fuel) = true)
    (hcnt : d.count = d.data.length) (hroute : RouteOK a.route) :
    readFold d a
        (streamItem (fuel + 1) false (.elem full ns attrs (some t) tail kids)) =
      ({ d with
          data := d.data ++
            flatItem (fuel + 1) a.route d.count (.elem full ns attrs (some t) tail kids),
          count := d.count +
            (flatItem (fuel + 1) a.route d.count
              (.elem full ns attrs (some t) tail kids)).length },
       { route := a.route, status := 2, closeidx := d.count }) := by
  rw [streamItem_elem_some_false, flatItem_elem_eq, readFold_cons, readEvent_start]
  dsimp only
  rw [readFold_append]
  have h1 : readFold
      { d with data := d.data ++ [elemNode full ns attrs (some []) [] d.count a.route],
               count := d.count + 1 }
      { a with status := 1, route := a.route ++ natChars d.count ++ ['#'] }
      (if t ≠ [] then [XEvent.textE t] else []) =
      ({ d with data := d.data ++ [elemNode full ns attrs (some t) [] d.count a.route],
                count := d.count + 1 },
       { a with status := 1, route := a.route ++ natChars d.count ++ ['#'] }) := by
    rw [readFold_textopt1 _ _ t d.data
      (elemNode full ns attrs (some []) [] d.count a.route) rfl rfl
      (by rw [hcnt]) rfl]
    rfl
  rw [h1]
  rw [readFold_append]
  obtain ⟨st2, cix2, hK⟩ := hf kids
    { d with data := d.data ++ [elemNode full ns attrs (some t) [] d.count a.route],
             count := d.count + 1 }
    { a with status := 1, route := a.route ++ natChars d.count ++ ['#'] }
    hkids (by dsimp only; rw [hcnt, List.length_append]; rfl)
    (routeOK_child a.route d.count hroute)
  rw [hK]
  dsimp only
  rw [List.singleton_append, readFold_cons]
  rw [readEvent_end_child _ a.route d.count st2 cix2 hroute]
  dsimp only
  rw [readFold_tail_attach _ a.route d.count tail d.data
    (flatForest fuel (a.route ++ natChars d.count ++ ['#']) (d.count + 1) kids)
    (elemNode full ns attrs (some t) [] d.count a.route)
    (append_singleton_cons d.data
      (flatForest fuel (a.route ++ natChars d.count ++ ['#']) (d.count + 1) kids)
      (elemNode full ns attrs (some t) [] d.count a.route)) hcnt rfl]
  rw [List.length_cons]
  have harith : d.count + 1 +
      (flatForest fuel (a.route ++ natChars d.count ++ ['#']) (d.count + 1)
        kids).length =
      d.count +
        ((flatForest fuel (a.route ++ natChars d.count ++ ['#']) (d.count + 1)
          kids).length + 1) := by omega
  rw [harith]
  rfl

theorem read_adequate (fuel : Nat) :
    (∀ (it : XItem) (d : ETree) (a : RAux), wfItem fuel it = true →
      d.count = d.data.length → RouteOK a.route →
      ∃ st cix, readFold d a (streamItem fuel false it) =
        ({ d with data := d.data ++ flatItem fuel a.route d.count it,
                  count := d.count + (flatItem fuel a.route d.count it).length },
         { route := a.route, status := st, closeidx := cix })) ∧
    (∀ (items : List XItem) (d : ETree) (a : RAux),
      items.all (wfItem fuel) = true →
      d.count = d.data.length → RouteOK a.route →
      ∃ st cix, readFold d a (streamForest fuel false items) =
        ({ d with data := d.data ++ flatForest fuel a.route d.count items,
                  count := d.count + (flatForest fuel a.route d.count items).length },
         { route := a.route, status := st, closeidx := cix })) := by
  induction fuel with
  | zero =>
    constructor
    · intro it d a _ _ _
      refine ⟨a.status, a.closeidx, ?_⟩
      rw [show streamItem 0 false it = [] from rfl]
      rw [readFold]
      simp only [List.foldl_nil]
      rw [show flatItem 0 a.route d.count it = [] from rfl]
      rw [List.append_nil]
      rfl
    · intro items d a _ _ _
      refine ⟨a.status, a.closeidx, ?_⟩
      rw [streamForest_zero, flatForest_zero, readFold]
      simp only [List.foldl_nil]
      rw [List.append_nil]
      rfl
  | succ fuel ih =>
    have hitem : ∀ (it : XItem) (d : ETree) (a : RAux),
        wfItem (fuel + 1) it = true → d.count = d.data.length →
        RouteOK a.route →
        ∃ st cix, readFold d a (streamItem (fuel + 1) false it) =
          ({ d with data := d.data ++ flatItem (fuel + 1) a.route d.count it,
                    count := d.count +
                      (flatItem (fuel + 1) a.route d.count it).length },
           { route := a.route, status := st, closeidx := cix }) := by
      intro it d a hwf hcnt hroute
      match it with
      | .meta k c t =>
        refine ⟨2, d.count, ?_⟩
        rw [streamItem_meta_false, readFold_cons, readEvent_meta_eq]
        dsimp only
        rw [readFold_tail_attach _ a.route d.count t d.data []
          (metaNode k c [] d.count a.route) rfl hcnt rfl]
        rfl
      | .elem full ns attrs text tail kids =>
        obtain ⟨hm, hcolon, htn, hkids⟩ :=
          wfItem_elem_parts fuel full ns attrs text tail kids hwf
        match text with
        | none =>
          have hke : kids = [] := htn rfl
          subst hke
          refine ⟨2, d.count, ?_⟩
          rw [streamItem_elem_none_false, readFold_cons, readEvent_empty]
          dsimp only
          rw [readFold_tail_attach _ a.route d.count tail d.data []
            (elemNode full ns attrs none [] d.count a.route) rfl hcnt rfl]
          rfl
        | some t =>
          refine ⟨2, d.count, ?_⟩
          exact readFold_elem_some fuel ih.2 full ns attrs t tail kids d a
            hkids hcnt hroute
    refine ⟨hitem, ?_⟩
    intro items
    induction items with
    | nil =>
      intro d a _ _ _
      refine ⟨a.status, a.closeidx, ?_⟩
      rw [show streamForest (fuel + 1) false [] = [] from rfl]
      rw [readFold]
      simp only [List.foldl_nil]
      rw [show flatForest (fuel + 1) a.route d.count [] = [] from rfl]
      rw [List.append_nil]
      rfl
    | cons it rest ihr =>
      intro d a hall hcnt hroute
      rw [List.all_cons, Bool.and_eq_true] at hall
      obtain ⟨st1, cix1, h1⟩ := hitem it d a hall.1 hcnt hroute
      rw [streamForest_cons, readFold_append, h1]
      dsimp only
      obtain ⟨st2, cix2, h2⟩ := ihr
        { d with data := d.data ++ flatItem (fuel + 1) a.route d.count it,
                 count := d.count + (flatItem (fuel + 1) a.route d.count it).length }
        { route := a.route, status := st1, closeidx := cix1 }
        hall.2 (by dsimp only; rw [hcnt, List.length_append]) hroute
      rw [h2]
      dsimp only
      refine ⟨st2, cix2, ?_⟩
      rw [flatForest_cons]
      rw [← List.append_assoc]
      rw [List.length_append]
      rw [← Nat.add_assoc]

theorem readDoc_stream (fuel : Nat) (F : List XItem)
    (hwf : F.all (wfItem fuel) = true) :
    readDoc (streamForest fuel false F) =
      { freshDoc with data := flatForest fuel ['#'] 0 F,
                      count := (flatForest fuel ['#'] 0 F).length } := by
  rw [readDoc]
  obtain ⟨st, cix, h⟩ := (read_adequate fuel).2 F freshDoc
    { route := ['#'], status := 0, closeidx := 0 } hwf rfl routeOK_root
  rw [h]
  dsimp only [freshDoc]
  rw [Nat.zero_add, List.nil_append]

theorem flatItem_len_pos (fuel : Nat) (r : Chars) (s : Nat) (it : XItem) :
    0 < (flatItem (fuel + 1) r s it).length := by
  match it with
  | .meta k c t =>
    rw [show flatItem (fuel + 1) r s (.meta k c t) = [metaNode k c t s r] from rfl]
    simp
  | .elem full ns attrs text tail kids =>
    rw [flatItem_elem_eq]
    simp

theorem flat_ids (fuel : Nat) :
    (∀ (it : XItem) (r : Chars) (s j : Nat), j < (flatItem fuel r s it).length →
      (nodeAt (flatItem fuel r s it) j).idx = s + j) ∧
    (∀ (items : List XItem) (r : Chars) (s j : Nat),
      j < (flatForest fuel r s items).length →
      (nodeAt (flatForest fuel r s items) j).idx = s + j) := by
  induction fuel with
  | zero =>
    constructor
    · intro it r s j h
      rw [show flatItem 0 r s it = [] from rfl] at h
      simp at h
    · intro items r s j h
      rw [flatForest_zero] at h
      simp at h
  | succ fuel ih =>
    have hitem : ∀ (it : XItem) (r : Chars) (s j : Nat),
        j < (flatItem (fuel + 1) r s it).length →
        (nodeAt (flatItem (fuel + 1) r s it) j).idx = s + j := by
      intro it r s j h
      match it with
      | .meta k c t =>
        rw [show flatItem (fuel + 1) r s (.meta k c t) = [metaNode k c t s r]
          from rfl] at h ⊢
        have hj : j = 0 := by simp at h; omega
        subst hj
        rfl
      | .elem full ns attrs text tail kids =>
        rw [flatItem_elem_eq] at h ⊢
        match j with
        | 0 =>
          rw [nodeAt_cons_zero]
          rfl
        | j + 1 =>
          rw [nodeAt_cons_succ]
          have hlen : j <
              (flatForest fuel (r ++ natChars s ++ ['#']) (s + 1) kids).length := by
            rw [List.length_cons] at h
            omega
          rw [ih.2 kids _ (s + 1) j hlen]
          omega
    refine ⟨hitem, ?_⟩
    intro items
    induction items with
    | nil =>
      intro r s j h
      rw [show flatForest (fuel + 1) r s [] = [] from rfl] at h
      simp at h
    | cons it rest ihr =>
      intro r s j h
      rw [flatForest_cons] at h ⊢
      by_cases hj : j < (flatItem (fuel + 1) r s it).length
      · rw [nodeAt_append_left _ _ _ hj]
        exact hitem it r s j hj
      · push_neg at hj
        rw [nodeAt_append_right _ _ _ hj]
        have hlen2 : j - (flatItem (fuel + 1) r s it).length <
            (flatForest (fuel + 1) r (s + (flatItem (fuel + 1) r s it).length)
              rest).length := by
          rw [List.length_append] at h
          omega
        rw [ihr _ _ _ hlen2]
        omega

/-- The route spelled by a stack of ancestor ids: `#id0#id1#...#`. -/
def routeOf (ids : List Nat) : Chars :=
  ids.foldl (fun r i => r ++ natChars i ++ ['#']) ['#']

/-- The suffix a stack extension appends to a route. -/
def routeExt (ids : List Nat) : Chars :=
  (ids.map (fun i => natChars i ++ ['#'])).join

theorem routeOf_snoc (st : List Nat) (i : Nat) :
    routeOf (st ++ [i]) = routeOf st ++ natChars i ++ ['#'] := by
  rw [routeOf, routeOf, List.foldl_append]
  rfl

theorem routeOf_append_ext : ∀ (b a : List Nat),
    routeOf (a ++ b) = routeOf a ++ routeExt b := by
  intro b
  induction b with
  | nil => intro a; rw [List.append_nil, routeExt]; simp
  | cons i b ih =>
    intro a
    have h1 : a ++ i :: b = (a ++ [i]) ++ b := by simp
    rw [h1, ih (a ++ [i]), routeOf_snoc]
    rw [show routeExt (i :: b) = (natChars i ++ ['#']) ++ routeExt b from rfl]
    simp [List.append_assoc]

theorem routeExt_ne_nil (b : List Nat) (h : b ≠ []) : routeExt b ≠ [] := by
  match b with
  | [] => exact absurd rfl h
  | i :: b =>
    rw [show routeExt (i :: b) = (natChars i ++ ['#']) ++ routeExt b from rfl]
    intro hc
    have := congrArg List.length hc
    simp at this

theorem routeExt_len_ge : ∀ b : List Nat, b.length ≤ (routeExt b).length := by
  intro b
  induction b with
  | nil => simp [routeExt]
  | cons i b ih =>
    rw [show routeExt (i :: b) = (natChars i ++ ['#']) ++ routeExt b from rfl]
    have h1 : 1 ≤ (natChars i).length := by
      cases hn : natChars i with
      | nil => exact absurd hn (natChars_ne_nil i)
      | cons c l => simp
    simp only [List.length_append, List.length_cons]
    omega

theorem routeOK_routeOf (st : List Nat) : RouteOK (routeOf st) := by
  constructor
  · rw [show routeOf st = routeOf ([] ++ st) from by rw [List.nil_append]]
    rw [routeOf_append_ext]
    rfl
  · rcases List.eq_nil_or_concat st with rfl | ⟨a, i, rfl⟩
    · rfl
    · rw [List.concat_eq_append, routeOf_snoc, List.getLast?_concat]

theorem routeOf_cancel (base init : List Nat)
    (h : routeOf (base ++ init) = routeOf base) : init = [] := by
  rw [routeOf_append_ext] at h
  by_cases hi : init = []
  · exact hi
  · exfalso
    have := congrArg List.length h
    rw [List.length_append] at this
    have h2 := routeExt_ne_nil init hi
    have h3 : 0 < (routeExt init).length := by
      cases hx : routeExt init with
      | nil => exact absurd hx h2
      | cons c l => simp
    omega

theorem routeOf_startsWith (st sp : List Nat) :
    strStartsWith (routeOf (st ++ sp)) (routeOf st) = true := by
  rw [strStartsWith_iff]
  exact ⟨routeExt sp, (routeOf_append_ext sp st).symm⟩

theorem routeOf_notStartsWith (st sp : List Nat) (h : sp ≠ []) :
    strStartsWith (routeOf st) (routeOf (st ++ sp)) = false := by
  by_cases hb : strStartsWith (routeOf st) (routeOf (st ++ sp)) = true
  · exfalso
    rw [strStartsWith_iff] at hb
    have hlen := hb.length_le
    rw [routeOf_append_ext] at hlen
    rw [List.length_append] at hlen
    have h2 := routeExt_ne_nil sp h
    have h3 : 0 < (routeExt sp).length := by
      cases hx : routeExt sp with
      | nil => exact absurd hx h2
      | cons c l => simp
    omega
  · exact Bool.not_eq_true _ ▸ (Bool.of_not_eq_true hb)

theorem routeOf_ne (st sp : List Nat) (h : sp ≠ []) :
    routeOf (st ++ sp) ≠ routeOf st := by
  intro hc
  exact h (routeOf_cancel st sp hc)

theorem foldl_range_find (n : Nat) (P : Nat → Prop) [DecidablePred P] (i : Nat)
    (hi : i < n) (huniq : ∀ j, j < n → (P j ↔ j = i)) :
    (List.range n).foldl (fun acc j => if P j then some j else acc) none =
      some i := by
  induction n with
  | zero => exact absurd hi (Nat.not_lt_zero i)
  | succ n ih =>
    rw [List.range_succ, List.foldl_append]
    simp only [List.foldl_cons, List.foldl_nil]
    by_cases hn : n = i
    · subst hn
      rw [if_pos ((huniq n (by omega)).mpr rfl)]
    · rw [if_neg (fun hp => hn ((huniq n (by omega)).mp hp))]
      exact ih (by omega) (fun j hj => huniq j (by omega))

theorem idxFind_ids (data : List ETreeNode)
    (hids : ∀ j, j < data.length → (nodeAt data j).idx = j) (i : Nat)
    (hi : i < data.length) :
    idxFind data (natChars i) = some i := by
  rw [idxFind]
  exact foldl_range_find data.length
    (fun j => natChars (nodeAt data j).idx = natChars i) i hi
    (fun j hj => by
      show natChars (nodeAt data j).idx = natChars i ↔ j = i
      rw [hids j hj]
      exact ⟨fun he => natChars_inj j i he, fun he => by rw [he]⟩)

theorem closeChain_stack (d : ETree)
    (hids : ∀ j, j < d.data.length → (nodeAt d.data j).idx = j) :
    ∀ (f : Nat) (spine base : List Nat), spine ≠ [] → spine.length < f →
    (∀ i ∈ spine, i < d.data.length) →
    closeChain d (routeOf base) f (routeOf (base ++ spine)) =
      some ((spine.reverse.map (closeEvents d)).join) := by
  intro f
  induction f with
  | zero =>
    intro spine base hne hlt hmem
    exact absurd hlt (by omega)
  | succ f ih =>
    intro spine base hne hlt hmem
    rcases List.eq_nil_or_concat spine with rfl | ⟨init, lastid, rfl⟩
    · exact absurd rfl hne
    · rw [List.concat_eq_append] at hne hlt hmem ⊢
      have hassoc : base ++ (init ++ [lastid]) = (base ++ init) ++ [lastid] := by
        rw [List.append_assoc]
      rw [hassoc, routeOf_snoc, closeChain]
      rw [readClose_spec _ lastid (routeOK_routeOf (base ++ init))]
      simp only []
      rw [idxFind_ids d.data hids lastid
        (hmem lastid (List.mem_append_right init (List.mem_singleton.mpr rfl)))]
      simp only []
      show (if routeOf (base ++ init) = routeOf base
          then some (closeEvents d lastid)
          else (closeChain d (routeOf base) f (routeOf (base ++ init))).map
            (fun more => closeEvents d lastid ++ more)) = _
      by_cases hinit : init = []
      · subst hinit
        rw [if_pos (by rw [List.append_nil])]
        simp
      · rw [if_neg (fun hc => hinit (routeOf_cancel base init hc))]
        rw [ih init base hinit (by simp at hlt ⊢; omega)
          (fun i hi => hmem i (List.mem_append_left _ hi))]
        show some (closeEvents d lastid ++ (init.reverse.map (closeEvents d)).join) =
          some (((init ++ [lastid]).reverse.map (closeEvents d)).join)
        rw [List.reverse_append]
        simp

/-- The close events a finished region leaves pending: the end tag and tail
of every still-open element on its rightmost spine, deepest first (markers
pend only their tail; a self-closed element pends nothing). -/
def pendItem : Nat → XItem → List XEvent
  | 0, _ => []
  | _ + 1, .meta _ _ tail => [XEvent.textE tail]
  | _ + 1, .elem _ _ _ none _ _ => []
  | fuel + 1, .elem _ _ _ (some _) tail kids =>
    (match kids.getLast? with
     | none => []
     | some k => pendItem fuel k) ++ [XEvent.endE, XEvent.textE tail]

/-- The events the writer emits while scanning an item's region: everything
of the item's serialized form except the pending closes. -/
def openItem : Nat → XItem → List XEvent
  | 0, _ => []
  | _ + 1, .meta k c _ => [metaEvent k c]
  | _ + 1, .elem full _ attrs none tail _ =>
    [XEvent.emptyE (canonTag full) none (attrsCollapse attrs), XEvent.textE tail]
  | fuel + 1, .elem full _ attrs (some t) _ kids =>
    XEvent.startE (canonTag full) none (attrsCollapse attrs) :: XEvent.textE t ::
      (kids.foldl (fun (acc : List XEvent × List XEvent) k =>
        (acc.1 ++ acc.2 ++ openItem fuel k, pendItem fuel k)) ([], [])).1

def openForest (fuel : Nat) (items : List XItem) : List XEvent :=
  (items.foldl (fun (acc : List XEvent × List XEvent) k =>
    (acc.1 ++ acc.2 ++ openItem fuel k, pendItem fuel k)) ([], [])).1

def pendLast (fuel : Nat) (items : List XItem) : List XEvent :=
  match items.getLast? with
  | none => []
  | some k => pendItem fuel k

theorem openItem_elem_some (fuel : Nat) (full : Chars) (ns : Option Chars)
    (attrs : List (Chars × Chars)) (t tail : Chars) (kids : List XItem) :
    openItem (fuel + 1) (.elem full ns attrs (some t) tail kids) =
      XEvent.startE (canonTag full) none (attrsCollapse attrs) ::
        XEvent.textE t :: openForest fuel kids := rfl

theorem pendItem_elem_some (fuel : Nat) (full : Chars) (ns : Option Chars)
    (attrs : List (Chars × Chars)) (t tail : Chars) (kids : List XItem) :
    pendItem (fuel + 1) (.elem full ns attrs (some t) tail kids) =
      pendLast fuel kids ++ [XEvent.endE, XEvent.textE tail] := rfl

theorem streamItem_meta_true (fuel : Nat) (k : MetaKind) (c tail : Chars) :
    streamItem (fuel + 1) true (.meta k c tail) =
      [metaEvent k c, XEvent.textE tail] := by
  rw [streamItem]
  rw [if_pos (Or.inr rfl)]

theorem streamItem_elem_none_true (fuel : Nat) (full : Chars) (ns : Option Chars)
    (attrs : List (Chars × Chars)) (tail : Chars) (kids : List XItem) :
    streamItem (fuel + 1) true (.elem full ns attrs none tail kids) =
      [XEvent.emptyE full ns attrs, XEvent.textE tail] := by
  rw [streamItem]
  rw [if_pos (Or.inr rfl)]

theorem streamItem_elem_some_true (fuel : Nat) (full : Chars) (ns : Option Chars)
    (attrs : List (Chars × Chars)) (t tail : Chars) (kids : List XItem) :
    streamItem (fuel + 1) true (.elem full ns attrs (some t) tail kids) =
      XEvent.startE full ns attrs :: XEvent.textE t ::
        ((streamForest fuel true kids ++ [XEvent.endE]) ++ [XEvent.textE tail]) := by
  rw [streamItem]
  rw [if_pos (Or.inr rfl), if_pos (Or.inr rfl)]
  rfl

theorem openFold_shift (fuel : Nat) : ∀ (items : List XItem), items ≠ [] →
    ∀ (E p : List XEvent),
    (items.foldl (fun (acc : List XEvent × List XEvent) k =>
      (acc.1 ++ acc.2 ++ openItem fuel k, pendItem fuel k)) (E, p)).1 =
      E ++ p ++ openForest fuel items := by
  intro items
  induction items with
  | nil => intro h; exact absurd rfl h
  | cons k rest ih =>
    intro _ E p
    rw [List.foldl_cons, openForest, List.foldl_cons]
    dsimp only
    match rest with
    | [] => simp
    | r :: rs =>
      rw [ih (by simp) (E ++ p ++ openItem fuel k) (pendItem fuel k)]
      rw [ih (by simp) ([] ++ [] ++ openItem fuel k) (pendItem fuel k)]
      simp

theorem openForest_zero : ∀ items : List XItem, openForest 0 items = [] := by
  have key : ∀ (items : List XItem) (E : List XEvent),
      (items.foldl (fun (acc : List XEvent × List XEvent) k =>
        (acc.1 ++ acc.2 ++ openItem 0 k, pendItem 0 k)) (E, [])).1 = E := by
    intro items
    induction items with
    | nil => intro E; rfl
    | cons k rest ih =>
      intro E
      rw [List.foldl_cons]
      dsimp only
      rw [show openItem 0 k = [] from rfl, show pendItem 0 k = [] from rfl]
      rw [show E ++ ([] : List XEvent) ++ ([] : List XEvent) = E from by simp]
      exact ih E
  intro items
  rw [openForest]
  exact key items []

theorem pendLast_zero (items : List XItem) : pendLast 0 items = [] := by
  rw [pendLast]
  cases h : items.getLast? with
  | none => rfl
  | some k => rfl

theorem pendLast_cons_cons (fuel : Nat) (k r : XItem) (rs : List XItem) :
    pendLast fuel (k :: r :: rs) = pendLast fuel (r :: rs) := by
  rw [pendLast, pendLast, List.getLast?_cons_cons]

theorem openForest_cons (fuel : Nat) (k : XItem) (rest : List XItem)
    (h : rest ≠ []) :
    openForest fuel (k :: rest) =
      openItem fuel k ++ pendItem fuel k ++ openForest fuel rest := by
  rw [openForest, List.foldl_cons]
  dsimp only
  rw [openFold_shift fuel rest h]
  simp

theorem stream_decomp (fuel : Nat) :
    (∀ it, streamItem fuel true (normItem fuel it) =
      openItem fuel it ++ pendItem fuel it) ∧
    (∀ items : List XItem, streamForest fuel true (items.map (normItem fuel)) =
      openForest fuel items ++ pendLast fuel items) := by
  induction fuel with
  | zero =>
    constructor
    · intro it; rfl
    · intro items
      rw [streamForest_zero, openForest_zero, pendLast_zero]
      rfl
  | succ fuel ih =>
    have hitem : ∀ it, streamItem (fuel + 1) true (normItem (fuel + 1) it) =
        openItem (fuel + 1) it ++ pendItem (fuel + 1) it := by
      intro it
      match it with
      | .meta k c t =>
        rw [normItem, streamItem_meta_true]
        rfl
      | .elem full ns attrs none tail kids =>
        rw [normItem, streamItem_elem_none_true]
        simp [openItem, pendItem]
      | .elem full ns attrs (some t) tail kids =>
        rw [normItem, streamItem_elem_some_true, openItem_elem_some,
          pendItem_elem_some]
        rw [ih.2 kids]
        simp [List.append_assoc]
    refine ⟨hitem, ?_⟩
    intro items
    induction items with
    | nil => rfl
    | cons k rest ihr =>
      rw [List.map_cons, streamForest_cons, hitem k, ihr]
      match rest with
      | [] => simp [openForest, pendLast]
      | r :: rs =>
        rw [openForest_cons (fuel + 1) k (r :: rs) (by simp)]
        rw [pendLast_cons_cons]
        simp [List.append_assoc]

theorem normalize_append (a b : List XEvent) :
    normalizeEvents (a ++ b) = normalizeEvents a ++ normalizeEvents b := by
  rw [normalizeEvents, normalizeEvents, normalizeEvents, List.filter_append]

theorem normalize_stream (fuel : Nat) :
    (∀ it, normalizeEvents (streamItem fuel true it) = streamItem fuel false it) ∧
    (∀ items : List XItem, normalizeEvents (streamForest fuel true items) =
      streamForest fuel false items) := by
  induction fuel with
  | zero =>
    refine ⟨fun it => rfl, fun items => ?_⟩
    rw [streamForest_zero, streamForest_zero]
    rfl
  | succ fuel ih =>
    have hitem : ∀ it, normalizeEvents (streamItem (fuel + 1) true it) =
        streamItem (fuel + 1) false it := by
      intro it
      match it with
      | .meta k c t =>
        rw [streamItem_meta_true, streamItem_meta_false]
        cases k <;> by_cases h : t = [] <;> simp [normalizeEvents, metaEvent, h]
      | .elem full ns attrs none tail kids =>
        rw [streamItem_elem_none_true, streamItem_elem_none_false]
        by_cases h : tail = [] <;> simp [normalizeEvents, h]
      | .elem full ns attrs (some t) tail kids =>
        rw [streamItem_elem_some_true, streamItem_elem_some_false]
        have hk := ih.2 kids
        rw [normalizeEvents] at hk
        simp only [decide_not] at hk
        by_cases h1 : t = [] <;> by_cases h2 : tail = [] <;>
          simp [normalizeEvents, h1, h2, List.filter_append, hk]
    refine ⟨hitem, ?_⟩
    intro items
    induction items with
    | nil => rfl
    | cons k rest ihr =>
      rw [streamForest_cons, streamForest_cons, normalize_append, hitem, ihr]

theorem nodeAt_middle (P Q : List ETreeNode) (x : ETreeNode) :
    nodeAt (P ++ x :: Q) P.length = x := by
  rw [nodeAt_append_right P (x :: Q) P.length (Nat.le_refl _)]
  rw [Nat.sub_self]
  rfl

theorem nodeAt_region (P M Q : List ETreeNode) (j : Nat) (hj : j < M.length) :
    nodeAt (P ++ M ++ Q) (P.length + j) = nodeAt M j := by
  rw [List.append_assoc]
  rw [nodeAt_append_right P (M ++ Q) (P.length + j) (by omega)]
  rw [show P.length + j - P.length = j from by omega]
  rw [nodeAt_append_left M Q j hj]

theorem not_marker (nm : Chars)
    (h : (strStartsWith nm ['<'] && strEndsWith nm ['>']) = false) :
    nm ≠ metaComment ∧ nm ≠ metaCData ∧ nm ≠ metaPI ∧ nm ≠ metaDocType := by
  refine ⟨?_, ?_, ?_, ?_⟩ <;> intro he <;> subst he <;>
    exact absurd h (by decide)

theorem metaNode_localname (k : MetaKind) (c t : Chars) (s : Nat) (r : Chars) :
    (metaNode k c t s r).localname = metaName k := rfl

theorem elemNode_localname (full : Chars) (ns : Option Chars)
    (attrs : List (Chars × Chars)) (text : Option Chars) (tail : Chars)
    (s : Nat) (r : Chars) :
    (elemNode full ns attrs text tail s r).localname = localTag full := rfl

theorem writeNode_at_meta (D : ETree) (s : Nat) (P Q : List ETreeNode)
    (k : MetaKind) (c t : Chars) (r : Chars)
    (hdata : D.data = P ++ metaNode k c t s r :: Q) (hs : s = P.length) :
    writeNode D s = some [metaEvent k c] := by
  have hn : nodeAt D.data s = metaNode k c t s r := by
    rw [hdata, hs, nodeAt_middle]
  cases k with
  | comment =>
    simp only [writeNode, hn, metaNode_localname]
    rw [if_pos (by decide)]
    rfl
  | cdata =>
    simp only [writeNode, hn, metaNode_localname]
    rw [if_neg (by decide), if_pos (by decide)]
    rfl
  | pi =>
    simp only [writeNode, hn, metaNode_localname]
    rw [if_neg (by decide), if_neg (by decide), if_pos (by decide)]
    rfl
  | doctype =>
    simp only [writeNode, hn, metaNode_localname]
    rw [if_neg (by decide), if_neg (by decide), if_neg (by decide),
      if_pos (by decide)]
    rfl

theorem writeNode_at_elem_some (D : ETree) (s : Nat) (P Q : List ETreeNode)
    (full : Chars) (ns : Option Chars) (attrs : List (Chars × Chars))
    (t tail : Chars) (r : Chars)
    (hdata : D.data = P ++ elemNode full ns attrs (some t) tail s r :: Q)
    (hs : s = P.length)
    (hm : (strStartsWith (localTag full) ['<'] &&
      strEndsWith (localTag full) ['>']) = false) :
    writeNode D s =
      some [XEvent.startE (canonTag full) none (attrsCollapse attrs),
        XEvent.textE t] := by
  have hn : nodeAt D.data s = elemNode full ns attrs (some t) tail s r := by
    rw [hdata, hs, nodeAt_middle]
  obtain ⟨h1, h2, h3, h4⟩ := not_marker (localTag full) hm
  simp only [writeNode, hn, elemNode_localname]
  rw [if_neg h1, if_neg h2, if_neg h3, if_neg h4]
  rfl

theorem writeNode_at_elem_none (D : ETree) (s : Nat) (P Q : List ETreeNode)
    (full : Chars) (ns : Option Chars) (attrs : List (Chars × Chars))
    (tail : Chars) (r : Chars)
    (hdata : D.data = P ++ elemNode full ns attrs none tail s r :: Q)
    (hs : s = P.length)
    (hm : (strStartsWith (localTag full) ['<'] &&
      strEndsWith (localTag full) ['>']) = false) :
    writeNode D s =
      some [XEvent.emptyE (canonTag full) none (attrsCollapse attrs),
        XEvent.textE tail] := by
  have hn : nodeAt D.data s = elemNode full ns attrs none tail s r := by
    rw [hdata, hs, nodeAt_middle]
  obtain ⟨h1, h2, h3, h4⟩ := not_marker (localTag full) hm
  simp only [writeNode, hn, elemNode_localname]
  rw [if_neg h1, if_neg h2, if_neg h3, if_neg h4]
  rfl

theorem writeBetween_child (D : ETree) (j : Nat) (st : List Nat) (x : Nat)
    (hprev : (nodeAt D.data (j - 1)).route = routeOf st)
    (hcur : (nodeAt D.data j).route = routeOf (st ++ [x])) :
    writeBetween D j = some [] := by
  simp only [writeBetween, hprev, hcur]
  rw [if_neg (routeOf_ne st [x] (by simp))]
  rw [if_pos (routeOf_startsWith st [x])]

theorem writeBetween_close (D : ETree) (j : Nat) (stack spine : List Nat)
    (hids : ∀ i, i < D.data.length → (nodeAt D.data i).idx = i)
    (hmem : ∀ i ∈ spine, i < D.data.length)
    (hprev : (nodeAt D.data (j - 1)).route = routeOf (stack ++ spine))
    (hcur : (nodeAt D.data j).route = routeOf stack) :
    writeBetween D j = some
      ((if (nodeAt D.data (j - 1)).text.isSome then closeEvents D (j - 1)
        else []) ++
        (spine.reverse.map (closeEvents D)).join) := by
  by_cases hsp : spine = []
  · subst hsp
    rw [List.append_nil] at hprev
    simp only [writeBetween, hprev, hcur]
    simp
  · simp only [writeBetween, hprev, hcur]
    rw [if_neg (fun hc => routeOf_ne stack spine hsp hc.symm)]
    rw [if_neg (by rw [routeOf_notStartsWith stack spine hsp]; decide)]
    rw [if_pos (routeOf_startsWith stack spine)]
    have hflen : spine.length < (routeOf (stack ++ spine)).length + 1 := by
      have h1 := routeExt_len_ge spine
      have h2 := congrArg List.length (routeOf_append_ext spine stack)
      rw [List.length_append] at h2
      omega
    rw [closeChain_stack D hids ((routeOf (stack ++ spine)).length + 1)
      spine stack hsp hflen hmem]
    rfl

theorem writeSeq_cons (D : ETree) (i : Nat) (rest : List Nat)
    (ev evs : List XEvent) (h1 : writeStep D i = some ev)
    (h2 : writeSeq D rest = some evs) :
    writeSeq D (i :: rest) = some (ev ++ evs) := by
  rw [writeSeq, h1, h2]

theorem writeSeq_append (D : ETree) (l1 l2 : List Nat) (a b : List XEvent)
    (h1 : writeSeq D l1 = some a) (h2 : writeSeq D l2 = some b) :
    writeSeq D (l1 ++ l2) = some (a ++ b) := by
  induction l1 generalizing a with
  | nil =>
    rw [writeSeq] at h1
    cases h1
    rw [List.nil_append, List.nil_append, h2]
  | cons i rest ih =>
    rw [writeSeq] at h1
    cases hs : writeStep D i with
    | none => rw [hs] at h1; exact Option.noConfusion h1
    | some ev =>
      rw [hs] at h1
      cases hr : writeSeq D rest with
      | none => rw [hr] at h1; exact Option.noConfusion h1
      | some evs =>
        rw [hr] at h1
        simp only [Option.some.injEq] at h1
        rw [List.cons_append]
        rw [writeSeq_cons D i (rest ++ l2) ev (evs ++ b) hs (ih evs hr)]
        rw [← h1]
        rw [List.append_assoc]

theorem writeStep_pos (D : ETree) (i : Nat) (hi : ¬(i = 0)) (bt nd : List XEvent)
    (hb : writeBetween D i = some bt) (hn : writeNode D i = some nd) :
    writeStep D i = some (bt ++ nd) := by
  rw [writeStep, if_neg hi, hb, hn]

theorem closeEvents_at (D : ETree) (e : Nat) (x : ETreeNode)
    (hnode : nodeAt D.data e = x) :
    closeEvents D e =
      (if x.isMeta then [] else [XEvent.endE]) ++ [XEvent.textE x.tail] := by
  rw [closeEvents, hnode]

theorem flatItem_head_route (fuel : Nat) (r : Chars) (s : Nat) (it : XItem) :
    (nodeAt (flatItem (fuel + 1) r s it) 0).route = r := by
  match it with
  | .meta k c t => rfl
  | .elem full ns attrs text tail kids =>
    rw [flatItem_elem_eq, nodeAt_cons_zero]
    rfl

theorem flatForest_head_route (fuel : Nat) (r : Chars) (s : Nat)
    (items : List XItem) (h0 : 0 < fuel) (hne : items ≠ []) :
    (nodeAt (flatForest fuel r s items) 0).route = r := by
  match fuel, items with
  | fuel + 1, it :: rest =>
    rw [flatForest_cons]
    rw [show (0 : Nat) = s + 0 - s from by omega]
    rw [nodeAt_append_left _ _ _ (by
      rw [show s + 0 - s = 0 from by omega]
      exact flatItem_len_pos fuel r s it)]
    rw [show s + 0 - s = 0 from by omega]
    exact flatItem_head_route fuel r s it

theorem metaNode_isMeta (k : MetaKind) (c t : Chars) (s : Nat) (r : Chars) :
    (metaNode k c t s r).isMeta = true := by
  cases k <;> rfl

theorem elemNode_isMeta (full : Chars) (ns : Option Chars)
    (attrs : List (Chars × Chars)) (text : Option Chars) (tail : Chars)
    (s : Nat) (r : Chars) :
    (elemNode full ns attrs text tail s r).isMeta =
      (strStartsWith (localTag full) ['<'] &&
        strEndsWith (localTag full) ['>']) := rfl

/-- What the writer's scan of one region establishes: the node part at the
region's start, the remaining steps of the region, their concatenation being
the region's open events, and the identity of the still-open spine whose
closes are pending. -/
def RegionSpec (D : ETree) (s L : Nat) (stack : List Nat)
    (openEvs pendEvs : List XEvent) : Prop :=
  ∃ hd inner spine,
    writeNode D s = some hd ∧
    writeSeq D (List.range' (s + 1) (L - 1)) = some inner ∧
    hd ++ inner = openEvs ∧
    (nodeAt D.data (s + L - 1)).route = routeOf (stack ++ spine) ∧
    (∀ i ∈ spine, i < D.data.length) ∧
    (if (nodeAt D.data (s + L - 1)).text.isSome
      then closeEvents D (s + L - 1) else []) ++
      (spine.reverse.map (closeEvents D)).join = pendEvs

theorem write_region_meta (D : ETree) (k : MetaKind) (c t : Chars)
    (stack : List Nat) (P Q : List ETreeNode) (fuel : Nat)
    (hdata : D.data =
      P ++ flatItem (fuel + 1) (routeOf stack) P.length (.meta k c t) ++ Q) :
    RegionSpec D P.length
      (flatItem (fuel + 1) (routeOf stack) P.length (.meta k c t)).length stack
      (openItem (fuel + 1) (.meta k c t)) (pendItem (fuel + 1) (.meta k c t)) := by
  have hdata2 : D.data = P ++ metaNode k c t P.length (routeOf stack) :: Q := by
    rw [hdata]
    rw [show flatItem (fuel + 1) (routeOf stack) P.length (.meta k c t) =
      [metaNode k c t P.length (routeOf stack)] from rfl]
    rw [append_singleton_cons]
  have hn : nodeAt D.data P.length = metaNode k c t P.length (routeOf stack) := by
    rw [hdata2, nodeAt_middle]
  have he : P.length + (flatItem (fuel + 1) (routeOf stack) P.length
      (XItem.meta k c t)).length - 1 = P.length := rfl
  rw [RegionSpec]
  refine ⟨[metaEvent k c], [], [], ?_, ?_, ?_, ?_, ?_, ?_⟩
  · exact writeNode_at_meta D P.length P Q k c t (routeOf stack) hdata2 rfl
  · rfl
  · rfl
  · rw [he, hn, List.append_nil]
    rfl
  · intro i hi
    exact absurd hi (List.not_mem_nil i)
  · rw [he, hn]
    rw [if_pos (show (metaNode k c t P.length (routeOf stack)).text.isSome = true
      from rfl)]
    rw [closeEvents_at D P.length _ hn]
    rw [if_pos (metaNode_isMeta k c t P.length (routeOf stack))]
    simp [pendItem]
    rfl

theorem write_region_elem_none (D : ETree) (full : Chars) (ns : Option Chars)
    (attrs : List (Chars × Chars)) (tail : Chars)
    (stack : List Nat) (P Q : List ETreeNode) (fuel : Nat)
    (hm : (strStartsWith (localTag full) ['<'] &&
      strEndsWith (localTag full) ['>']) = false)
    (hdata : D.data = P ++ flatItem (fuel + 1) (routeOf stack) P.length
      (.elem full ns attrs none tail []) ++ Q) :
    RegionSpec D P.length
      (flatItem (fuel + 1) (routeOf stack) P.length
        (.elem full ns attrs none tail [])).length stack
      (openItem (fuel + 1) (.elem full ns attrs none tail []))
      (pendItem (fuel + 1) (.elem full ns attrs none tail [])) := by
  have hdata2 : D.data =
      P ++ elemNode full ns attrs none tail P.length (routeOf stack) :: Q := by
    rw [hdata]
    rw [show flatItem (fuel + 1) (routeOf stack) P.length
      (.elem full ns attrs none tail []) =
      [elemNode full ns attrs none tail P.length (routeOf stack)] from rfl]
    rw [append_singleton_cons]
  have hn : nodeAt D.data P.length =
      elemNode full ns attrs none tail P.length (routeOf stack) := by
    rw [hdata2, nodeAt_middle]
  have he : P.length + (flatItem (fuel + 1) (routeOf stack) P.length
      (XItem.elem full ns attrs none tail [])).length - 1 = P.length := rfl
  rw [RegionSpec]
  refine ⟨[XEvent.emptyE (canonTag full) none (attrsCollapse attrs),
    XEvent.textE tail], [], [], ?_, ?_, ?_, ?_, ?_, ?_⟩
  · exact writeNode_at_elem_none D P.length P Q full ns attrs tail
      (routeOf stack) hdata2 rfl hm
  · rfl
  · rfl
  · rw [he, hn, List.append_nil]
    rfl
  · intro i hi
    exact absurd hi (List.not_mem_nil i)
  · rw [he, hn]
    rw [if_neg (show ¬((elemNode full ns attrs none tail P.length
        (routeOf stack)).text.isSome = true) from fun hc => Bool.noConfusion hc)]
    simp [pendItem]

theorem flatItem_len_pos2 (fuel : Nat) (h0 : 0 < fuel) (r : Chars) (s : Nat)
    (it : XItem) : 0 < (flatItem fuel r s it).length := by
  match fuel with
  | fuel + 1 => exact flatItem_len_pos fuel r s it

theorem flatForest_len_pos (fuel : Nat) (h0 : 0 < fuel) (r : Chars) (s : Nat)
    (items : List XItem) (hne : items ≠ []) :
    0 < (flatForest fuel r s items).length := by
  match items with
  | it :: rest =>
    rw [flatForest_cons, List.length_append]
    have := flatItem_len_pos2 fuel h0 r s it
    omega

theorem openForest_singleton (fuel : Nat) (it : XItem) :
    openForest fuel [it] = openItem fuel it := by
  rw [openForest]
  simp

theorem pendLast_singleton (fuel : Nat) (it : XItem) :
    pendLast fuel [it] = pendItem fuel it := rfl

theorem elemNode_tail_eq (full : Chars) (ns : Option Chars)
    (attrs : List (Chars × Chars)) (text : Option Chars) (tail : Chars)
    (s : Nat) (r : Chars) :
    (elemNode full ns attrs text tail s r).tail = tail := rfl

theorem write_region_elem_some (D : ETree)
    (hids : ∀ i, i < D.data.length → (nodeAt D.data i).idx = i) (fuel : Nat)
    (ihf : ∀ (items : List XItem) (stack : List Nat) (P Q : List ETreeNode),
      items.all (wfItem fuel) = true → 0 < fuel → items ≠ [] →
      D.data = P ++ flatForest fuel (routeOf stack) P.length items ++ Q →
      RegionSpec D P.length
        (flatForest fuel (routeOf stack) P.length items).length stack
        (openForest fuel items) (pendLast fuel items))
    (full : Chars) (ns : Option Chars) (attrs : List (Chars × Chars))
    (t tail : Chars) (kids : List XItem) (stack : List Nat)
    (P Q : List ETreeNode)
    (hm : (strStartsWith (localTag full) ['<'] &&
      strEndsWith (localTag full) ['>']) = false)
    (hkall : kids.all (wfItem fuel) = true)
    (hdata : D.data = P ++ flatItem (fuel + 1) (routeOf stack) P.length
      (.elem full ns attrs (some t) tail kids) ++ Q) :
    RegionSpec D P.length
      (flatItem (fuel + 1) (routeOf stack) P.length
        (.elem full ns attrs (some t) tail kids)).length stack
      (openItem (fuel + 1) (.elem full ns attrs (some t) tail kids))
      (pendItem (fuel + 1) (.elem full ns attrs (some t) tail kids)) := by
  have hflat : flatItem (fuel + 1) (routeOf stack) P.length
      (.elem full ns attrs (some t) tail kids) =
      elemNode full ns attrs (some t) tail P.length (routeOf stack) ::
        flatForest fuel (routeOf (stack ++ [P.length])) (P.length + 1) kids := by
    rw [flatItem_elem_eq, routeOf_snoc]
  have hL : (flatItem (fuel + 1) (routeOf stack) P.length
      (.elem full ns attrs (some t) tail kids)).length =
      (flatForest fuel (routeOf (stack ++ [P.length])) (P.length + 1)
        kids).length + 1 := by
    rw [hflat, List.length_cons]
  have hdata2 : D.data =
      P ++ elemNode full ns attrs (some t) tail P.length (routeOf stack) ::
        (flatForest fuel (routeOf (stack ++ [P.length])) (P.length + 1) kids
          ++ Q) := by
    rw [hdata, hflat, List.append_assoc, List.cons_append]
  have hn : nodeAt D.data P.length =
      elemNode full ns attrs (some t) tail P.length (routeOf stack) := by
    rw [hdata2, nodeAt_middle]
  have hnode := writeNode_at_elem_some D P.length P
    (flatForest fuel (routeOf (stack ++ [P.length])) (P.length + 1) kids ++ Q)
    full ns attrs t tail (routeOf stack) hdata2 rfl hm
  by_cases hFKnil : flatForest fuel (routeOf (stack ++ [P.length]))
      (P.length + 1) kids = []
  · have hop : openForest fuel kids = [] ∧ pendLast fuel kids = [] := by
      match fuel, kids with
      | _, [] => exact ⟨rfl, rfl⟩
      | 0, k0 :: kr => exact ⟨openForest_zero _, pendLast_zero _⟩
      | f + 1, k0 :: kr =>
        exfalso
        rw [flatForest_cons] at hFKnil
        have h1 := flatItem_len_pos f (routeOf (stack ++ [P.length]))
          (P.length + 1) k0
        have h2 := congrArg List.length hFKnil
        rw [List.length_append, List.length_nil] at h2
        omega
    rw [RegionSpec]
    refine ⟨[XEvent.startE (canonTag full) none (attrsCollapse attrs),
      XEvent.textE t], [], [], hnode, ?_, ?_, ?_, ?_, ?_⟩
    · rw [hL, hFKnil]
      rfl
    · rw [openItem_elem_some, hop.1]
      rfl
    · rw [hL, hFKnil]
      rw [show P.length + (List.length ([] : List ETreeNode) + 1) - 1 = P.length
        from rfl]
      rw [hn, List.append_nil]
      rfl
    · intro i hi
      exact absurd hi (List.not_mem_nil i)
    · rw [hL, hFKnil]
      rw [show P.length + (List.length ([] : List ETreeNode) + 1) - 1 = P.length
        from rfl]
      rw [hn]
      rw [if_pos (show (elemNode full ns attrs (some t) tail P.length
        (routeOf stack)).text.isSome = true from rfl)]
      rw [closeEvents_at D P.length _ hn, elemNode_isMeta, hm]
      rw [if_neg (show ¬((false : Bool) = true) from by decide)]
      rw [pendItem_elem_some, hop.2]
      rfl
  · have hkne : kids ≠ [] := by
      intro hc
      subst hc
      exact hFKnil rfl
    have hf0 : 0 < fuel := by
      match fuel with
      | 0 => exact absurd (flatForest_zero _ kids (P.length + 1)) hFKnil
      | f + 1 => omega
    have hdata3 : D.data = (P ++ [elemNode full ns attrs (some t) tail P.length
        (routeOf stack)]) ++ flatForest fuel (routeOf (stack ++ [P.length]))
        (P ++ [elemNode full ns attrs (some t) tail P.length
          (routeOf stack)]).length kids ++ Q := by
      rw [hdata, hflat]
      rw [show (P ++ [elemNode full ns attrs (some t) tail P.length
        (routeOf stack)]).length = P.length + 1 from by simp]
      rw [append_singleton_cons]
    obtain ⟨hdK, innerK, spineK, hK1, hK2, hK3, hK4, hK5, hK6⟩ :=
      ihf kids (stack ++ [P.length])
        (P ++ [elemNode full ns attrs (some t) tail P.length (routeOf stack)]) Q
        hkall hf0 hkne hdata3
    have hs2 : (P ++ [elemNode full ns attrs (some t) tail P.length
        (routeOf stack)]).length = P.length + 1 := by simp
    rw [hs2] at hK1 hK2 hK4 hK6 hdata3
    have hLKpos : 0 < (flatForest fuel (routeOf (stack ++ [P.length]))
        (P.length + 1) kids).length := flatForest_len_pos fuel hf0 _ _ kids hkne
    obtain ⟨LK0, hLK⟩ : ∃ x, (flatForest fuel (routeOf (stack ++ [P.length]))
        (P.length + 1) kids).length = x + 1 :=
      ⟨(flatForest fuel (routeOf (stack ++ [P.length]))
        (P.length + 1) kids).length - 1, by omega⟩
    have hcur : (nodeAt D.data (P.length + 1)).route =
        routeOf (stack ++ [P.length]) := by
      have hx := nodeAt_region
        (P ++ [elemNode full ns attrs (some t) tail P.length (routeOf stack)])
        (flatForest fuel (routeOf (stack ++ [P.length])) (P.length + 1) kids)
        Q 0 hLKpos
      rw [show (P ++ [elemNode full ns attrs (some t) tail P.length
        (routeOf stack)]).length + 0 = P.length + 1 from by simp] at hx
      rw [hdata3, hx]
      exact flatForest_head_route fuel _ _ kids hf0 hkne
    have hprev1 : (nodeAt D.data (P.length + 1 - 1)).route = routeOf stack := by
      rw [show P.length + 1 - 1 = P.length from by omega, hn]
      rfl
    have hbet := writeBetween_child D (P.length + 1) stack P.length hprev1 hcur
    have hstep := writeStep_pos D (P.length + 1) (Nat.succ_ne_zero P.length)
      [] hdK hbet hK1
    have hK2a : writeSeq D (List.range' (P.length + 1 + 1) LK0) = some innerK := by
      rw [hLK, Nat.add_sub_cancel] at hK2
      exact hK2
    have hinner : writeSeq D (List.range' (P.length + 1) (LK0 + 1)) =
        some (([] ++ hdK) ++ innerK) := by
      rw [show List.range' (P.length + 1) (LK0 + 1) =
        (P.length + 1) :: List.range' (P.length + 1 + 1) LK0 from rfl]
      exact writeSeq_cons D _ _ _ _ hstep hK2a
    have hlenD : P.length < D.data.length := by
      rw [hdata2]
      simp
    rw [RegionSpec]
    refine ⟨[XEvent.startE (canonTag full) none (attrsCollapse attrs),
      XEvent.textE t], ([] ++ hdK) ++ innerK, P.length :: spineK,
      hnode, ?_, ?_, ?_, ?_, ?_⟩
    · rw [hL, Nat.add_sub_cancel, hLK]
      exact hinner
    · rw [openItem_elem_some, ← hK3]
      simp
    · rw [hL]
      rw [show P.length + ((flatForest fuel (routeOf (stack ++ [P.length]))
        (P.length + 1) kids).length + 1) - 1 =
        P.length + 1 + (flatForest fuel (routeOf (stack ++ [P.length]))
          (P.length + 1) kids).length - 1 from by omega]
      rw [hK4, append_singleton_cons]
    · intro i hi
      rcases List.mem_cons.mp hi with h1 | h2
      · subst h1
        exact hlenD
      · exact hK5 i h2
    · rw [hL]
      rw [show P.length + ((flatForest fuel (routeOf (stack ++ [P.length]))
        (P.length + 1) kids).length + 1) - 1 =
        P.length + 1 + (flatForest fuel (routeOf (stack ++ [P.length]))
          (P.length + 1) kids).length - 1 from by omega]
      have hce : closeEvents D P.length = [XEvent.endE, XEvent.textE tail] := by
        rw [closeEvents_at D P.length _ hn, elemNode_isMeta, hm]
        rw [if_neg (show ¬((false : Bool) = true) from by decide)]
        rfl
      rw [pendItem_elem_some, ← hK6]
      simp [List.join, hce]

theorem write_region_forest (D : ETree) (fuel : Nat)
    (hit : ∀ (it : XItem) (stack : List Nat) (P Q : List ETreeNode),
      wfItem fuel it = true →
      D.data = P ++ flatItem fuel (routeOf stack) P.length it ++ Q →
      RegionSpec D P.length (flatItem fuel (routeOf stack) P.length it).length
        stack (openItem fuel it) (pendItem fuel it))
    (h0 : 0 < fuel)
    (hids : ∀ i, i < D.data.length → (nodeAt D.data i).idx = i) :
    ∀ (items : List XItem) (stack : List Nat) (P Q : List ETreeNode),
      items.all (wfItem fuel) = true → items ≠ [] →
      D.data = P ++ flatForest fuel (routeOf stack) P.length items ++ Q →
      RegionSpec D P.length
        (flatForest fuel (routeOf stack) P.length items).length stack
        (openForest fuel items) (pendLast fuel items) := by
  intro items
  induction items with
  | nil =>
    intro stack P Q _ hne _
    exact absurd rfl hne
  | cons it rest ihr =>
    intro stack P Q hall _ hdata
    rw [List.all_cons, Bool.and_eq_true] at hall
    match rest with
    | [] =>
      have hEq : flatForest fuel (routeOf stack) P.length [it] =
          flatItem fuel (routeOf stack) P.length it := by
        rw [flatForest_cons]
        rw [show flatForest fuel (routeOf stack)
          (P.length + (flatItem fuel (routeOf stack) P.length it).length) [] = []
          from rfl]
        rw [List.append_nil]
      rw [hEq] at hdata ⊢
      rw [openForest_singleton, pendLast_singleton]
      exact hit it stack P Q hall.1 hdata
    | r :: rs =>
      have hsplit : flatForest fuel (routeOf stack) P.length (it :: r :: rs) =
          flatItem fuel (routeOf stack) P.length it ++
            flatForest fuel (routeOf stack)
              (P.length + (flatItem fuel (routeOf stack) P.length it).length)
              (r :: rs) := flatForest_cons fuel (routeOf stack) P.length it (r :: rs)
      have hA1 : 0 < (flatItem fuel (routeOf stack) P.length it).length :=
        flatItem_len_pos2 fuel h0 _ _ it
      have hB1 : 0 < (flatForest fuel (routeOf stack)
          (P.length + (flatItem fuel (routeOf stack) P.length it).length)
          (r :: rs)).length :=
        flatForest_len_pos fuel h0 _ _ (r :: rs) (by simp)
      have hLL : (flatForest fuel (routeOf stack) P.length (it :: r :: rs)).length =
          (flatItem fuel (routeOf stack) P.length it).length +
          (flatForest fuel (routeOf stack)
            (P.length + (flatItem fuel (routeOf stack) P.length it).length)
            (r :: rs)).length := by
        rw [hsplit, List.length_append]
      have hdata1 : D.data = P ++ flatItem fuel (routeOf stack) P.length it ++
          (flatForest fuel (routeOf stack)
            (P.length + (flatItem fuel (routeOf stack) P.length it).length)
            (r :: rs) ++ Q) := by
        rw [hdata, hsplit]
        simp [List.append_assoc]
      obtain ⟨hd1, inner1, spine1, h11, h12, h13, h14, h15, h16⟩ :=
        hit it stack P _ hall.1 hdata1
      have hdata2 : D.data =
          (P ++ flatItem fuel (routeOf stack) P.length it) ++
            flatForest fuel (routeOf stack)
              (P ++ flatItem fuel (routeOf stack) P.length it).length (r :: rs)
            ++ Q := by
        rw [hdata, hsplit]
        rw [show (P ++ flatItem fuel (routeOf stack) P.length it).length =
          P.length + (flatItem fuel (routeOf stack) P.length it).length
          from by simp]
        simp [List.append_assoc]
      obtain ⟨hd2, inner2, spine2, h21, h22, h23, h24, h25, h26⟩ :=
        ihr stack (P ++ flatItem fuel (routeOf stack) P.length it) Q
          hall.2 (by simp) hdata2
      have hs2 : (P ++ flatItem fuel (routeOf stack) P.length it).length =
          P.length + (flatItem fuel (routeOf stack) P.length it).length := by
        simp
      rw [hs2] at h21 h22 h24 h26 hdata2
      obtain ⟨LB0, hLB⟩ : ∃ x, (flatForest fuel (routeOf stack)
          (P.length + (flatItem fuel (routeOf stack) P.length it).length)
          (r :: rs)).length = x + 1 :=
        ⟨(flatForest fuel (routeOf stack)
          (P.length + (flatItem fuel (routeOf stack) P.length it).length)
          (r :: rs)).length - 1, by omega⟩
      have hcur : (nodeAt D.data
          (P.length + (flatItem fuel (routeOf stack) P.length it).length)).route =
          routeOf stack := by
        have hx := nodeAt_region
          (P ++ flatItem fuel (routeOf stack) P.length it)
          (flatForest fuel (routeOf stack)
            (P.length + (flatItem fuel (routeOf stack) P.length it).length)
            (r :: rs)) Q 0 hB1
        rw [show (P ++ flatItem fuel (routeOf stack) P.length it).length + 0 =
          P.length + (flatItem fuel (routeOf stack) P.length it).length
          from by simp] at hx
        rw [hdata2, hx]
        exact flatForest_head_route fuel _ _ (r :: rs) h0 (by simp)
      have hbet := writeBetween_close D
        (P.length + (flatItem fuel (routeOf stack) P.length it).length)
        stack spine1 hids h15 (by
          rw [show P.length + (flatItem fuel (routeOf stack) P.length it).length
            - 1 = P.length + (flatItem fuel (routeOf stack) P.length it).length
            - 1 from rfl]
          exact h14) hcur
      rw [h16] at hbet
      have hstep := writeStep_pos D
        (P.length + (flatItem fuel (routeOf stack) P.length it).length)
        (by omega) (pendItem fuel it) hd2 hbet h21
      rw [hLB, Nat.add_sub_cancel] at h22
      have hpart2 : writeSeq D (List.range'
          (P.length + (flatItem fuel (routeOf stack) P.length it).length)
          (LB0 + 1)) = some ((pendItem fuel it ++ hd2) ++ inner2) := by
        rw [show List.range'
          (P.length + (flatItem fuel (routeOf stack) P.length it).length)
          (LB0 + 1) =
          (P.length + (flatItem fuel (routeOf stack) P.length it).length) ::
            List.range'
              (P.length + (flatItem fuel (routeOf stack) P.length it).length + 1)
              LB0 from rfl]
        exact writeSeq_cons D _ _ _ _ hstep h22
      have hseq := writeSeq_append D
        (List.range' (P.length + 1)
          ((flatItem fuel (routeOf stack) P.length it).length - 1))
        (List.range'
          (P.length + (flatItem fuel (routeOf stack) P.length it).length)
          (LB0 + 1))
        inner1 ((pendItem fuel it ++ hd2) ++ inner2) h12 hpart2
      have hre : List.range' (P.length + 1)
          ((flatItem fuel (routeOf stack) P.length it).length - 1) ++
          List.range'
            (P.length + (flatItem fuel (routeOf stack) P.length it).length)
            (LB0 + 1) =
          List.range' (P.length + 1)
            ((flatForest fuel (routeOf stack) P.length (it :: r :: rs)).length
              - 1) := by
        rw [show P.length + (flatItem fuel (routeOf stack) P.length it).length =
          P.length + 1 + ((flatItem fuel (routeOf stack) P.length it).length - 1)
          from by omega]
        rw [List.range'_append_1]
        rw [show LB0 + 1 + ((flatItem fuel (routeOf stack) P.length it).length - 1)
          = (flatForest fuel (routeOf stack) P.length (it :: r :: rs)).length - 1
          from by omega]
      rw [hre] at hseq
      rw [RegionSpec]
      refine ⟨hd1, inner1 ++ ((pendItem fuel it ++ hd2) ++ inner2), spine2,
        h11, hseq, ?_, ?_, h25, ?_⟩
      · rw [openForest_cons fuel it (r :: rs) (by simp), ← h13, ← h23]
        simp
      · rw [show P.length +
          (flatForest fuel (routeOf stack) P.length (it :: r :: rs)).length - 1 =
          P.length + (flatItem fuel (routeOf stack) P.length it).length +
            (flatForest fuel (routeOf stack)
              (P.length + (flatItem fuel (routeOf stack) P.length it).length)
              (r :: rs)).length - 1 from by omega]
        exact h24
      · rw [show P.length +
          (flatForest fuel (routeOf stack) P.length (it :: r :: rs)).length - 1 =
          P.length + (flatItem fuel (routeOf stack) P.length it).length +
            (flatForest fuel (routeOf stack)
              (P.length + (flatItem fuel (routeOf stack) P.length it).length)
              (r :: rs)).length - 1 from by omega]
        rw [pendLast_cons_cons]
        exact h26

theorem write_region (D : ETree)
    (hids : ∀ i, i < D.data.length → (nodeAt D.data i).idx = i) :
    ∀ fuel : Nat,
    (∀ (it : XItem) (stack : List Nat) (P Q : List ETreeNode),
      wfItem fuel it = true → 0 < fuel →
      D.data = P ++ flatItem fuel (routeOf stack) P.length it ++ Q →
      RegionSpec D P.length (flatItem fuel (routeOf stack) P.length it).length
        stack (openItem fuel it) (pendItem fuel it)) ∧
    (∀ (items : List XItem) (stack : List Nat) (P Q : List ETreeNode),
      items.all (wfItem fuel) = true → 0 < fuel → items ≠ [] →
      D.data = P ++ flatForest fuel (routeOf stack) P.length items ++ Q →
      RegionSpec D P.length
        (flatForest fuel (routeOf stack) P.length items).length stack
        (openForest fuel items) (pendLast fuel items)) := by
  intro fuel
  induction fuel with
  | zero =>
    constructor
    · intro it stack P Q _ h0 _
      exact absurd h0 (by omega)
    · intro items stack P Q _ h0 _ _
      exact absurd h0 (by omega)
  | succ fuel ih =>
    have hitem : ∀ (it : XItem) (stack : List Nat) (P Q : List ETreeNode),
        wfItem (fuel + 1) it = true →
        D.data = P ++ flatItem (fuel + 1) (routeOf stack) P.length it ++ Q →
        RegionSpec D P.length
          (flatItem (fuel + 1) (routeOf stack) P.length it).length stack
          (openItem (fuel + 1) it) (pendItem (fuel + 1) it) := by
      intro it stack P Q hwf hdata
      match it with
      | .meta k c t => exact write_region_meta D k c t stack P Q fuel hdata
      | .elem full ns attrs none tail kids =>
        obtain ⟨hm, _, htn, _⟩ :=
          wfItem_elem_parts fuel full ns attrs none tail kids hwf
        have hke : kids = [] := htn rfl
        subst hke
        exact write_region_elem_none D full ns attrs tail stack P Q fuel
          (by rwa [Bool.not_eq_true'] at hm) hdata
      | .elem full ns attrs (some t) tail kids =>
        obtain ⟨hm, _, _, hka⟩ :=
          wfItem_elem_parts fuel full ns attrs (some t) tail kids hwf
        exact write_region_elem_some D hids fuel
          (fun items stack P Q ha hf hne hd => ih.2 items stack P Q ha hf hne hd)
          full ns attrs t tail kids stack P Q
          (by rwa [Bool.not_eq_true'] at hm) hka hdata
    exact ⟨fun it stack P Q hwf _ hdata => hitem it stack P Q hwf hdata,
      fun items stack P Q ha _ hne hd =>
        write_region_forest D (fuel + 1) hitem (by omega) hids items stack P Q
          ha hne hd⟩

theorem writeEvents_unfold (d : ETree) (hne2 : d.data ≠ []) :
    d.writeEvents = (match writeSeq d (List.range d.data.length),
      closeChain d ['#'] ((nodeAt d.data (d.data.length - 1)).route.length + 1)
        ((nodeAt d.data (d.data.length - 1)).route) with
    | some body, some chain =>
      some ([XEvent.decl d.version d.encoding d.standalone, XEvent.textE d.crlf]
        ++ body ++
        (if (nodeAt d.data (d.data.length - 1)).text.isSome
          then closeEvents d (d.data.length - 1) else []) ++ chain)
    | _, _ => none) := by
  cases hx : d.data with
  | nil => exact absurd hx hne2
  | cons x xs =>
    rw [ETree.writeEvents, hx]

theorem writeEvents_of_flat (fuel : Nat) (F : List XItem)
    (hwf : F.all (wfItem fuel) = true) (h0 : 0 < fuel) (hne : F ≠ [])
    (D : ETree) (hD : D.data = flatForest fuel ['#'] 0 F) :
    D.writeEvents = some
      ([XEvent.decl D.version D.encoding D.standalone, XEvent.textE D.crlf] ++
        streamForest fuel true (F.map (normItem fuel))) := by
  have hlenpos : 0 < D.data.length := by
    rw [hD]
    exact flatForest_len_pos fuel h0 ['#'] 0 F hne
  have hne2 : D.data ≠ [] := by
    intro hc
    rw [hc] at hlenpos
    simp at hlenpos
  have hids : ∀ i, i < D.data.length → (nodeAt D.data i).idx = i := by
    intro i hi
    rw [hD] at hi ⊢
    have := (flat_ids fuel).2 F ['#'] 0 i hi
    rwa [Nat.zero_add] at this
  have hdata : D.data = ([] : List ETreeNode) ++
      flatForest fuel (routeOf []) (List.length ([] : List ETreeNode)) F ++
      [] := by
    rw [hD, List.append_nil]
    rfl
  obtain ⟨hd, inner, spine, h1, h2, h3, h4, h5, h6⟩ :=
    (write_region D hids fuel).2 F [] [] [] hwf h0 hne hdata
  have hDL : (flatForest fuel (routeOf [])
      (List.length ([] : List ETreeNode)) F).length = D.data.length := by
    rw [hD]
    rfl
  rw [hDL] at h2 h4 h6
  rw [show (List.length ([] : List ETreeNode)) = 0 from rfl] at h1 h2 h4 h6
  rw [Nat.zero_add] at h2 h4 h6
  rw [List.nil_append] at h4
  have hws0 : writeStep D 0 = some ([] ++ hd) := by
    rw [writeStep, if_pos rfl, h1]
  have hrange : List.range D.data.length =
      0 :: List.range' 1 (D.data.length - 1) := by
    rw [List.range_eq_range']
    rw [show D.data.length = (D.data.length - 1) + 1 from by omega]
    rfl
  have hws : writeSeq D (List.range D.data.length) =
      some (([] ++ hd) ++ inner) := by
    rw [hrange]
    exact writeSeq_cons D 0 _ _ _ hws0 h2
  have hchain : (if (nodeAt D.data (D.data.length - 1)).text.isSome
      then closeEvents D (D.data.length - 1) else []) ++
      (spine.reverse.map (closeEvents D)).join = pendLast fuel F := h6
  rw [writeEvents_unfold D hne2, hws, h4]
  by_cases hsp : spine = []
  · subst hsp
    rw [show routeOf ([] : List Nat) = ['#'] from rfl]
    rw [show closeChain D ['#'] ((['#'] : Chars).length + 1) ['#'] = some []
      from rfl]
    simp only []
    rw [(stream_decomp fuel).2 F]
    rw [← h3, ← hchain]
    simp
  · have hflen : spine.length < (routeOf spine).length + 1 := by
      have hx1 := routeExt_len_ge spine
      have hx2 := congrArg List.length (routeOf_append_ext spine [])
      rw [List.nil_append, List.length_append] at hx2
      omega
    have hcs := closeChain_stack D hids ((routeOf spine).length + 1) spine []
      hsp hflen h5
    rw [List.nil_append] at hcs
    rw [show routeOf ([] : List Nat) = ['#'] from rfl] at hcs
    rw [hcs]
    simp only []
    rw [(stream_decomp fuel).2 F]
    rw [← h3, ← hchain]
    simp

theorem roundtrip_data (fuel : Nat) (F : List XItem) (h0 : 0 < fuel)
    (hne : F ≠ []) (hwf : F.all (wfItem fuel) = true) :
    ∃ w, (readDoc (streamForest fuel false F)).writeEvents = some w ∧
      (readDoc (normalizeEvents w)).data =
        (readDoc (streamForest fuel false F)).data.map eraseNs := by
  have hD := readDoc_stream fuel F hwf
  have hDdata : (readDoc (streamForest fuel false F)).data =
      flatForest fuel ['#'] 0 F := by
    rw [hD]
  have hw : normalizeEvents
      ([XEvent.decl (readDoc (streamForest fuel false F)).version
          (readDoc (streamForest fuel false F)).encoding
          (readDoc (streamForest fuel false F)).standalone,
        XEvent.textE (readDoc (streamForest fuel false F)).crlf] ++
        streamForest fuel true (F.map (normItem fuel))) =
      [XEvent.decl [] none none, XEvent.textE ['\n']] ++
        streamForest fuel false (F.map (normItem fuel)) := by
    rw [normalize_append, (normalize_stream fuel).2]
    rw [hD]
    rfl
  refine ⟨_, writeEvents_of_flat fuel F hwf h0 hne _ hDdata, ?_⟩
  rw [hw]
  rw [readDoc, readFold_append]
  rw [show readFold freshDoc { route := ['#'], status := 0, closeidx := 0 }
      [XEvent.decl [] none none, XEvent.textE ['\n']] =
      (freshDoc, { route := ['#'], status := 0, closeidx := 0 }) from rfl]
  obtain ⟨st, cix, hr⟩ := (read_adequate fuel).2 (F.map (normItem fuel))
    freshDoc { route := ['#'], status := 0, closeidx := 0 }
    ((wfItem_norm fuel).2 F hwf) rfl routeOK_root
  rw [hr]
  dsimp only [freshDoc]
  rw [List.nil_append]
  rw [(flat_norm fuel).2 F ['#'] 0 hwf]
  rw [hDdata]

/-- The node fields the round-trip claim compares: tag name, namespace
prefix, attribute list (keys, values and order), text and tail. -/
def nodeObs (n : ETreeNode) :
    Chars × Chars × List (Chars × Chars) × Option Chars × Chars :=
  (n.name, n.nsAbbrev, n.attrs, n.text, n.tail)

/-- C1: for every document obtained by parsing a well-formed XML input
(modelled as a nonempty forest of properly nested tag items, with
namespace-well-formed tag names and nesting depth within the fuel bound),
serializing the document with `write` and re-parsing the written events
yields a document equal to it in node sequence: the sequences have the same
length and agree node for node on tag name, namespace prefix, attributes
(keys, values, and order), text field and tail field (indeed on every field
except the resolved-namespace URI, which `write` does not serialize). -/
theorem c1_write_read_roundtrip (fuel : Nat) (F : List XItem) (h0 : 0 < fuel)
    (hne : F ≠ []) (hwf : F.all (wfItem fuel) = true) :
    ∃ w, (readDoc (streamForest fuel false F)).writeEvents = some w ∧
      (readDoc (normalizeEvents w)).data.map nodeObs =
        (readDoc (streamForest fuel false F)).data.map nodeObs := by
  obtain ⟨w, hw, hdata⟩ := roundtrip_data fuel F h0 hne hwf
  refine ⟨w, hw, ?_⟩
  rw [hdata, List.map_map]
  rfl

def c1F : List XItem :=
  [XItem.elem ['a', ':', 'b'] (some ['u']) [(['k'], ['v'])] (some ['T'])
    ['t', '1']
    [XItem.meta MetaKind.comment ['c'] ['t', '2'],
     XItem.elem ['c'] none [] none ['t', '3'] []],
   XItem.meta MetaKind.pi ['p'] []]

theorem c1_write_read_roundtrip_witness :
    ∃ w, (readDoc (streamForest 3 false c1F)).writeEvents = some w ∧
      (readDoc (normalizeEvents w)).data.map nodeObs =
        (readDoc (streamForest 3 false c1F)).data.map nodeObs :=
  c1_write_read_roundtrip 3 c1F (by decide)
    (by rw [c1F]; exact List.cons_ne_nil _ _) (by decide)
